import Mathlib

/-!
Shallow embedding of the lwnl event queue (TizenRT, `lwnl_evt_queue.c`).

The C module keeps a fixed array `g_queue` of listener slots, a global
listener counter `g_connected`, and heap-allocated event nodes
(`struct lwnl_event`) linked by `flink` pointers and shared between the
per-slot chains through a reference count `refs`.

Modelling decisions:
  * The heap is a list `Heap := List (Option lwnl_event)`; an address is an
    index, `kmm_malloc` appends at the end, `kmm_free` replaces the entry
    with `none`.  Pointers (`flink`, `front`, `rear`) become `Option Nat`.
  * `struct file *filep` is an opaque identity token, modelled as `Option Nat`
    in a slot (`none` = free slot, mirroring the NULL check in the C code).
  * `kmm_malloc` outcomes are oracle booleans passed to the operations
    (`evtAlloc` for the node, `bufAlloc` for the scan buffer).
  * Byte buffers are `List Nat`; `memcpy` of the 4-byte status tag and the
    4-byte `uint32_t` length field writes little-endian byte lists.
  * `refs` is `int8_t` in C; it stays within `[0, LWNL_NPOLLWAITERS]` in all
    reachable states, so plain `Int` is a faithful model (no wraparound).
  * The `while` loop draining a chain in `lwnl_remove_listener` is modelled
    with fuel `heap.length`; in every state satisfying the verified invariant
    the chain is shorter than the heap, so the fuel never runs out.
  * Branches where the C program would dereference an invalid pointer
    (a dangling `front`, a NULL `rear` with non-NULL `front`) are modelled as
    no-ops; the invariant proved below shows they are unreachable.
-/

/-- `LWNL_NPOLLWAITERS`: the configured maximum number of simultaneous
listeners.  The constant comes from `lwnl_evt_queue.h` (not among the given
sources); only positivity matters to the development. -/
def LWNL_NPOLLWAITERS : Nat := 5

/-- Event kinds (`lwnl_cb_status` enumeration from `tinyara/net/if/wifi.h`). -/
inductive LwnlStatus where
  | LWNL_STA_CONNECTED
  | LWNL_STA_CONNECT_FAILED
  | LWNL_STA_DISCONNECTED
  | LWNL_SOFTAP_STA_JOINED
  | LWNL_SOFTAP_STA_LEFT
  | LWNL_SCAN_FAILED
  | LWNL_SCAN_DONE
  | LWNL_UNKNOWN
  deriving DecidableEq, Repr

/-- Numeric tag of an event kind, as written into the 4-byte header field. -/
def statusCode : LwnlStatus → Nat
  | .LWNL_STA_CONNECTED => 0
  | .LWNL_STA_CONNECT_FAILED => 1
  | .LWNL_STA_DISCONNECTED => 2
  | .LWNL_SOFTAP_STA_JOINED => 3
  | .LWNL_SOFTAP_STA_LEFT => 4
  | .LWNL_SCAN_FAILED => 5
  | .LWNL_SCAN_DONE => 6
  | .LWNL_UNKNOWN => 7

/-- `lwnl_cb_data`: status tag, owned payload buffer (`data`, `none` = NULL)
and its length `data_len`. -/
structure lwnl_cb_data where
  status : LwnlStatus
  data : Option (List Nat)
  data_len : Nat
  deriving DecidableEq, Repr

/-- `struct lwnl_event`: chain pointer `flink`, payload record, refcount. -/
structure lwnl_event where
  flink : Option Nat
  data : lwnl_cb_data
  refs : Int
  deriving DecidableEq, Repr

/-- The heap of event nodes: index = address, `none` = freed / unallocated. -/
abbrev Heap : Type := List (Option lwnl_event)

/-- Dereference an event pointer (`none` if freed or out of range). -/
def hget (h : Heap) (e : Nat) : Option lwnl_event :=
  (List.getD h e none)

/-- In-place update of a live node (no-op on a dead address, which the C
code would never reach). -/
def hmod (h : Heap) (e : Nat) (f : lwnl_event → lwnl_event) : Heap :=
  match hget h e with
  | some n => List.set h e (some (f n))
  | none => h

/-- `struct lwnl_queue`: one listener slot. -/
structure lwnl_queue where
  filep : Option Nat
  check_header : Nat
  front : Option Nat
  rear : Option Nat
  deriving DecidableEq, Repr

/-- The global state: `g_queue`, `g_connected` and the node heap. -/
structure LwnlState where
  queues : List lwnl_queue
  connected : Int
  heap : Heap
  deriving DecidableEq, Repr

/-- An empty slot, as produced by `lwnl_queue_initialize` and by
`lwnl_remove_listener`. -/
def emptySlot : lwnl_queue := ⟨none, 0, none, none⟩

/-- State after `lwnl_queue_initialize` (fresh heap). -/
def initState : LwnlState :=
  ⟨List.replicate LWNL_NPOLLWAITERS emptySlot, 0, []⟩

/-- `_lwnl_remove_event`: decrement `refs`; once it is no longer positive,
free the payload and the node itself. -/
def _lwnl_remove_event (h : Heap) (e : Nat) : Heap :=
  match hget h e with
  | none => h
  | some n =>
    if n.refs - 1 > 0 then List.set h e (some { n with refs := n.refs - 1 })
    else List.set h e none

/-- Size in bytes of `trwifi_ap_scan_info_s`.  The struct lives in a header
that is not among the given sources; the development only uses that the
size is a fixed positive constant. -/
def AP_SCAN_INFO_SIZE : Nat := 60

/-- Little-endian 4-byte serialization (the two `memcpy` calls writing the
4-byte status and the 4-byte `uint32_t` length). -/
def le4 (n : Nat) : List Nat :=
  [n % 256, n / 256 % 256, n / 65536 % 256, n / 16777216 % 256]

/-- The bytes `memcpy` reads out of one `trwifi_ap_scan_info_s` record: the
struct is exactly `AP_SCAN_INFO_SIZE` bytes.  A model record of exactly that
length is copied verbatim. -/
def recordBytes (r : List Nat) : List Nat :=
  List.take AP_SCAN_INFO_SIZE r ++
    List.replicate (AP_SCAN_INFO_SIZE - r.length) 0

/-- `memcpy(buf + off, src, src.length)` into a byte buffer. -/
def writeBytes (buf : List Nat) (off : Nat) : List Nat → List Nat
  | [] => buf
  | b :: bs => writeBytes (List.set buf off b) (off + 1) bs

/-- The second traversal of `_lwnl_copy_scan_info`: copy record `cnt` to
offset `sizeof(trwifi_ap_scan_info_s) * cnt`. -/
def copyRecords (buf : List Nat) (cnt : Nat) : List (List Nat) → List Nat
  | [] => buf
  | r :: rest =>
      copyRecords (writeBytes buf (AP_SCAN_INFO_SIZE * cnt) (recordBytes r))
        (cnt + 1) rest

/-- `_lwnl_copy_scan_info`: count the records, allocate `count * size`
bytes (`allocOk` is the `kmm_malloc` oracle; on failure return `-1` and no
buffer), then copy each record contiguously.  Returns the total byte count
and the produced buffer. -/
def _lwnl_copy_scan_info (allocOk : Bool) (scan_list : List (List Nat)) :
    Int × Option (List Nat) :=
  let total := scan_list.length
  if allocOk = false then (-1, none)
  else
    let buf := List.replicate (AP_SCAN_INFO_SIZE * total) 0
    ((total * AP_SCAN_INFO_SIZE : Nat), some (copyRecords buf 0 scan_list))

/-- Inner loop of `_lwnl_add_event`: for every occupied slot, stamp the new
node's refcount with `g_connected` and splice the node at the slot's rear
(or make it the single element when the slot's chain is empty). -/
def addEventLoop (e : Nat) (conn : Int) (h : Heap) :
    List lwnl_queue → Heap × List lwnl_queue
  | [] => (h, [])
  | q :: rest =>
    match q.filep with
    | none =>
      let p := addEventLoop e conn h rest
      (p.1, q :: p.2)
    | some _ =>
      let h₁ := hmod h e (fun n => { n with refs := conn })
      match q.front with
      | none =>
        let p := addEventLoop e conn h₁ rest
        (p.1, { q with front := some e, rear := some e } :: p.2)
      | some _ =>
        match q.rear with
        | none =>
          -- `rear` NULL with `front` non-NULL: the C code would crash here;
          -- unreachable under the invariant proved below.
          let p := addEventLoop e conn h₁ rest
          (p.1, q :: p.2)
        | some r =>
          let h₂ := hmod h₁ r (fun n => { n with flink := some e })
          let p := addEventLoop e conn h₂ rest
          (p.1, { q with rear := some e } :: p.2)

/-- `_lwnl_add_event`: clear the node's `flink`, link into every occupied
slot.  Always returns 0. -/
def _lwnl_add_event (e : Nat) (s : LwnlState) : Int × LwnlState :=
  let h₀ := hmod s.heap e (fun n => { n with flink := none })
  let p := addEventLoop e s.connected h₀ s.queues
  (0, { s with heap := p.1, queues := p.2 })

/-- The `lwnl_cb_data` record built by `lwnl_add_event`'s `switch` for a
recognized kind: connection-state kinds carry no payload; `LWNL_SCAN_DONE`
serializes the scan list, downgrading to `LWNL_SCAN_FAILED` with no payload
when `_lwnl_copy_scan_info` fails. -/
def evtDataFor (type : LwnlStatus) (scan_list : List (List Nat))
    (bufAlloc : Bool) : lwnl_cb_data :=
  match type with
  | .LWNL_SCAN_DONE =>
    let r := _lwnl_copy_scan_info bufAlloc scan_list
    if r.1 < 0 then ⟨.LWNL_SCAN_FAILED, none, 0⟩
    else ⟨.LWNL_SCAN_DONE, r.2, r.1.toNat⟩
  | t => ⟨t, none, 0⟩

/-- `lwnl_add_event`: allocate a node (`evtAlloc` oracle), fill it per the
kind `switch` (`LWNL_UNKNOWN` returns `-3` leaving the fresh node allocated,
exactly as the C code does), then `_lwnl_add_event`.  The `res < 0` branch
after `_lwnl_add_event` frees the node and returns `-2`; it is dead code
because `_lwnl_add_event` always returns 0. -/
def lwnl_add_event (type : LwnlStatus) (scan_list : List (List Nat))
    (evtAlloc bufAlloc : Bool) (s : LwnlState) : Int × LwnlState :=
  if evtAlloc = false then (-1, s)
  else
    let e := s.heap.length
    match type with
    | .LWNL_UNKNOWN =>
      -- the C code returns -3 here without freeing `evt`; its data fields
      -- are never written (modelled with defaults)
      (-3, { s with heap := s.heap ++ [some ⟨none, ⟨.LWNL_UNKNOWN, none, 0⟩, 0⟩] })
    | t =>
      let d := evtDataFor t scan_list bufAlloc
      let s₁ : LwnlState := { s with heap := s.heap ++ [some ⟨none, d, 0⟩] }
      let r := _lwnl_add_event e s₁
      if r.1 < 0 then
        (-2, { r.2 with heap := List.set r.2.heap e none })
      else (0, r.2)

/-- Loop body of `lwnl_get_event` once the matching slot is found: the
two-phase header/payload read protocol.  Returns the written byte count (or
`-1`), the bytes written into the caller's buffer, and the updated heap and
slot. -/
def getEventSlot (len : Nat) (h : Heap) (q : lwnl_queue) :
    Int × List Nat × Heap × lwnl_queue :=
  match q.front with
  | none => (0, [], h, q)
  | some e =>
    match hget h e with
    | none => (0, [], h, q)  -- dangling front: C reads freed memory; unreachable
    | some evt =>
      if q.check_header = 0 then
        if len < 4 + 4 then (-1, [], h, q)
        else
          let out := le4 (statusCode evt.data.status) ++ le4 evt.data.data_len
          if 0 < evt.data.data_len then
            (8, out, h, { q with check_header := 1 })
          else
            (8, out, _lwnl_remove_event h e, { q with front := evt.flink })
      else
        if len < evt.data.data_len then (-1, [], h, q)
        else
          let out := (evt.data.data.getD []).take evt.data.data_len
          ((evt.data.data_len : Int), out, _lwnl_remove_event h e,
            { q with check_header := 0, front := evt.flink })

/-- Slot-scanning loop of `lwnl_get_event`: the first slot whose `filep`
matches is read; if none matches the function returns `-1`. -/
def getEventLoop (f : Nat) (len : Nat) (h : Heap) :
    List lwnl_queue → Int × List Nat × Heap × List lwnl_queue
  | [] => (-1, [], h, [])
  | q :: rest =>
    if q.filep = some f then
      let p := getEventSlot len h q
      (p.1, p.2.1, p.2.2.1, p.2.2.2 :: rest)
    else
      let p := getEventLoop f len h rest
      (p.1, p.2.1, p.2.2.1, q :: p.2.2.2)

/-- `lwnl_get_event(filep, buf, len)`: result code, bytes written, new state. -/
def lwnl_get_event (f : Nat) (len : Nat) (s : LwnlState) :
    Int × List Nat × LwnlState :=
  let p := getEventLoop f len s.heap s.queues
  (p.1, p.2.1, { s with heap := p.2.2.1, queues := p.2.2.2 })

/-- `lwnl_add_listener`: occupy the first free slot (only `filep` is
written; the slot is already clean).  Returns `-1` when the table is full. -/
def addListenerLoop (f : Nat) : List lwnl_queue → Option (List lwnl_queue)
  | [] => none
  | q :: rest =>
    match q.filep with
    | none => some ({ q with filep := some f } :: rest)
    | some _ => (addListenerLoop f rest).map (q :: ·)

/-- `lwnl_add_listener`. -/
def lwnl_add_listener (f : Nat) (s : LwnlState) : Int × LwnlState :=
  match addListenerLoop f s.queues with
  | some qs => (0, { s with queues := qs, connected := s.connected + 1 })
  | none => (-1, s)

/-- The `while (g_queue[i].front)` drain loop of `lwnl_remove_listener`:
read `flink`, then release the node.  Modelled with fuel; under the
invariant the fuel `heap.length` always suffices. -/
def drainChain (h : Heap) (front : Option Nat) : Nat → Heap × Option Nat
  | 0 => (h, front)
  | fuel + 1 =>
    match front with
    | none => (h, none)
    | some e =>
      match hget h e with
      | none => (h, some e)  -- dangling front: unreachable under the invariant
      | some n => drainChain (_lwnl_remove_event h e) n.flink fuel

/-- Slot scan of `lwnl_remove_listener`: first match is drained and cleared;
reports whether a slot was found (to decrement `g_connected`). -/
def removeListenerLoop (f : Nat) (h : Heap) :
    List lwnl_queue → Heap × List lwnl_queue × Bool
  | [] => (h, [], false)
  | q :: rest =>
    if q.filep = some f then
      ((drainChain h q.front h.length).1, emptySlot :: rest, true)
    else
      let p := removeListenerLoop f h rest
      (p.1, q :: p.2.1, p.2.2)

/-- `lwnl_remove_listener`: silently succeeds (returns 0) whether or not the
identity is registered. -/
def lwnl_remove_listener (f : Nat) (s : LwnlState) : Int × LwnlState :=
  let p := removeListenerLoop f s.heap s.queues
  let c := s.connected - (if p.2.2 then 1 else 0)
  (0, { s with heap := p.1, queues := p.2.1, connected := c })

/-- `lwnl_check_queue` (`has_pending`): 1 iff the matching slot has a
pending node; 0 when the slot is empty or the identity unknown. -/
def checkQueueLoop (f : Nat) : List lwnl_queue → Int
  | [] => 0
  | q :: rest =>
    if q.filep = some f then (if q.front ≠ none then 1 else 0)
    else checkQueueLoop f rest

/-- `lwnl_check_queue`. -/
def lwnl_check_queue (f : Nat) (s : LwnlState) : Int :=
  checkQueueLoop f s.queues

/-- One external operation on the module. -/
inductive LwnlOp where
  | emit (type : LwnlStatus) (scan_list : List (List Nat))
      (evtAlloc bufAlloc : Bool)
  | readEvt (f : Nat) (len : Nat)
  | addLis (f : Nat)
  | removeLis (f : Nat)
  deriving DecidableEq, Repr

/-- State transition of one operation. -/
def step (s : LwnlState) : LwnlOp → LwnlState
  | .emit t sl ea ba => (lwnl_add_event t sl ea ba s).2
  | .readEvt f len => (lwnl_get_event f len s).2.2
  | .addLis f => (lwnl_add_listener f s).2
  | .removeLis f => (lwnl_remove_listener f s).2

/-- Run a sequence of operations from the initialized state. -/
def run (ops : List LwnlOp) : LwnlState :=
  ops.foldl step initState

/-! ### Basic facts about the heap model -/

/-- The payload/status record stored at an address (`none` if freed). -/
def dataAt (h : Heap) (e : Nat) : Option lwnl_cb_data :=
  (hget h e).map (fun n => n.data)

/-- The `flink` field of the node at an address (`none` if freed). -/
def flinkAt (h : Heap) (e : Nat) : Option Nat :=
  match hget h e with
  | some n => n.flink
  | none => none

/-- The `refs` field of the node at an address (0 if freed). -/
def refsAt (h : Heap) (e : Nat) : Int :=
  match hget h e with
  | some n => n.refs
  | none => 0

theorem hget_eq_getElem (h : Heap) (e : Nat) : hget h e = (h[e]?).getD none := by
  simp [hget, List.getD_eq_getElem?_getD]

theorem hget_lt {h : Heap} {e : Nat} {n : lwnl_event} (hx : hget h e = some n) :
    e < h.length := by
  by_contra hc
  rw [hget_eq_getElem] at hx
  rw [List.getElem?_eq_none (by omega)] at hx
  simp at hx

theorem hget_set_self {h : Heap} {e : Nat} {v : Option lwnl_event}
    (he : e < h.length) : hget (h.set e v) e = v := by
  rw [hget_eq_getElem, List.getElem?_set_eq (by simpa using he)]
  rfl

theorem hget_set_ne {h : Heap} {e x : Nat} {v : Option lwnl_event}
    (hx : x ≠ e) : hget (h.set e v) x = hget h x := by
  rw [hget_eq_getElem, hget_eq_getElem, List.getElem?_set_ne (by omega)]

theorem hget_append {h : Heap} {l : Heap} {x : Nat} (hx : x < h.length) :
    hget (h ++ l) x = hget h x := by
  rw [hget_eq_getElem, hget_eq_getElem, List.getElem?_append_left hx]

theorem hget_append_new {h : Heap} {v : Option lwnl_event} :
    hget (h ++ [v]) h.length = v := by
  simp [hget, List.getD_append_right _ _ _ _ (Nat.le_refl _)]

theorem hmod_length (h : Heap) (e : Nat) (f : lwnl_event → lwnl_event) :
    (hmod h e f).length = h.length := by
  unfold hmod
  cases hget h e <;> simp

theorem hmod_get_self {h : Heap} {e : Nat} {f : lwnl_event → lwnl_event}
    {n : lwnl_event} (hx : hget h e = some n) :
    hget (hmod h e f) e = some (f n) := by
  unfold hmod
  rw [hx]
  exact hget_set_self (hget_lt hx)

theorem hmod_get_ne {h : Heap} {e x : Nat} {f : lwnl_event → lwnl_event}
    (hx : x ≠ e) : hget (hmod h e f) x = hget h x := by
  unfold hmod
  cases hget h e <;> simp [hget_set_ne hx]

theorem hmod_dead {h : Heap} {e : Nat} {f : lwnl_event → lwnl_event}
    (hx : hget h e = none) : hmod h e f = h := by
  unfold hmod
  rw [hx]

theorem remove_length (h : Heap) (e : Nat) :
    (_lwnl_remove_event h e).length = h.length := by
  unfold _lwnl_remove_event
  cases hget h e <;> simp
  split <;> simp

theorem remove_dead {h : Heap} {e : Nat} (hx : hget h e = none) :
    _lwnl_remove_event h e = h := by
  unfold _lwnl_remove_event
  rw [hx]

theorem remove_get_ne {h : Heap} {e x : Nat} (hx : x ≠ e) :
    hget (_lwnl_remove_event h e) x = hget h x := by
  rcases hh : hget h e with _ | n
  · rw [remove_dead hh]
  · unfold _lwnl_remove_event
    rw [hh]
    dsimp only
    split <;> rw [hget_set_ne hx]

theorem remove_get_self {h : Heap} {e : Nat} {n : lwnl_event}
    (hx : hget h e = some n) :
    hget (_lwnl_remove_event h e) e =
      if n.refs - 1 > 0 then some { n with refs := n.refs - 1 } else none := by
  have he := hget_lt hx
  unfold _lwnl_remove_event
  rw [hx]
  dsimp only
  by_cases hr : n.refs - 1 > 0
  · simp only [if_pos hr, hget_set_self he]
  · simp only [if_neg hr, hget_set_self he]

/-! ### The scan-list serializer (`_lwnl_copy_scan_info`) -/

theorem recordBytes_length (r : List Nat) :
    (recordBytes r).length = AP_SCAN_INFO_SIZE := by
  simp [recordBytes]
  omega

theorem recordBytes_exact {r : List Nat} (hr : r.length = AP_SCAN_INFO_SIZE) :
    recordBytes r = r := by
  simp [recordBytes, hr, List.take_of_length_le (le_of_eq hr)]

theorem writeBytes_spec : ∀ (bs buf : List Nat) (off : Nat),
    off + bs.length ≤ buf.length →
    writeBytes buf off bs =
      buf.take off ++ bs ++ buf.drop (off + bs.length) := by
  intro bs
  induction bs with
  | nil => intro buf off h; simp [writeBytes]
  | cons b bs ih =>
    intro buf off h
    have hlen : (b :: bs).length = bs.length + 1 := rfl
    have hoff : off < buf.length := by rw [hlen] at h; omega
    rw [writeBytes, ih _ _ (by rw [List.length_set]; rw [hlen] at h; omega)]
    have hset : buf.set off b = buf.take off ++ b :: buf.drop (off + 1) := by
      rw [List.set_eq_take_append_cons_drop, if_pos hoff]
    have htklen : (List.take off buf).length = off := by
      rw [List.length_take]; omega
    have h1 : (buf.set off b).take (off + 1) = buf.take off ++ [b] := by
      rw [hset, List.take_append_eq_append_take, htklen,
          List.take_of_length_le (by rw [htklen]; omega)]
      have hone : off + 1 - off = 1 := by omega
      rw [hone]
      simp
    have h2 : (buf.set off b).drop (off + 1 + bs.length) =
        buf.drop (off + (b :: bs).length) := by
      rw [List.drop_set_of_lt _ _ (by omega)]
      rw [hlen]
      congr 1
      omega
    rw [h1, h2]
    simp

theorem copyRecords_spec : ∀ (l : List (List Nat)) (buf : List Nat) (cnt : Nat),
    buf.length = AP_SCAN_INFO_SIZE * cnt + AP_SCAN_INFO_SIZE * l.length →
    copyRecords buf cnt l =
      buf.take (AP_SCAN_INFO_SIZE * cnt) ++ (l.map recordBytes).flatten := by
  intro l
  induction l with
  | nil =>
    intro buf cnt h
    simp only [List.length_nil, Nat.mul_zero, Nat.add_zero] at h
    simp [copyRecords, List.take_of_length_le (le_of_eq h)]
  | cons r rest ih =>
    intro buf cnt h
    have hmul : AP_SCAN_INFO_SIZE * (r :: rest).length =
        AP_SCAN_INFO_SIZE * rest.length + AP_SCAN_INFO_SIZE := by
      rw [List.length_cons, Nat.mul_succ]
    have hmul2 : AP_SCAN_INFO_SIZE * (cnt + 1) =
        AP_SCAN_INFO_SIZE * cnt + AP_SCAN_INFO_SIZE := Nat.mul_succ _ _
    rw [copyRecords]
    have hw : writeBytes buf (AP_SCAN_INFO_SIZE * cnt) (recordBytes r) =
        buf.take (AP_SCAN_INFO_SIZE * cnt) ++ recordBytes r ++
          buf.drop (AP_SCAN_INFO_SIZE * cnt + AP_SCAN_INFO_SIZE) := by
      rw [writeBytes_spec _ _ _ (by rw [recordBytes_length]; omega), recordBytes_length]
    have hwlen : (writeBytes buf (AP_SCAN_INFO_SIZE * cnt) (recordBytes r)).length =
        AP_SCAN_INFO_SIZE * (cnt + 1) + AP_SCAN_INFO_SIZE * rest.length := by
      rw [hw]
      simp only [List.length_append, List.length_take, List.length_drop,
        recordBytes_length]
      omega
    rw [ih _ (cnt + 1) hwlen]
    have htklen : (buf.take (AP_SCAN_INFO_SIZE * cnt)).length =
        AP_SCAN_INFO_SIZE * cnt := by
      rw [List.length_take]; omega
    have htk : (buf.take (AP_SCAN_INFO_SIZE * cnt) ++ recordBytes r ++
        buf.drop (AP_SCAN_INFO_SIZE * cnt + AP_SCAN_INFO_SIZE)).take
          (AP_SCAN_INFO_SIZE * (cnt + 1)) =
        buf.take (AP_SCAN_INFO_SIZE * cnt) ++ recordBytes r := by
      apply List.take_left'
      rw [List.length_append, htklen, recordBytes_length]
      omega
    rw [hw, htk]
    simp [List.map_cons, List.flatten_cons]

/-- Claim C8 (body): on a successful allocation the serializer returns
exactly `count * record_size` bytes — the records concatenated in list
order; on allocation failure it returns `-1` and no buffer. -/
theorem copy_scan_info_spec (l : List (List Nat))
    (hr : ∀ r ∈ l, r.length = AP_SCAN_INFO_SIZE) :
    _lwnl_copy_scan_info true l =
      (((l.length * AP_SCAN_INFO_SIZE : Nat) : Int), some l.flatten) ∧
    l.flatten.length = l.length * AP_SCAN_INFO_SIZE ∧
    _lwnl_copy_scan_info false l = (-1, none) := by
  have hmap : l.map recordBytes = l := by
    conv_rhs => rw [← List.map_id l]
    apply List.map_congr_left
    intro r hrl
    simp [recordBytes_exact (hr r hrl)]
  refine ⟨?_, ?_, by simp [_lwnl_copy_scan_info]⟩
  · unfold _lwnl_copy_scan_info
    simp only [Bool.true_eq_false, if_false]
    rw [copyRecords_spec _ _ 0 (by simp)]
    rw [hmap]
    simp
  · rw [← hmap, List.length_flatten, List.map_map]
    have hc : List.map (List.length ∘ recordBytes) l =
        List.map (Function.const (List Nat) AP_SCAN_INFO_SIZE) l := by
      apply List.map_congr_left
      intro r _
      simp [recordBytes_length, Function.const]
    rw [hc, List.map_const, List.sum_replicate]
    simp [Nat.mul_comm]

/-! ### Characterization of `_lwnl_add_event` -/

/-- Per-slot effect of `_lwnl_add_event` on the queue table. -/
def emitSlotUpd (e : Nat) (q : lwnl_queue) : lwnl_queue :=
  match q.filep with
  | none => q
  | some _ =>
    match q.front with
    | none => { q with front := some e, rear := some e }
    | some _ =>
      match q.rear with
      | none => q
      | some _ => { q with rear := some e }

theorem hmod_dataAt {h : Heap} {y : Nat} {f : lwnl_event → lwnl_event}
    (hf : ∀ n, (f n).data = n.data) (x : Nat) :
    dataAt (hmod h y f) x = dataAt h x := by
  by_cases hx : x = y
  · subst hx
    rcases hh : hget h x with _ | n
    · rw [hmod_dead hh]
    · unfold dataAt
      rw [hmod_get_self hh, hh]
      simp [hf]
  · unfold dataAt
    rw [hmod_get_ne hx]

theorem hmod_isSome (h : Heap) (y : Nat) (f : lwnl_event → lwnl_event)
    (x : Nat) : (hget (hmod h y f) x).isSome = (hget h x).isSome := by
  by_cases hx : x = y
  · subst hx
    rcases hh : hget h x with _ | n
    · rw [hmod_dead hh, hh]
    · simp [hmod_get_self hh, hh]
  · rw [hmod_get_ne hx]

theorem hmod_dataAt_refs {h : Heap} {y : Nat} {conn : Int} (x : Nat) :
    dataAt (hmod h y (fun n => { n with refs := conn })) x = dataAt h x :=
  hmod_dataAt (f := fun n => { n with refs := conn }) (fun _ => rfl) x

theorem hmod_dataAt_flink {h : Heap} {y : Nat} {v : Option Nat} (x : Nat) :
    dataAt (hmod h y (fun n => { n with flink := v })) x = dataAt h x :=
  hmod_dataAt (f := fun n => { n with flink := v }) (fun _ => rfl) x

theorem addEventLoop_queues (e : Nat) (conn : Int) :
    ∀ (qs : List lwnl_queue) (h : Heap),
    (addEventLoop e conn h qs).2 = qs.map (emitSlotUpd e) := by
  intro qs
  induction qs with
  | nil => intro h; rfl
  | cons q rest ih =>
    intro h
    obtain ⟨fp, ch, fr, re⟩ := q
    cases fp <;> cases fr <;> cases re <;>
      simp [addEventLoop, emitSlotUpd, ih]

theorem addEventLoop_length (e : Nat) (conn : Int) :
    ∀ (qs : List lwnl_queue) (h : Heap),
    (addEventLoop e conn h qs).1.length = h.length := by
  intro qs
  induction qs with
  | nil => intro h; rfl
  | cons q rest ih =>
    intro h
    obtain ⟨fp, ch, fr, re⟩ := q
    cases fp <;> cases fr <;> cases re <;>
      simp [addEventLoop, ih, hmod_length]

theorem addEventLoop_dataAt (e : Nat) (conn : Int) :
    ∀ (qs : List lwnl_queue) (h : Heap) (x : Nat),
    dataAt (addEventLoop e conn h qs).1 x = dataAt h x := by
  intro qs
  induction qs with
  | nil => intro h x; rfl
  | cons q rest ih =>
    intro h x
    obtain ⟨fp, ch, fr, re⟩ := q
    cases fp <;> cases fr <;> cases re <;>
      simp [addEventLoop, ih, hmod_dataAt_refs, hmod_dataAt_flink]

theorem addEventLoop_isSome (e : Nat) (conn : Int) :
    ∀ (qs : List lwnl_queue) (h : Heap) (x : Nat),
    (hget (addEventLoop e conn h qs).1 x).isSome = (hget h x).isSome := by
  intro qs
  induction qs with
  | nil => intro h x; rfl
  | cons q rest ih =>
    intro h x
    obtain ⟨fp, ch, fr, re⟩ := q
    cases fp <;> cases fr <;> cases re <;>
      simp [addEventLoop, ih, hmod_isSome]

theorem addEventLoop_get_other (e : Nat) (conn : Int) :
    ∀ (qs : List lwnl_queue) (h : Heap) (x : Nat), x ≠ e →
    (∀ q ∈ qs, q.filep ≠ none → q.front ≠ none → q.rear ≠ some x) →
    hget (addEventLoop e conn h qs).1 x = hget h x := by
  intro qs
  induction qs with
  | nil => intro h x _ _; rfl
  | cons q rest ih =>
    intro h x hx hr
    have hrest : ∀ q' ∈ rest, q'.filep ≠ none → q'.front ≠ none →
        q'.rear ≠ some x := fun q' hq' => hr q' (List.mem_cons_of_mem _ hq')
    obtain ⟨fp, ch, fr, re⟩ := q
    cases fp with
    | none => simpa [addEventLoop] using ih h x hx hrest
    | some v =>
      cases fr with
      | none =>
        rw [addEventLoop]
        dsimp only
        rw [ih _ x hx hrest, hmod_get_ne hx]
      | some fv =>
        cases re with
        | none =>
          rw [addEventLoop]
          dsimp only
          rw [ih _ x hx hrest, hmod_get_ne hx]
        | some rv =>
          have hrx : rv ≠ x := by
            intro hcon
            exact hr _ (List.mem_cons_self _ _) (by simp) (by simp)
              (by simp [hcon])
          rw [addEventLoop]
          dsimp only
          rw [ih _ x hx hrest, hmod_get_ne (fun hc => hrx hc.symm),
            hmod_get_ne hx]

theorem addEventLoop_get_e (e : Nat) (conn : Int) :
    ∀ (qs : List lwnl_queue) (h : Heap) (n : lwnl_event), hget h e = some n →
    (∀ q ∈ qs, q.filep ≠ none → q.front ≠ none → q.rear ≠ some e) →
    hget (addEventLoop e conn h qs).1 e =
      some (if qs.any (fun q => q.filep.isSome) then { n with refs := conn }
            else n) := by
  intro qs
  induction qs with
  | nil => intro h n hn _; simpa [addEventLoop]
  | cons q rest ih =>
    intro h n hn hr
    have hrest : ∀ q' ∈ rest, q'.filep ≠ none → q'.front ≠ none →
        q'.rear ≠ some e := fun q' hq' => hr q' (List.mem_cons_of_mem _ hq')
    obtain ⟨fp, ch, fr, re⟩ := q
    cases fp with
    | none =>
      rw [addEventLoop]
      dsimp only
      rw [ih h n hn hrest]
      simp
    | some v =>
      have hone : hget (hmod h e (fun m => { m with refs := conn })) e =
          some { n with refs := conn } := hmod_get_self hn
      cases fr with
      | none =>
        rw [addEventLoop]
        dsimp only
        rw [ih _ _ hone hrest]
        simp
      | some fv =>
        cases re with
        | none =>
          rw [addEventLoop]
          dsimp only
          rw [ih _ _ hone hrest]
          simp
        | some rv =>
          have hrv : rv ≠ e := by
            intro hc
            exact hr _ (List.mem_cons_self _ _) (by simp) (by simp)
              (by simp [hc])
          have hone2 : hget (hmod (hmod h e (fun m => { m with refs := conn }))
              rv (fun m => { m with flink := some e })) e =
              some { n with refs := conn } := by
            rw [hmod_get_ne (fun hc => hrv hc.symm)]
            exact hone
          rw [addEventLoop]
          dsimp only
          rw [ih _ _ hone2 hrest]
          simp

theorem addEventLoop_get_rear (e : Nat) (conn : Int) (rL : Nat)
    (hne : rL ≠ e) :
    ∀ (qs : List lwnl_queue) (h : Heap) (nr : lwnl_event),
    hget h rL = some nr →
    (∀ q ∈ qs, q.filep ≠ none → q.front ≠ none → q.rear = some rL) →
    hget (addEventLoop e conn h qs).1 rL =
      some (if qs.any (fun q => q.filep.isSome && q.front.isSome) then
              { nr with flink := some e }
            else nr) := by
  intro qs
  induction qs with
  | nil => intro h nr hn _; simpa [addEventLoop]
  | cons q rest ih =>
    intro h nr hn hr
    have hrest : ∀ q' ∈ rest, q'.filep ≠ none → q'.front ≠ none →
        q'.rear = some rL := fun q' hq' => hr q' (List.mem_cons_of_mem _ hq')
    obtain ⟨fp, ch, fr, re⟩ := q
    cases fp with
    | none =>
      rw [addEventLoop]
      dsimp only
      rw [ih h nr hn hrest]
      simp
    | some v =>
      have hstep : hget (hmod h e (fun m => { m with refs := conn })) rL =
          some nr := by
        rw [hmod_get_ne hne]
        exact hn
      cases fr with
      | none =>
        rw [addEventLoop]
        dsimp only
        rw [ih _ nr hstep hrest]
        simp
      | some fv =>
        have hre : re = some rL :=
          hr _ (List.mem_cons_self _ _) (by simp) (by simp)
        cases re with
        | none => exact absurd hre (by simp)
        | some rv =>
          have hrv : rv = rL := by
            injection hre
          subst hrv
          have hstep2 : hget (hmod (hmod h e (fun m => { m with refs := conn }))
              rv (fun m => { m with flink := some e })) rv =
              some { nr with flink := some e } := hmod_get_self hstep
          rw [addEventLoop]
          dsimp only
          rw [ih _ _ hstep2 hrest]
          simp

/-! ### `lwnl_add_event` return values -/

theorem _lwnl_add_event_fst (e : Nat) (s : LwnlState) :
    (_lwnl_add_event e s).1 = 0 := rfl

/-- For a recognized kind with a successful node allocation,
`lwnl_add_event` appends the node built by the `switch` and hands it to
`_lwnl_add_event`, returning 0 (the `-2` branch is dead). -/
theorem lwnl_add_event_ok (t : LwnlStatus) (sl : List (List Nat)) (ba : Bool)
    (s : LwnlState) (ht : t ≠ .LWNL_UNKNOWN) :
    lwnl_add_event t sl true ba s =
      (0, (_lwnl_add_event s.heap.length
        { s with heap :=
            s.heap ++ [some ⟨none, evtDataFor t sl ba, 0⟩] }).2) := by
  cases t <;>
    first
    | exact absurd rfl ht
    | simp [lwnl_add_event, _lwnl_add_event_fst, evtDataFor]

/-- Claim C10: the internal append routine returns 0 for every input and
registry state, so emit's append-failure branch (`-2`) is unreachable, and
emit succeeds (returns 0) whenever the node is allocated and the kind is
recognized. -/
theorem add_event_append_total :
    (∀ (e : Nat) (s : LwnlState), (_lwnl_add_event e s).1 = 0) ∧
    (∀ (t : LwnlStatus) (sl : List (List Nat)) (ba : Bool) (s : LwnlState),
      t ≠ .LWNL_UNKNOWN → (lwnl_add_event t sl true ba s).1 = 0) ∧
    (∀ (t : LwnlStatus) (sl : List (List Nat)) (ea ba : Bool) (s : LwnlState),
      (lwnl_add_event t sl ea ba s).1 ≠ -2) := by
  refine ⟨fun e s => rfl, ?_, ?_⟩
  · intro t sl ba s ht
    rw [lwnl_add_event_ok t sl ba s ht]
  · intro t sl ea ba s
    cases ea with
    | false => simp [lwnl_add_event]
    | true =>
      by_cases ht : t = .LWNL_UNKNOWN
      · subst ht
        simp [lwnl_add_event]
      · rw [lwnl_add_event_ok t sl ba s ht]
        simp

/-- Witness for C10 at a concrete input. -/
theorem add_event_append_total_witness :
    (lwnl_add_event .LWNL_STA_CONNECTED [] true true initState).1 = 0 ∧
    (lwnl_add_event .LWNL_SCAN_DONE [] true false initState).1 ≠ -2 :=
  ⟨add_event_append_total.2.1 _ [] true initState (by decide),
   add_event_append_total.2.2 _ [] true false initState⟩

/-- Claim C3 (code bug): emitting with no occupied slot links the node
nowhere, but the node is *not* freed: emit returns 0 and the allocated node
(refcount 0) is still live in the heap afterwards — a leak, where the spec
requires the node to be freed before emit returns. -/
theorem emit_without_consumers_leaks :
    (lwnl_add_event .LWNL_STA_CONNECTED [] true true initState).1 = 0 ∧
    (run [.emit .LWNL_STA_CONNECTED [] true true]).heap =
      [some ⟨none, ⟨.LWNL_STA_CONNECTED, none, 0⟩, 0⟩] ∧
    hget (run [.emit .LWNL_STA_CONNECTED [] true true]).heap 0 ≠ none ∧
    (∀ q ∈ (run [.emit .LWNL_STA_CONNECTED [] true true]).queues,
      q.front = none ∧ q.rear = none) := by
  decide

/-! ### `lwnl_get_event` slot scan -/

theorem getEventLoop_not_found (f len : Nat) (h : Heap) :
    ∀ qs, (∀ q ∈ qs, q.filep ≠ some f) →
    getEventLoop f len h qs = (-1, [], h, qs) := by
  intro qs
  induction qs with
  | nil => intro _; rfl
  | cons q rest ih =>
    intro hq
    rw [getEventLoop, if_neg (hq q (List.mem_cons_self _ _)),
      ih (fun q' hq' => hq q' (List.mem_cons_of_mem _ hq'))]

theorem getEventLoop_found (f len : Nat) (h : Heap) :
    ∀ (qs1 : List lwnl_queue) (q : lwnl_queue) (qs2 : List lwnl_queue),
    (∀ q' ∈ qs1, q'.filep ≠ some f) → q.filep = some f →
    getEventLoop f len h (qs1 ++ q :: qs2) =
      ((getEventSlot len h q).1, (getEventSlot len h q).2.1,
       (getEventSlot len h q).2.2.1,
       qs1 ++ (getEventSlot len h q).2.2.2 :: qs2) := by
  intro qs1
  induction qs1 with
  | nil =>
    intro q qs2 _ hq
    rw [List.nil_append, getEventLoop, if_pos hq]
    rfl
  | cons a rest ih =>
    intro q qs2 hq1 hq
    rw [List.cons_append, getEventLoop,
      if_neg (hq1 a (List.mem_cons_self _ _)),
      ih q qs2 (fun q' hq' => hq1 q' (List.mem_cons_of_mem _ hq')) hq]
    rfl

theorem getEventSlot_front_none {len : Nat} {h : Heap} {q : lwnl_queue}
    (hfr : q.front = none) : getEventSlot len h q = (0, [], h, q) := by
  unfold getEventSlot
  rw [hfr]

theorem getEventSlot_dangling {len : Nat} {h : Heap} {q : lwnl_queue}
    {e : Nat} (hfr : q.front = some e) (he : hget h e = none) :
    getEventSlot len h q = (0, [], h, q) := by
  unfold getEventSlot
  rw [hfr]
  dsimp only
  rw [he]

theorem getEventSlot_header_small {len : Nat} {h : Heap} {q : lwnl_queue}
    {e : Nat} {evt : lwnl_event} (hfr : q.front = some e)
    (hevt : hget h e = some evt) (hch : q.check_header = 0)
    (hlen : len < 4 + 4) : getEventSlot len h q = (-1, [], h, q) := by
  unfold getEventSlot
  rw [hfr]
  dsimp only
  rw [hevt]
  dsimp only
  rw [if_pos hch, if_pos hlen]

theorem getEventSlot_header_payload {len : Nat} {h : Heap} {q : lwnl_queue}
    {e : Nat} {evt : lwnl_event} (hfr : q.front = some e)
    (hevt : hget h e = some evt) (hch : q.check_header = 0)
    (hlen : ¬ len < 4 + 4) (hp : 0 < evt.data.data_len) :
    getEventSlot len h q =
      (8, le4 (statusCode evt.data.status) ++ le4 evt.data.data_len, h,
       { q with check_header := 1 }) := by
  unfold getEventSlot
  rw [hfr]
  dsimp only
  rw [hevt]
  dsimp only
  rw [if_pos hch, if_neg hlen, if_pos hp]

theorem getEventSlot_header_zero {len : Nat} {h : Heap} {q : lwnl_queue}
    {e : Nat} {evt : lwnl_event} (hfr : q.front = some e)
    (hevt : hget h e = some evt) (hch : q.check_header = 0)
    (hlen : ¬ len < 4 + 4) (hp : evt.data.data_len = 0) :
    getEventSlot len h q =
      (8, le4 (statusCode evt.data.status) ++ le4 evt.data.data_len,
       _lwnl_remove_event h e, { q with front := evt.flink }) := by
  unfold getEventSlot
  rw [hfr]
  dsimp only
  rw [hevt]
  dsimp only
  rw [if_pos hch, if_neg hlen, if_neg (by omega)]

theorem getEventSlot_payload_small {len : Nat} {h : Heap} {q : lwnl_queue}
    {e : Nat} {evt : lwnl_event} (hfr : q.front = some e)
    (hevt : hget h e = some evt) (hch : ¬ q.check_header = 0)
    (hlen : len < evt.data.data_len) :
    getEventSlot len h q = (-1, [], h, q) := by
  unfold getEventSlot
  rw [hfr]
  dsimp only
  rw [hevt]
  dsimp only
  rw [if_neg hch, if_pos hlen]

theorem getEventSlot_payload_ok {len : Nat} {h : Heap} {q : lwnl_queue}
    {e : Nat} {evt : lwnl_event} (hfr : q.front = some e)
    (hevt : hget h e = some evt) (hch : ¬ q.check_header = 0)
    (hlen : ¬ len < evt.data.data_len) :
    getEventSlot len h q =
      ((evt.data.data_len : Int), (evt.data.data.getD []).take evt.data.data_len,
       _lwnl_remove_event h e, { q with check_header := 0, front := evt.flink }) := by
  unfold getEventSlot
  rw [hfr]
  dsimp only
  rw [hevt]
  dsimp only
  rw [if_neg hch, if_neg hlen]

/-- Claim C4, counterexample: reading with an identity that occupies no
slot returns `-1` — an error — not the benign 0 the claim asserts. -/
theorem read_unregistered_counterexample :
    (lwnl_get_event 1 100 initState).1 = -1 ∧
    ¬ (lwnl_get_event 1 100 initState).1 = 0 ∧
    (lwnl_get_event 1 100 initState).2.1 = [] := by
  decide

/-- Claim C4, amended: for a registered identity whose `front` is absent,
read returns 0 bytes and is not an error; for an identity with no occupied
slot, read returns `-1` (an error), writing nothing and leaving the state
unchanged. -/
theorem read_empty_or_unregistered (f len : Nat) (s : LwnlState) :
    (∀ (qs1 : List lwnl_queue) (q : lwnl_queue) (qs2 : List lwnl_queue),
      s.queues = qs1 ++ q :: qs2 → (∀ q' ∈ qs1, q'.filep ≠ some f) →
      q.filep = some f → q.front = none →
      lwnl_get_event f len s = (0, [], s)) ∧
    ((∀ q ∈ s.queues, q.filep ≠ some f) →
      lwnl_get_event f len s = (-1, [], s)) := by
  constructor
  · intro qs1 q qs2 hsplit hb hfp hfr
    unfold lwnl_get_event
    rw [hsplit, getEventLoop_found f len s.heap qs1 q qs2 hb hfp,
      getEventSlot_front_none hfr]
    rw [← hsplit]
  · intro hall
    unfold lwnl_get_event
    rw [getEventLoop_not_found f len s.heap s.queues hall]

/-- Witness for the amended C4 at concrete inputs. -/
theorem read_empty_or_unregistered_witness :
    lwnl_get_event 1 100 (run [.addLis 1]) = (0, [], run [.addLis 1]) ∧
    lwnl_get_event 7 100 (run [.addLis 1]) = (-1, [], run [.addLis 1]) :=
  ⟨(read_empty_or_unregistered 1 100 (run [.addLis 1])).1
      [] ⟨some 1, 0, none, none⟩ (List.replicate 4 emptySlot)
      (by decide) (by decide) (by decide) (by decide),
   (read_empty_or_unregistered 7 100 (run [.addLis 1])).2 (by decide)⟩

/-- Claim C5: a header read with an adequate buffer (≥ 8 bytes) writes the
4-byte kind tag then the 4-byte payload length and returns 8; with a
non-zero payload length it moves to the payload phase without touching the
cursor, the heap or the refcount; with a zero payload length it releases
the node (decrement, free at zero), advances `front`, and stays in the
header phase. -/
theorem header_read_step (c len : Nat) (s : LwnlState)
    (qs1 : List lwnl_queue) (q : lwnl_queue) (qs2 : List lwnl_queue)
    (e : Nat) (evt : lwnl_event)
    (hsplit : s.queues = qs1 ++ q :: qs2)
    (hbefore : ∀ q' ∈ qs1, q'.filep ≠ some c)
    (hfp : q.filep = some c)
    (hch : q.check_header = 0)
    (hfr : q.front = some e)
    (hevt : hget s.heap e = some evt)
    (hlen : 4 + 4 ≤ len) :
    (lwnl_get_event c len s).1 = 8 ∧
    (lwnl_get_event c len s).2.1 =
      le4 (statusCode evt.data.status) ++ le4 evt.data.data_len ∧
    (0 < evt.data.data_len →
      (lwnl_get_event c len s).2.2 =
        { s with queues := qs1 ++ { q with check_header := 1 } :: qs2 }) ∧
    (evt.data.data_len = 0 →
      (lwnl_get_event c len s).2.2 =
        { s with heap := _lwnl_remove_event s.heap e,
                 queues := qs1 ++ { q with front := evt.flink } :: qs2 } ∧
      (if evt.refs - 1 > 0 then
        hget (lwnl_get_event c len s).2.2.heap e =
          some { evt with refs := evt.refs - 1 }
       else hget (lwnl_get_event c len s).2.2.heap e = none)) := by
  have hnlt : ¬ len < 4 + 4 := by omega
  by_cases hp : 0 < evt.data.data_len
  · have hslot := getEventSlot_header_payload hfr hevt hch hnlt hp
    unfold lwnl_get_event
    rw [hsplit, getEventLoop_found c len s.heap qs1 q qs2 hbefore hfp, hslot]
    refine ⟨rfl, rfl, fun _ => rfl, fun h0 => absurd h0 (by omega)⟩
  · have hz : evt.data.data_len = 0 := by omega
    have hslot := getEventSlot_header_zero hfr hevt hch hnlt hz
    unfold lwnl_get_event
    rw [hsplit, getEventLoop_found c len s.heap qs1 q qs2 hbefore hfp, hslot]
    refine ⟨rfl, rfl, fun h0 => absurd h0 (by omega), fun _ => ⟨rfl, ?_⟩⟩
    rw [remove_get_self hevt]
    split <;> rfl

/-- Witness for C5 at a concrete input (one registered listener, one
pending zero-payload event). -/
theorem header_read_step_witness :
    (lwnl_get_event 1 100
      (run [.addLis 1, .emit .LWNL_STA_CONNECTED [] true true])).1 = 8 ∧
    hget (lwnl_get_event 1 100
      (run [.addLis 1, .emit .LWNL_STA_CONNECTED [] true true])).2.2.heap 0 =
      none := by
  have h := header_read_step 1 100
    (run [.addLis 1, .emit .LWNL_STA_CONNECTED [] true true])
    [] ⟨some 1, 0, some 0, some 0⟩ (List.replicate 4 emptySlot) 0
    ⟨none, ⟨.LWNL_STA_CONNECTED, none, 0⟩, 1⟩
    (by decide) (by decide) (by decide) (by decide) (by decide) (by decide)
    (by decide)
  refine ⟨h.1, ?_⟩
  have h4 := (h.2.2.2 rfl).2
  simpa using h4

/-- Claim C6: when the caller's buffer is below the minimum for the current
phase (8 bytes awaiting the header, the payload length awaiting the
payload), read returns `-1`, writes nothing, and the whole state — phase,
cursor, heap (hence refcount) — is unchanged. -/
theorem buffer_too_small_read (c len : Nat) (s : LwnlState)
    (qs1 : List lwnl_queue) (q : lwnl_queue) (qs2 : List lwnl_queue)
    (e : Nat) (evt : lwnl_event)
    (hsplit : s.queues = qs1 ++ q :: qs2)
    (hbefore : ∀ q' ∈ qs1, q'.filep ≠ some c)
    (hfp : q.filep = some c)
    (hfr : q.front = some e)
    (hevt : hget s.heap e = some evt) :
    (q.check_header = 0 → len < 4 + 4 →
      lwnl_get_event c len s = (-1, [], s)) ∧
    (¬ q.check_header = 0 → len < evt.data.data_len →
      lwnl_get_event c len s = (-1, [], s)) := by
  constructor
  · intro hch hlen
    unfold lwnl_get_event
    rw [hsplit, getEventLoop_found c len s.heap qs1 q qs2 hbefore hfp,
      getEventSlot_header_small hfr hevt hch hlen]
    rw [← hsplit]
  · intro hch hlen
    unfold lwnl_get_event
    rw [hsplit, getEventLoop_found c len s.heap qs1 q qs2 hbefore hfp,
      getEventSlot_payload_small hfr hevt hch hlen]
    rw [← hsplit]

/-- Witness for C6 at a concrete input (buffer of 3 bytes in header phase). -/
theorem buffer_too_small_read_witness :
    lwnl_get_event 1 3 (run [.addLis 1, .emit .LWNL_STA_CONNECTED [] true true]) =
      (-1, [], run [.addLis 1, .emit .LWNL_STA_CONNECTED [] true true]) :=
  (buffer_too_small_read 1 3
    (run [.addLis 1, .emit .LWNL_STA_CONNECTED [] true true])
    [] ⟨some 1, 0, some 0, some 0⟩ (List.replicate 4 emptySlot) 0
    ⟨none, ⟨.LWNL_STA_CONNECTED, none, 0⟩, 1⟩
    (by decide) (by decide) (by decide) (by decide) (by decide)).1
    (by decide) (by decide)

/-- Claim C7: an emit of `LWNL_SCAN_DONE` whose payload serialization fails
still succeeds (returns 0) and hands every occupied slot the event,
downgraded to `LWNL_SCAN_FAILED` with no payload and zero length. -/
theorem scan_failed_downgrade (sl : List (List Nat)) (s : LwnlState) :
    (lwnl_add_event .LWNL_SCAN_DONE sl true false s).1 = 0 ∧
    (lwnl_add_event .LWNL_SCAN_DONE sl true false s).2.queues =
      s.queues.map (emitSlotUpd s.heap.length) ∧
    dataAt (lwnl_add_event .LWNL_SCAN_DONE sl true false s).2.heap
      s.heap.length = some ⟨.LWNL_SCAN_FAILED, none, 0⟩ ∧
    (∀ q ∈ s.queues, q.filep ≠ none → (q.front ≠ none → q.rear ≠ none) →
      (emitSlotUpd s.heap.length q).rear = some s.heap.length) := by
  have hd : evtDataFor .LWNL_SCAN_DONE sl false = ⟨.LWNL_SCAN_FAILED, none, 0⟩ := by
    simp [evtDataFor, _lwnl_copy_scan_info]
  rw [lwnl_add_event_ok _ sl false s (by decide), hd]
  refine ⟨rfl, ?_, ?_, ?_⟩
  · unfold _lwnl_add_event
    dsimp only
    rw [addEventLoop_queues]
  · unfold _lwnl_add_event
    dsimp only
    rw [addEventLoop_dataAt]
    rw [hmod_dataAt_flink]
    unfold dataAt
    rw [hget_append_new]
    rfl
  · intro q hq hfp hwf
    unfold emitSlotUpd
    rcases hfpv : q.filep with _ | v
    · exact absurd hfpv hfp
    · rcases hfrv : q.front with _ | fv
      · rfl
      · rcases hrev : q.rear with _ | rv
        · exact absurd hrev (hwf (by rw [hfrv]; exact fun hc => by cases hc))
        · rfl

/-- Witness for C7 at a concrete input. -/
theorem scan_failed_downgrade_witness :
    (lwnl_add_event .LWNL_SCAN_DONE [] true false (run [.addLis 1])).1 = 0 ∧
    dataAt (lwnl_add_event .LWNL_SCAN_DONE [] true false
      (run [.addLis 1])).2.heap 0 = some ⟨.LWNL_SCAN_FAILED, none, 0⟩ :=
  ⟨(scan_failed_downgrade [] (run [.addLis 1])).1,
   (scan_failed_downgrade [] (run [.addLis 1])).2.2.1⟩

/-- Witness for C8 at a concrete input (one record of the exact size). -/
theorem copy_scan_info_spec_witness :
    _lwnl_copy_scan_info true [List.replicate AP_SCAN_INFO_SIZE 1] =
      ((([List.replicate AP_SCAN_INFO_SIZE 1].length * AP_SCAN_INFO_SIZE : Nat)
          : Int),
       some ([List.replicate AP_SCAN_INFO_SIZE 1].flatten)) :=
  (copy_scan_info_spec [List.replicate AP_SCAN_INFO_SIZE 1] (by decide)).1

/-! ### The global refcount/chain invariant

All per-slot chains are suffixes of one shared spine `L` (the append-only
log restricted to still-referenced nodes); `ks` records, slot by slot, the
cursor of each slot into `L` (`none` for a free slot or an empty chain).
The refcount of the node at position `j` of the spine equals the number of
cursors at positions `≤ j` — exactly the number of occupied slots whose
chain still contains the node. -/

/-- Number of cursors sitting at positions `≤ j` of the spine. -/
def countLe (ks : List (Option Nat)) (j : Nat) : Nat :=
  ks.countP (fun k? => match k? with
    | some k => decide (k ≤ j)
    | none => false)

/-- Invariant tying the heap to the spine `L` and the cursor list `ks`. -/
structure HeapRep (heap : Heap) (L : List Nat) (ks : List (Option Nat)) :
    Prop where
  nodup : L.Nodup
  live : ∀ e ∈ L, hget heap e ≠ none
  link : ∀ j e1, L[j]? = some e1 → flinkAt heap e1 = L[j + 1]?
  ksLt : ∀ k, some k ∈ ks → k < L.length
  refsEq : ∀ j e, L[j]? = some e → refsAt heap e = (countLe ks j : Int)
  leaked : ∀ x n, hget heap x = some n → x ∉ L → n.refs = 0
  headCov : L ≠ [] → some 0 ∈ ks

/-- Per-slot invariant: a free slot is fully cleared; an occupied slot with
a pending chain points `front` at spine position `k` and `rear` at the last
spine node. -/
def SlotRep (L : List Nat) (q : lwnl_queue) (k? : Option Nat) : Prop :=
  match q.filep with
  | none => q.front = none ∧ q.rear = none ∧ q.check_header = 0 ∧ k? = none
  | some _ =>
    match q.front, k? with
    | none, none => True
    | some f, some k => L[k]? = some f ∧ q.rear = L.getLast?
    | _, _ => False

/-- Full invariant with explicit spine and cursors. -/
def InvLK (s : LwnlState) (L : List Nat) (ks : List (Option Nat)) : Prop :=
  HeapRep s.heap L ks ∧ List.Forall₂ (SlotRep L) s.queues ks ∧
  s.connected = (s.queues.countP (fun q => q.filep.isSome) : Int)

/-- The reachable-state invariant. -/
def ReachInv (s : LwnlState) : Prop := ∃ L ks, InvLK s L ks

theorem refsAt_of_get {h : Heap} {e : Nat} {n : lwnl_event}
    (hx : hget h e = some n) : refsAt h e = n.refs := by
  unfold refsAt
  rw [hx]

theorem flinkAt_of_get {h : Heap} {e : Nat} {n : lwnl_event}
    (hx : hget h e = some n) : flinkAt h e = n.flink := by
  unfold flinkAt
  rw [hx]

theorem countLe_cons_some (k : Nat) (ks : List (Option Nat)) (j : Nat) :
    countLe (some k :: ks) j = countLe ks j + (if k ≤ j then 1 else 0) := by
  unfold countLe
  rw [List.countP_cons]
  by_cases hk : k ≤ j <;> simp [hk]

theorem countLe_cons_none (ks : List (Option Nat)) (j : Nat) :
    countLe (none :: ks) j = countLe ks j := by
  unfold countLe
  rw [List.countP_cons]
  simp

theorem countLe_perm {ks ks' : List (Option Nat)}
    (hp : List.Perm ks ks') (j : Nat) : countLe ks j = countLe ks' j :=
  hp.countP_eq _

theorem countLe_pos {ks : List (Option Nat)} {j : Nat}
    (h : 0 < countLe ks j) : ∃ k, some k ∈ ks ∧ k ≤ j := by
  unfold countLe at h
  rw [List.countP_pos] at h
  obtain ⟨k?, hmem, hk⟩ := h
  cases k? with
  | none => simp at hk
  | some k =>
    refine ⟨k, hmem, ?_⟩
    simpa using hk

theorem countLe_pos_of_mem {ks : List (Option Nat)} {j k : Nat}
    (hmem : some k ∈ ks) (hk : k ≤ j) : 0 < countLe ks j := by
  unfold countLe
  rw [List.countP_pos]
  exact ⟨some k, hmem, by simpa using hk⟩

theorem countLe_map_pred {ks : List (Option Nat)}
    (h1 : ∀ k, some k ∈ ks → 1 ≤ k) (j : Nat) :
    countLe (ks.map (Option.map (fun i => i - 1))) j = countLe ks (j + 1) := by
  induction ks with
  | nil => rfl
  | cons k? rest ih =>
    have hrest : ∀ k, some k ∈ rest → 1 ≤ k :=
      fun k hk => h1 k (List.mem_cons_of_mem _ hk)
    cases k? with
    | none =>
      rw [List.map_cons]
      simp only [Option.map_none']
      rw [countLe_cons_none, countLe_cons_none, ih hrest]
    | some k =>
      have hk1 : 1 ≤ k := h1 k (List.mem_cons_self _ _)
      rw [List.map_cons]
      simp only [Option.map_some']
      rw [countLe_cons_some, countLe_cons_some, ih hrest]
      have : k - 1 ≤ j ↔ k ≤ j + 1 := by omega
      by_cases hle : k ≤ j + 1
      · rw [if_pos hle, if_pos (this.mpr hle)]
      · rw [if_neg hle, if_neg (fun hc => hle (this.mp hc))]

theorem heapRep_perm {heap : Heap} {L : List Nat} {ks ks' : List (Option Nat)}
    (hp : List.Perm ks ks') (hR : HeapRep heap L ks) : HeapRep heap L ks' := by
  refine ⟨hR.nodup, hR.live, hR.link, ?_, ?_, hR.leaked, ?_⟩
  · intro k hk
    exact hR.ksLt k (hp.symm.subset hk)
  · intro j e hj
    rw [hR.refsEq j e hj, countLe_perm hp]
  · intro hL
    exact hp.subset (hR.headCov hL)

theorem heapRep_length_le {heap : Heap} {L : List Nat}
    {ks : List (Option Nat)} (hR : HeapRep heap L ks) :
    L.length ≤ heap.length := by
  have hsub : L.toFinset ⊆ Finset.range heap.length := by
    intro x hx
    rw [List.mem_toFinset] at hx
    rw [Finset.mem_range]
    rcases hh : hget heap x with _ | n
    · exact absurd hh (hR.live x hx)
    · exact hget_lt hh
  have hcard := Finset.card_le_card hsub
  rw [Finset.card_range, List.toFinset_card_of_nodup hR.nodup] at hcard
  exact hcard

theorem nodup_getElem_inj {L : List Nat} (hnd : L.Nodup) {i j : Nat}
    {x : Nat} (hi : L[i]? = some x) (hj : L[j]? = some x) : i = j := by
  have hilt : i < L.length := by
    by_contra hc
    rw [List.getElem?_eq_none (by omega)] at hi
    simp at hi
  exact List.getElem?_inj hilt hnd (hi.trans hj.symm)

theorem getElem?_some_lt {α : Type} {L : List α} {n : Nat} {a : α}
    (h : L[n]? = some a) : n < L.length := by
  rcases List.getElem?_eq_some.mp h with ⟨hlt, _⟩
  exact hlt

/-- Cursor value for the position after `k` (the slot's new `front` is
`L[k+1]?`). -/
def advCursor (L : List Nat) (k : Nat) : Option Nat :=
  if k + 1 < L.length then some (k + 1) else none

theorem advCursor_eq_some {L : List Nat} {k k' : Nat}
    (h : advCursor L k = some k') : k' = k + 1 ∧ k + 1 < L.length := by
  unfold advCursor at h
  by_cases hk : k + 1 < L.length
  · rw [if_pos hk] at h
    exact ⟨(Option.some_inj.mp h).symm, hk⟩
  · rw [if_neg hk] at h
    cases h

theorem advCursor_of_lt {L : List Nat} {k : Nat} (h : k + 1 < L.length) :
    advCursor L k = some (k + 1) := if_pos h

theorem advCursor_of_ge {L : List Nat} {k : Nat} (h : ¬ k + 1 < L.length) :
    advCursor L k = none := if_neg h

/-- Advancing a cursor past a node that other chains still reference:
the node's refcount is decremented in place, nothing is freed, the spine is
unchanged, and only the moving cursor changes. -/
theorem heapRep_advance_keep {heap : Heap} {L : List Nat}
    {ks : List (Option Nat)} {k e : Nat}
    (hR : HeapRep heap L (some k :: ks)) (he : L[k]? = some e)
    (hcnt : 2 ≤ countLe (some k :: ks) k) :
    HeapRep (_lwnl_remove_event heap e) L (advCursor L k :: ks) ∧
    hget (_lwnl_remove_event heap e) e ≠ none ∧
    (∀ x, x ≠ e → hget (_lwnl_remove_event heap e) x = hget heap x) ∧
    flinkAt heap e = L[k + 1]? := by
  have hkL : k < L.length := getElem?_some_lt he
  have heL : e ∈ L := List.getElem?_mem he
  rcases hn : hget heap e with _ | n
  · exact absurd hn (hR.live e heL)
  have hrefs : n.refs = (countLe (some k :: ks) k : Int) := by
    rw [← refsAt_of_get hn, hR.refsEq k e he]
  have hpos : n.refs - 1 > 0 := by
    rw [hrefs]
    have : (2 : Int) ≤ (countLe (some k :: ks) k : Int) := by
      exact_mod_cast hcnt
    omega
  have hrm : _lwnl_remove_event heap e =
      heap.set e (some { n with refs := n.refs - 1 }) := by
    unfold _lwnl_remove_event
    rw [hn]
    dsimp only
    rw [if_pos hpos]
  have hgete : hget (_lwnl_remove_event heap e) e =
      some { n with refs := n.refs - 1 } := by
    rw [hrm, hget_set_self (hget_lt hn)]
  have hgetne : ∀ x, x ≠ e →
      hget (_lwnl_remove_event heap e) x = hget heap x :=
    fun x hx => remove_get_ne hx
  have hfl : ∀ x, flinkAt (_lwnl_remove_event heap e) x = flinkAt heap x := by
    intro x
    by_cases hx : x = e
    · subst hx
      rw [flinkAt_of_get hgete, flinkAt_of_get hn]
    · unfold flinkAt
      rw [hgetne x hx]
  have hnone : hget (_lwnl_remove_event heap e) e ≠ none := by
    rw [hgete]
    simp
  refine ⟨⟨hR.nodup, ?_, ?_, ?_, ?_, ?_, ?_⟩, hnone, hgetne, hR.link k e he⟩
  · intro x hx
    by_cases hxe : x = e
    · subst hxe
      exact hnone
    · rw [hgetne x hxe]
      exact hR.live x hx
  · intro j x hj
    rw [hfl]
    exact hR.link j x hj
  · intro k' hk'
    rcases List.mem_cons.mp hk' with hhd | htl
    · rcases advCursor_eq_some hhd.symm with ⟨hk'', hlt⟩
      omega
    · exact hR.ksLt k' (List.mem_cons_of_mem _ htl)
  · intro j x hj
    by_cases hjk : j = k
    · subst hjk
      have hxe : x = e := Option.some_inj.mp (hj.symm.trans he)
      subst hxe
      rw [refsAt_of_get hgete]
      have hadv : countLe (advCursor L j :: ks) j = countLe ks j := by
        by_cases hlt : j + 1 < L.length
        · rw [advCursor_of_lt hlt, countLe_cons_some, if_neg (by omega)]
          omega
        · rw [advCursor_of_ge hlt, countLe_cons_none]
      rw [hadv, hrefs, countLe_cons_some, if_pos (Nat.le_refl _)]
      push_cast
      omega
    · have hxe : x ≠ e := by
        intro hc
        subst hc
        exact hjk (nodup_getElem_inj hR.nodup hj he)
      have hres : refsAt (_lwnl_remove_event heap e) x = refsAt heap x := by
        unfold refsAt
        rw [hgetne x hxe]
      rw [hres, hR.refsEq j x hj]
      congr 1
      by_cases hjlt : j < k
      · rw [countLe_cons_some, if_neg (by omega)]
        by_cases hlt : k + 1 < L.length
        · rw [advCursor_of_lt hlt, countLe_cons_some, if_neg (by omega)]
        · rw [advCursor_of_ge hlt, countLe_cons_none]
          omega
      · have hjgt : k < j := by omega
        have hjL : j < L.length := getElem?_some_lt hj
        have hlt : k + 1 < L.length := by omega
        rw [countLe_cons_some, if_pos (by omega), advCursor_of_lt hlt,
          countLe_cons_some, if_pos (by omega)]
  · intro x m hx hxL
    have hxe : x ≠ e := fun hc => hxL (hc ▸ heL)
    rw [hgetne x hxe] at hx
    exact hR.leaked x m hx hxL
  · intro hL
    rcases List.mem_cons.mp (hR.headCov hL) with hhd | htl
    · have hk0 : k = 0 := (Option.some_inj.mp hhd).symm
      subst hk0
      rw [countLe_cons_some, if_pos (Nat.le_refl _)] at hcnt
      have hp : 0 < countLe ks 0 := by omega
      rcases countLe_pos hp with ⟨k', hmem, hk'0⟩
      have : k' = 0 := by omega
      subst this
      exact List.mem_cons_of_mem _ hmem
    · exact List.mem_cons_of_mem _ htl

/-- Advancing the only cursor that still references the head node of the
spine: the node is freed, the spine shrinks by one, and every other cursor
shifts down one position. -/
theorem heapRep_advance_free {heap : Heap} {L : List Nat}
    {ks : List (Option Nat)} {k e : Nat}
    (hR : HeapRep heap L (some k :: ks)) (he : L[k]? = some e)
    (hcnt : countLe (some k :: ks) k = 1) :
    k = 0 ∧ (∀ k', some k' ∈ ks → 1 ≤ k') ∧
    HeapRep (_lwnl_remove_event heap e) L.tail
      (Option.map (fun i => i - 1) (advCursor L 0) ::
        ks.map (Option.map (fun i => i - 1))) ∧
    hget (_lwnl_remove_event heap e) e = none ∧
    (∀ x, x ≠ e → hget (_lwnl_remove_event heap e) x = hget heap x) ∧
    flinkAt heap e = L[k + 1]? := by
  have hkL : k < L.length := getElem?_some_lt he
  have heL : e ∈ L := List.getElem?_mem he
  have hLne : L ≠ [] := List.ne_nil_of_mem heL
  rcases hn : hget heap e with _ | n
  · exact absurd hn (hR.live e heL)
  have hrefs : n.refs = (countLe (some k :: ks) k : Int) := by
    rw [← refsAt_of_get hn, hR.refsEq k e he]
  have hk0 : k = 0 := by
    rcases List.mem_cons.mp (hR.headCov hLne) with hhd | htl
    · exact (Option.some_inj.mp hhd).symm
    · by_contra hne
      have hp := countLe_pos_of_mem htl (Nat.zero_le k)
      rw [countLe_cons_some, if_pos (Nat.le_refl _)] at hcnt
      omega
  subst hk0
  have h0 : countLe ks 0 = 0 := by
    rw [countLe_cons_some, if_pos (Nat.le_refl _)] at hcnt
    omega
  have hothers : ∀ k', some k' ∈ ks → 1 ≤ k' := by
    intro k' hk'
    by_contra hlt
    have hp : 0 < countLe ks 0 := countLe_pos_of_mem hk' (by omega)
    omega
  have hone : n.refs = 1 := by
    rw [hrefs, countLe_cons_some, if_pos (Nat.le_refl _), h0]
    rfl
  have hneg : ¬ n.refs - 1 > 0 := by omega
  have hrm : _lwnl_remove_event heap e = heap.set e none := by
    unfold _lwnl_remove_event
    rw [hn]
    dsimp only
    rw [if_neg hneg]
  have hgete : hget (_lwnl_remove_event heap e) e = none := by
    rw [hrm, hget_set_self (hget_lt hn)]
  have hgetne : ∀ x, x ≠ e →
      hget (_lwnl_remove_event heap e) x = hget heap x :=
    fun x hx => remove_get_ne hx
  have hflink : flinkAt heap e = L[0 + 1]? := hR.link 0 e he
  rcases L with _ | ⟨hd, t⟩
  · exact absurd rfl hLne
  have hhd : hd = e := by
    rw [List.getElem?_cons_zero] at he
    exact Option.some_inj.mp he
  subst hhd
  have heT : hd ∉ t := (List.nodup_cons.mp hR.nodup).1
  have hndT : t.Nodup := (List.nodup_cons.mp hR.nodup).2
  have hNH : 0 < t.length →
      Option.map (fun i => i - 1) (advCursor (hd :: t) 0) = some 0 := by
    intro ht
    rw [advCursor_of_lt (by simp only [List.length_cons]; omega)]
    rfl
  have hNHnil : t.length = 0 →
      Option.map (fun i => i - 1) (advCursor (hd :: t) 0) = none := by
    intro ht
    rw [advCursor_of_ge (by simp only [List.length_cons]; omega)]
    rfl
  simp only [List.tail_cons]
  refine ⟨trivial, hothers, ⟨hndT, ?_, ?_, ?_, ?_, ?_, ?_⟩, hgete, hgetne, hflink⟩
  · intro x hx
    have hxe : x ≠ hd := fun hc => heT (hc ▸ hx)
    rw [hgetne x hxe]
    exact hR.live x (List.mem_cons_of_mem _ hx)
  · intro j x hj
    have hxt : x ∈ t := List.getElem?_mem hj
    have hxe : x ≠ hd := fun hc => heT (hc ▸ hxt)
    have hfl : flinkAt (_lwnl_remove_event heap hd) x = flinkAt heap x := by
      unfold flinkAt
      rw [hgetne x hxe]
    rw [hfl]
    have := hR.link (j + 1) x (by rw [List.getElem?_cons_succ]; exact hj)
    rw [this, List.getElem?_cons_succ]
  · intro k'' hk''
    rcases List.mem_cons.mp hk'' with hhd2 | htl2
    · rcases Option.map_eq_some'.mp hhd2.symm with ⟨a, ha, hpred⟩
      rcases advCursor_eq_some ha with ⟨ha1, hlt⟩
      simp only [List.length_cons] at hlt
      omega
    · rcases List.mem_map.mp htl2 with ⟨k?, hmem, hmap⟩
      rcases k? with _ | k'
      · simp at hmap
      · simp at hmap
        have h1 := hothers k' hmem
        have h2 := hR.ksLt k' (List.mem_cons_of_mem _ hmem)
        simp only [List.length_cons] at h2
        omega
  · intro j x hj
    have hxt : x ∈ t := List.getElem?_mem hj
    have hxe : x ≠ hd := fun hc => heT (hc ▸ hxt)
    have hres : refsAt (_lwnl_remove_event heap hd) x = refsAt heap x := by
      unfold refsAt
      rw [hgetne x hxe]
    rw [hres, hR.refsEq (j + 1) x (by rw [List.getElem?_cons_succ]; exact hj)]
    have hjlt : j < t.length := getElem?_some_lt hj
    rw [hNH (by omega), countLe_cons_some, if_pos (Nat.zero_le _),
      countLe_cons_some, if_pos (Nat.zero_le _),
      countLe_map_pred hothers]
  · intro x m hx hxt
    by_cases hxe : x = hd
    · subst hxe
      rw [hgete] at hx
      cases hx
    · rw [hgetne x hxe] at hx
      exact hR.leaked x m hx (by
        intro hc
        rcases List.mem_cons.mp hc with h1 | h2
        · exact hxe h1
        · exact hxt h2)
  · intro ht
    have hlen : 0 < t.length := List.length_pos.mpr ht
    rw [hNH hlen]
    exact List.mem_cons_self _ _

/-! ### Emit preserves the invariant -/

/-- Congruence: `HeapRep` only looks at the heap through `hget`. -/
theorem heapRep_congr {h h' : Heap} {L : List Nat} {ks : List (Option Nat)}
    (hx : ∀ x, hget h' x = hget h x) (hR : HeapRep h L ks) :
    HeapRep h' L ks := by
  have hfl : ∀ x, flinkAt h' x = flinkAt h x := by
    intro x
    unfold flinkAt
    rw [hx]
  have hrf : ∀ x, refsAt h' x = refsAt h x := by
    intro x
    unfold refsAt
    rw [hx]
  refine ⟨hR.nodup, ?_, ?_, hR.ksLt, ?_, ?_, hR.headCov⟩
  · intro e he
    rw [hx]
    exact hR.live e he
  · intro j e hj
    rw [hfl]
    exact hR.link j e hj
  · intro j e hj
    rw [hrf]
    exact hR.refsEq j e hj
  · intro x n hxn hxL
    rw [hx] at hxn
    exact hR.leaked x n hxn hxL

/-- New cursor of a slot after an emit: occupied slots with an empty chain
point at the new tail position; occupied slots with a chain keep their
cursor; free slots stay cursorless. -/
def emitCursor (L : List Nat) (q : lwnl_queue) (k? : Option Nat) :
    Option Nat :=
  match q.filep with
  | none => none
  | some _ =>
    match k? with
    | some k => some k
    | none => some L.length

theorem emitSlotUpd_filep (e : Nat) (q : lwnl_queue) :
    (emitSlotUpd e q).filep = q.filep := by
  unfold emitSlotUpd
  rcases q with ⟨fp, ch, fr, re⟩
  cases fp <;> cases fr <;> cases re <;> rfl

theorem countP_map_emitSlotUpd (e : Nat) (qs : List lwnl_queue) :
    (qs.map (emitSlotUpd e)).countP (fun q => q.filep.isSome) =
      qs.countP (fun q => q.filep.isSome) := by
  induction qs with
  | nil => rfl
  | cons q rest ih =>
    rw [List.map_cons, List.countP_cons, List.countP_cons, ih,
      emitSlotUpd_filep]

theorem zip_emitCursor_mem {L : List Nat} :
    ∀ (qs : List lwnl_queue) (ks : List (Option Nat)) (k'' : Nat),
    some k'' ∈ List.zipWith (emitCursor L) qs ks →
    some k'' ∈ ks ∨ k'' = L.length := by
  intro qs
  induction qs with
  | nil => intro ks k'' h; simp at h
  | cons q rest ih =>
    intro ks k'' h
    cases ks with
    | nil => simp at h
    | cons k? ks' =>
      rw [List.zipWith_cons_cons] at h
      rcases List.mem_cons.mp h with hhd | htl
      · obtain ⟨fp, ch, fr, re⟩ := q
        cases fp with
        | none => simp [emitCursor] at hhd
        | some v =>
          cases k? with
          | none =>
            simp [emitCursor] at hhd
            exact Or.inr hhd
          | some k =>
            simp [emitCursor] at hhd
            rw [hhd]
            exact Or.inl (List.mem_cons_self _ _)
      · rcases ih ks' k'' htl with h1 | h2
        · exact Or.inl (List.mem_cons_of_mem _ h1)
        · exact Or.inr h2

theorem zip_emitCursor_countLe_lt {L : List Nat} :
    ∀ (qs : List lwnl_queue) (ks : List (Option Nat)),
    List.Forall₂ (SlotRep L) qs ks → ∀ j, j < L.length →
    countLe (List.zipWith (emitCursor L) qs ks) j = countLe ks j := by
  intro qs
  induction qs with
  | nil =>
    intro ks hF j hj
    cases hF
    rfl
  | cons q rest ih =>
    intro ks hF j hj
    cases hF with
    | cons hsr hF' =>
      rename_i k? ks'
      rw [List.zipWith_cons_cons]
      obtain ⟨fp, ch, fr, re⟩ := q
      cases fp with
      | none =>
        have hk : k? = none := by
          simp [SlotRep] at hsr
          exact hsr.2.2.2
        subst hk
        simp only [emitCursor]
        rw [countLe_cons_none, countLe_cons_none, ih ks' hF' j hj]
      | some v =>
        cases k? with
        | none =>
          simp only [emitCursor]
          rw [countLe_cons_none, countLe_cons_some, if_neg (by omega),
            ih ks' hF' j hj]
          omega
        | some k =>
          simp only [emitCursor]
          rw [countLe_cons_some, countLe_cons_some, ih ks' hF' j hj]

theorem zip_emitCursor_countLe_len {L : List Nat} :
    ∀ (qs : List lwnl_queue) (ks : List (Option Nat)),
    List.Forall₂ (SlotRep L) qs ks →
    (∀ k, some k ∈ ks → k < L.length) →
    countLe (List.zipWith (emitCursor L) qs ks) L.length =
      qs.countP (fun q => q.filep.isSome) := by
  intro qs
  induction qs with
  | nil =>
    intro ks hF _
    cases hF
    rfl
  | cons q rest ih =>
    intro ks hF hks
    cases hF with
    | cons hsr hF' =>
      rename_i k? ks'
      have hks' : ∀ k, some k ∈ ks' → k < L.length :=
        fun k hk => hks k (List.mem_cons_of_mem _ hk)
      rw [List.zipWith_cons_cons, List.countP_cons]
      obtain ⟨fp, ch, fr, re⟩ := q
      cases fp with
      | none =>
        have hk : k? = none := by
          simp [SlotRep] at hsr
          exact hsr.2.2.2
        subst hk
        simp only [emitCursor]
        rw [countLe_cons_none, ih ks' hF' hks']
        simp
      | some v =>
        cases k? with
        | none =>
          simp only [emitCursor]
          rw [countLe_cons_some, if_pos (Nat.le_refl _), ih ks' hF' hks']
          simp
        | some k =>
          simp only [emitCursor]
          rw [countLe_cons_some, if_pos (le_of_lt (hks k (List.mem_cons_self _ _))),
            ih ks' hF' hks']
          simp

theorem zip_emitCursor_mem_of_mem {L : List Nat} :
    ∀ (qs : List lwnl_queue) (ks : List (Option Nat)),
    List.Forall₂ (SlotRep L) qs ks → ∀ k, some k ∈ ks →
    some k ∈ List.zipWith (emitCursor L) qs ks := by
  intro qs
  induction qs with
  | nil =>
    intro ks hF k hk
    cases hF
    simp at hk
  | cons q rest ih =>
    intro ks hF k hk
    cases hF with
    | cons hsr hF' =>
      rename_i k? ks'
      rw [List.zipWith_cons_cons]
      rcases List.mem_cons.mp hk with hhd | htl
      · obtain ⟨fp, ch, fr, re⟩ := q
        cases fp with
        | none =>
          have hk0 : k? = none := by
            simp [SlotRep] at hsr
            exact hsr.2.2.2
          rw [hk0] at hhd
          cases hhd
        | some v =>
          rw [← hhd]
          simp only [emitCursor]
          exact List.mem_cons_self _ _
      · exact List.mem_cons_of_mem _ (ih ks' hF' k htl)

theorem hget_append_one_ne {h : Heap} {v : Option lwnl_event} {x : Nat}
    (hx : x ≠ h.length) : hget (h ++ [v]) x = hget h x := by
  by_cases hlt : x < h.length
  · exact hget_append hlt
  · rw [hget_eq_getElem, hget_eq_getElem,
      List.getElem?_eq_none (by simp; omega),
      List.getElem?_eq_none (by omega)]

/-- Appending a fresh zero-refcount node to the heap preserves the heap
representation (the node is outside the spine). -/
theorem heapRep_append {heap : Heap} {L : List Nat} {ks : List (Option Nat)}
    (hR : HeapRep heap L ks) (n : lwnl_event) (hrefs : n.refs = 0) :
    HeapRep (heap ++ [some n]) L ks := by
  have hlt : ∀ x ∈ L, x < heap.length := by
    intro x hx
    rcases hh : hget heap x with _ | m
    · exact absurd hh (hR.live x hx)
    · exact hget_lt hh
  refine ⟨hR.nodup, ?_, ?_, hR.ksLt, ?_, ?_, hR.headCov⟩
  · intro x hx
    rw [hget_append (hlt x hx)]
    exact hR.live x hx
  · intro j x hj
    have hx : x ∈ L := List.getElem?_mem hj
    unfold flinkAt
    rw [hget_append (hlt x hx)]
    exact hR.link j x hj
  · intro j x hj
    have hx : x ∈ L := List.getElem?_mem hj
    unfold refsAt
    rw [hget_append (hlt x hx)]
    exact hR.refsEq j x hj
  · intro x m hx hxL
    by_cases hxe : x = heap.length
    · subst hxe
      rw [hget_append_new] at hx
      rw [← Option.some_inj.mp hx]
      exact hrefs
    · rw [hget_append_one_ne hxe] at hx
      exact hR.leaked x m hx hxL

theorem forall₂_front_none_of_nil :
    ∀ {qs : List lwnl_queue} {ks : List (Option Nat)},
    List.Forall₂ (SlotRep []) qs ks → ∀ q ∈ qs, q.front = none := by
  intro qs
  induction qs with
  | nil => intro ks _ q hq; simp at hq
  | cons a rest ih =>
    intro ks hF q hq
    cases hF with
    | cons hsr hF' =>
      rename_i k? ks'
      rcases List.mem_cons.mp hq with hhd | htl
      · subst hhd
        obtain ⟨fp, ch, fr, re⟩ := q
        cases fp with
        | none => exact hsr.1
        | some v =>
          cases fr with
          | none => rfl
          | some f =>
            cases k? with
            | none => exact absurd hsr (by simp [SlotRep])
            | some k => exact absurd hsr.1 (by simp)
      · exact ih hF' q htl

theorem forall₂_rear {L : List Nat} :
    ∀ {qs : List lwnl_queue} {ks : List (Option Nat)},
    List.Forall₂ (SlotRep L) qs ks →
    ∀ q ∈ qs, q.filep ≠ none → q.front ≠ none → q.rear = L.getLast? := by
  intro qs
  induction qs with
  | nil => intro ks _ q hq; simp at hq
  | cons a rest ih =>
    intro ks hF q hq hfp hfr
    cases hF with
    | cons hsr hF' =>
      rename_i k? ks'
      rcases List.mem_cons.mp hq with hhd | htl
      · subst hhd
        obtain ⟨fp, ch, fr, re⟩ := q
        cases fp with
        | none => exact absurd rfl hfp
        | some v =>
          cases fr with
          | none => exact absurd rfl hfr
          | some f =>
            cases k? with
            | none => exact absurd hsr (by simp [SlotRep])
            | some k => exact hsr.2
      · exact ih hF' q htl hfp hfr

theorem forall₂_exists_front {L : List Nat} :
    ∀ {qs : List lwnl_queue} {ks : List (Option Nat)},
    List.Forall₂ (SlotRep L) qs ks → ∀ {k : Nat}, some k ∈ ks →
    qs.any (fun q => q.filep.isSome && q.front.isSome) = true := by
  intro qs
  induction qs with
  | nil =>
    intro ks hF k hk
    cases hF
    simp at hk
  | cons a rest ih =>
    intro ks hF k hk
    cases hF with
    | cons hsr hF' =>
      rename_i k? ks'
      rw [List.any_cons]
      rcases List.mem_cons.mp hk with hhd | htl
      · subst hhd
        obtain ⟨fp, ch, fr, re⟩ := a
        cases fp with
        | none => exact absurd hsr.2.2.2 (by simp)
        | some v =>
          cases fr with
          | none => exact absurd hsr (by simp [SlotRep])
          | some f => simp
      · rw [ih hF' htl]
        simp

theorem zip_emitCursor_zero_of_nil :
    ∀ {qs : List lwnl_queue} {ks : List (Option Nat)},
    List.Forall₂ (SlotRep []) qs ks →
    qs.any (fun q => q.filep.isSome) = true →
    some 0 ∈ List.zipWith (emitCursor []) qs ks := by
  intro qs
  induction qs with
  | nil => intro ks _ h; simp at h
  | cons a rest ih =>
    intro ks hF hany
    cases hF with
    | cons hsr hF' =>
      rename_i k? ks'
      rw [List.zipWith_cons_cons]
      obtain ⟨fp, ch, fr, re⟩ := a
      cases fp with
      | none =>
        have : rest.any (fun q => q.filep.isSome) = true := by
          simpa using hany
        exact List.mem_cons_of_mem _ (ih hF' this)
      | some v =>
        cases k? with
        | none => exact List.mem_cons_self _ _
        | some k =>
          cases fr with
          | none => exact absurd hsr (by simp [SlotRep])
          | some f => exact absurd hsr.1 (by simp)

theorem forall₂_slotRep_emit {L : List Nat} {e : Nat} :
    ∀ {qs : List lwnl_queue} {ks : List (Option Nat)},
    List.Forall₂ (SlotRep L) qs ks →
    List.Forall₂ (SlotRep (L ++ [e])) (qs.map (emitSlotUpd e))
      (List.zipWith (emitCursor L) qs ks) := by
  intro qs
  induction qs with
  | nil =>
    intro ks hF
    cases hF
    exact List.Forall₂.nil
  | cons a rest ih =>
    intro ks hF
    cases hF with
    | cons hsr hF' =>
      rename_i k? ks'
      rw [List.map_cons, List.zipWith_cons_cons]
      refine List.Forall₂.cons ?_ (ih hF')
      obtain ⟨fp, ch, fr, re⟩ := a
      cases fp with
      | none =>
        have hk : k? = none := hsr.2.2.2
        subst hk
        exact hsr
      | some v =>
        cases fr with
        | none =>
          cases k? with
          | some k => exact absurd hsr (by simp [SlotRep])
          | none =>
            show SlotRep (L ++ [e]) ⟨some v, ch, some e, some e⟩ (some L.length)
            unfold SlotRep
            dsimp only
            exact ⟨List.getElem?_concat_length L e, (List.getLast?_concat L).symm⟩
        | some f =>
          cases k? with
          | none => exact absurd hsr (by simp [SlotRep])
          | some k =>
            have hk : L[k]? = some f := hsr.1
            have hre : re = L.getLast? := hsr.2
            have hLne : L ≠ [] := by
              intro hc
              subst hc
              simp at hk
            rcases hrL : L.getLast? with _ | rL
            · rw [hrL] at hre
              exact absurd hrL (by simp [hLne])
            · rw [hrL] at hre
              subst hre
              show SlotRep (L ++ [e]) ⟨some v, ch, some f, some e⟩ (some k)
              unfold SlotRep
              dsimp only
              constructor
              · rw [List.getElem?_append_left (getElem?_some_lt hk)]
                exact hk
              · rw [List.getLast?_concat]

theorem _lwnl_add_event_snd (e : Nat) (s : LwnlState) :
    (_lwnl_add_event e s).2 =
      { s with
        heap := (addEventLoop e s.connected
          (hmod s.heap e (fun n => { n with flink := none })) s.queues).1,
        queues := (addEventLoop e s.connected
          (hmod s.heap e (fun n => { n with flink := none })) s.queues).2 } :=
  rfl

theorem map_emitSlotUpd_of_free {e : Nat} {qs : List lwnl_queue}
    (hfree : ∀ q ∈ qs, q.filep = none) : qs.map (emitSlotUpd e) = qs := by
  induction qs with
  | nil => rfl
  | cons q rest ih =>
    rw [List.map_cons, ih (fun q' hq' => hfree q' (List.mem_cons_of_mem _ hq'))]
    have hq := hfree q (List.mem_cons_self _ _)
    unfold emitSlotUpd
    rw [hq]

theorem zip_emitCursor_of_free {L : List Nat} :
    ∀ {qs : List lwnl_queue} {ks : List (Option Nat)},
    List.Forall₂ (SlotRep L) qs ks → (∀ q ∈ qs, q.filep = none) →
    List.zipWith (emitCursor L) qs ks = ks := by
  intro qs
  induction qs with
  | nil =>
    intro ks hF _
    cases hF
    rfl
  | cons q rest ih =>
    intro ks hF hfree
    cases hF with
    | cons hsr hF' =>
      rename_i k? ks'
      rw [List.zipWith_cons_cons,
        ih hF' (fun q' hq' => hfree q' (List.mem_cons_of_mem _ hq'))]
      have hq := hfree q (List.mem_cons_self _ _)
      obtain ⟨fp, ch, fr, re⟩ := q
      cases fp with
      | none =>
        have hk : k? = none := hsr.2.2.2
        subst hk
        rfl
      | some v => cases hq


/-- Linking a fresh node into every occupied slot extends the spine by that
node and keeps the refcount equation: the new node's count is the number of
occupied slots, old nodes are untouched. -/
theorem heapRep_emit {heap : Heap} {L : List Nat} {ks : List (Option Nat)}
    {qs : List lwnl_queue} (conn : Int)
    (hR : HeapRep heap L ks) (hF : List.Forall₂ (SlotRep L) qs ks)
    (hconn : conn = (qs.countP (fun q => q.filep.isSome) : Int))
    (nd : lwnl_event) (hndf : nd.flink = none) (hndr : nd.refs = 0)
    (hb : qs.any (fun q => q.filep.isSome) = true) :
    HeapRep (addEventLoop heap.length conn
        (hmod (heap ++ [some nd]) heap.length
          (fun n => { n with flink := none })) qs).1
      (L ++ [heap.length])
      (List.zipWith (emitCursor L) qs ks) := by
  have hnd' : ({ nd with flink := none } : lwnl_event) = nd := by
    obtain ⟨f, d, r⟩ := nd
    simp only at hndf
    rw [hndf]
  have hs1e : hget (heap ++ [some nd]) heap.length = some nd := hget_append_new
  have hs1ne : ∀ x, x ≠ heap.length →
      hget (heap ++ [some nd]) x = hget heap x :=
    fun x hx => hget_append_one_ne hx
  have hh0 : ∀ x, hget (hmod (heap ++ [some nd]) heap.length
      (fun n => { n with flink := none })) x = hget (heap ++ [some nd]) x := by
    intro x
    by_cases hx : x = heap.length
    · subst hx
      rw [hmod_get_self hs1e, hnd', hs1e]
    · exact hmod_get_ne hx
  have hlt : ∀ x ∈ L, x < heap.length := by
    intro x hx
    rcases hh : hget heap x with _ | m
    · exact absurd hh (hR.live x hx)
    · exact hget_lt hh
  have hnotin : heap.length ∉ L := fun hc => absurd (hlt _ hc) (lt_irrefl _)
  have hgh0e : hget (hmod (heap ++ [some nd]) heap.length
      (fun n => { n with flink := none })) heap.length = some nd := by
    rw [hh0]
    exact hs1e
  by_cases hL : L = []
  · subst hL
    have hfr0 : ∀ q ∈ qs, q.front = none := forall₂_front_none_of_nil hF
    have hvac : ∀ (x : Nat), ∀ q ∈ qs, q.filep ≠ none → q.front ≠ none →
        q.rear ≠ some x :=
      fun _ q hqm _ hfr => absurd (hfr0 q hqm) hfr
    have hPe : hget (addEventLoop heap.length conn
        (hmod (heap ++ [some nd]) heap.length
          (fun n => { n with flink := none })) qs).1 heap.length =
        some { nd with refs := conn } := by
      rw [addEventLoop_get_e heap.length conn qs _ nd hgh0e (hvac heap.length),
        if_pos hb]
    have hPother : ∀ x, x ≠ heap.length →
        hget (addEventLoop heap.length conn
          (hmod (heap ++ [some nd]) heap.length
            (fun n => { n with flink := none })) qs).1 x = hget heap x := by
      intro x hx
      rw [addEventLoop_get_other heap.length conn qs _ x hx (hvac x), hh0,
        hs1ne x hx]
    have hksnone : ∀ k, ¬ some k ∈ ks := by
      intro k hk
      have := hR.ksLt k hk
      simp at this
    refine ⟨by simp, ?_, ?_, ?_, ?_, ?_, ?_⟩
    · intro x hx
      simp at hx
      subst hx
      rw [hPe]
      simp
    · intro j x hj
      simp only [List.nil_append] at hj ⊢
      cases j with
      | zero =>
        rw [List.getElem?_cons_zero] at hj
        have hx : x = heap.length := Option.some_inj.mp hj.symm
        subst hx
        have hfl : flinkAt (addEventLoop heap.length conn
            (hmod (heap ++ [some nd]) heap.length
              (fun n => { n with flink := none })) qs).1 heap.length =
            nd.flink := by
          unfold flinkAt
          rw [hPe]
        rw [hfl, hndf]
        simp
      | succ m =>
        rw [List.getElem?_cons_succ] at hj
        simp at hj
    · intro k'' hk''
      rcases zip_emitCursor_mem qs ks k'' hk'' with h1 | h2
      · exact absurd h1 (hksnone k'')
      · subst h2
        simp
    · intro j x hj
      simp only [List.nil_append] at hj
      cases j with
      | zero =>
        rw [List.getElem?_cons_zero] at hj
        have hx : x = heap.length := Option.some_inj.mp hj.symm
        subst hx
        have hrf : refsAt (addEventLoop heap.length conn
            (hmod (heap ++ [some nd]) heap.length
              (fun n => { n with flink := none })) qs).1 heap.length =
            conn := by
          unfold refsAt
          rw [hPe]
        rw [hrf, hconn]
        congr 1
        have hc0 := zip_emitCursor_countLe_len qs ks hF
          (fun k hk => absurd hk (hksnone k))
        simpa using hc0.symm
      | succ m =>
        rw [List.getElem?_cons_succ] at hj
        simp at hj
    · intro x m hx hxL
      simp at hxL
      rw [hPother x hxL] at hx
      exact hR.leaked x m hx (by simp)
    · intro _
      exact zip_emitCursor_zero_of_nil hF hb
  · rcases hrL : L.getLast? with _ | rL
    · have := List.getLast?_isSome.mpr hL
      rw [hrL] at this
      simp at this
    have hLlast : L[L.length - 1]? = some rL := by
      rw [← List.getLast?_eq_getElem?]
      exact hrL
    have hrLmem : rL ∈ L := List.mem_of_mem_getLast? hrL
    have hrLlt : rL < heap.length := hlt rL hrLmem
    have hrLne : rL ≠ heap.length := by omega
    have hrear : ∀ q ∈ qs, q.filep ≠ none → q.front ≠ none →
        q.rear = some rL := by
      intro q hqm hfp hfr
      rw [forall₂_rear hF q hqm hfp hfr, hrL]
    have hvac : ∀ q ∈ qs, q.filep ≠ none → q.front ≠ none →
        q.rear ≠ some heap.length := by
      intro q hqm hfp hfr
      rw [hrear q hqm hfp hfr]
      intro hc
      exact hrLne (Option.some_inj.mp hc)
    rcases hnr : hget heap rL with _ | nr
    · exact absurd hnr (hR.live rL hrLmem)
    have hnr0 : hget (hmod (heap ++ [some nd]) heap.length
        (fun n => { n with flink := none })) rL = some nr := by
      rw [hh0, hs1ne rL hrLne]
      exact hnr
    have hfrany : qs.any (fun q => q.filep.isSome && q.front.isSome) = true :=
      forall₂_exists_front hF (hR.headCov hL)
    have hPe : hget (addEventLoop heap.length conn
        (hmod (heap ++ [some nd]) heap.length
          (fun n => { n with flink := none })) qs).1 heap.length =
        some { nd with refs := conn } := by
      rw [addEventLoop_get_e heap.length conn qs _ nd hgh0e hvac, if_pos hb]
    have hPrL : hget (addEventLoop heap.length conn
        (hmod (heap ++ [some nd]) heap.length
          (fun n => { n with flink := none })) qs).1 rL =
        some { nr with flink := some heap.length } := by
      rw [addEventLoop_get_rear heap.length conn rL hrLne qs _ nr hnr0 hrear,
        if_pos hfrany]
    have hPother : ∀ x, x ≠ heap.length → x ≠ rL →
        hget (addEventLoop heap.length conn
          (hmod (heap ++ [some nd]) heap.length
            (fun n => { n with flink := none })) qs).1 x = hget heap x := by
      intro x hxe hxr
      rw [addEventLoop_get_other heap.length conn qs _ x hxe ?_, hh0,
        hs1ne x hxe]
      intro q hqm hfp hfr
      rw [hrear q hqm hfp hfr]
      intro hc
      exact hxr (Option.some_inj.mp hc).symm
    refine ⟨?_, ?_, ?_, ?_, ?_, ?_, ?_⟩
    · rw [List.nodup_append]
      refine ⟨hR.nodup, by simp, ?_⟩
      intro x hx hy
      simp at hy
      subst hy
      exact hnotin hx
    · intro x hx
      rcases List.mem_append.mp hx with hxL | hxe
      · by_cases hxr : x = rL
        · subst hxr
          rw [hPrL]
          simp
        · rw [hPother x (by have := hlt x hxL; omega) hxr]
          exact hR.live x hxL
      · simp at hxe
        subst hxe
        rw [hPe]
        simp
    · intro j x hj
      by_cases hjlt : j < L.length
      · have hxj : L[j]? = some x := by
          rw [List.getElem?_append_left hjlt] at hj
          exact hj
        have hxL : x ∈ L := List.getElem?_mem hxj
        have hxe : x ≠ heap.length := by
          have := hlt x hxL
          omega
        by_cases hjlast : j + 1 < L.length
        · have hxne : x ≠ rL := by
            intro hc
            subst hc
            have := nodup_getElem_inj hR.nodup hxj hLlast
            omega
          have hfl : flinkAt (addEventLoop heap.length conn
              (hmod (heap ++ [some nd]) heap.length
                (fun n => { n with flink := none })) qs).1 x =
              flinkAt heap x := by
            unfold flinkAt
            rw [hPother x hxe hxne]
          rw [hfl, hR.link j x hxj, List.getElem?_append_left hjlast]
        · have hj1 : j = L.length - 1 := by omega
          have hxrL : x = rL := by
            rw [hj1] at hxj
            exact Option.some_inj.mp (hxj.symm.trans hLlast)
          subst hxrL
          have hfl : flinkAt (addEventLoop heap.length conn
              (hmod (heap ++ [some nd]) heap.length
                (fun n => { n with flink := none })) qs).1 x =
              some heap.length := by
            unfold flinkAt
            rw [hPrL]
          rw [hfl]
          have hj1' : j + 1 = L.length := by omega
          rw [hj1', List.getElem?_concat_length]
      · rw [List.getElem?_append_right (by omega)] at hj
        rcases hdj : j - L.length with _ | m
        · rw [hdj, List.getElem?_cons_zero] at hj
          have hx : x = heap.length := Option.some_inj.mp hj.symm
          subst hx
          have hfl : flinkAt (addEventLoop heap.length conn
              (hmod (heap ++ [some nd]) heap.length
                (fun n => { n with flink := none })) qs).1 heap.length =
              nd.flink := by
            unfold flinkAt
            rw [hPe]
          rw [hfl, hndf, List.getElem?_eq_none (by simp; omega)]
        · rw [hdj, List.getElem?_cons_succ] at hj
          simp at hj
    · intro k'' hk''
      rcases zip_emitCursor_mem qs ks k'' hk'' with h1 | h2
      · have := hR.ksLt k'' h1
        simp
        omega
      · subst h2
        simp
    · intro j x hj
      by_cases hjlt : j < L.length
      · have hxj : L[j]? = some x := by
          rw [List.getElem?_append_left hjlt] at hj
          exact hj
        have hxL : x ∈ L := List.getElem?_mem hxj
        have hxe : x ≠ heap.length := by
          have := hlt x hxL
          omega
        have hrf : refsAt (addEventLoop heap.length conn
            (hmod (heap ++ [some nd]) heap.length
              (fun n => { n with flink := none })) qs).1 x =
            refsAt heap x := by
          by_cases hxr : x = rL
          · subst hxr
            unfold refsAt
            rw [hPrL, hnr]
          · unfold refsAt
            rw [hPother x hxe hxr]
        rw [hrf, hR.refsEq j x hxj,
          zip_emitCursor_countLe_lt qs ks hF j hjlt]
      · rw [List.getElem?_append_right (by omega)] at hj
        rcases hdj : j - L.length with _ | m
        · rw [hdj, List.getElem?_cons_zero] at hj
          have hx : x = heap.length := Option.some_inj.mp hj.symm
          subst hx
          have hj0 : j = L.length := by omega
          subst hj0
          have hrf : refsAt (addEventLoop heap.length conn
              (hmod (heap ++ [some nd]) heap.length
                (fun n => { n with flink := none })) qs).1 heap.length =
              conn := by
            unfold refsAt
            rw [hPe]
          rw [hrf, hconn]
          congr 1
          rw [zip_emitCursor_countLe_len qs ks hF hR.ksLt]
        · rw [hdj, List.getElem?_cons_succ] at hj
          simp at hj
    · intro x m hx hxL
      have hxe : x ≠ heap.length := by
        intro hc
        exact hxL (by rw [hc]; simp)
      have hxinL : x ∉ L := fun hc => hxL (List.mem_append.mpr (Or.inl hc))
      have hxr : x ≠ rL := fun hc => hxinL (hc ▸ hrLmem)
      rw [hPother x hxe hxr] at hx
      exact hR.leaked x m hx hxinL
    · intro _
      exact zip_emitCursor_mem_of_mem qs ks hF 0 (hR.headCov hL)

/-- Emitting a recognized event with a successful node allocation preserves
the invariant, with the spine and cursors transforming as computed; the
extra conjuncts record the new node's payload record, preservation of all
other payloads, and the queue-table transform. -/
theorem inv_addEvent_ok (t : LwnlStatus) (sl : List (List Nat)) (ba : Bool)
    {s : LwnlState} {L : List Nat} {ks : List (Option Nat)}
    (hI : InvLK s L ks) (ht : t ≠ .LWNL_UNKNOWN) :
    InvLK (lwnl_add_event t sl true ba s).2
      (if s.queues.any (fun q => q.filep.isSome) then L ++ [s.heap.length]
       else L)
      (List.zipWith (emitCursor L) s.queues ks) ∧
    dataAt (lwnl_add_event t sl true ba s).2.heap s.heap.length =
      some (evtDataFor t sl ba) ∧
    (∀ x, x ≠ s.heap.length →
      dataAt (lwnl_add_event t sl true ba s).2.heap x = dataAt s.heap x) ∧
    (lwnl_add_event t sl true ba s).2.connected = s.connected ∧
    (lwnl_add_event t sl true ba s).2.queues =
      s.queues.map (emitSlotUpd s.heap.length) := by
  obtain ⟨hR, hF, hconn⟩ := hI
  have hmain : (lwnl_add_event t sl true ba s).2 =
      { s with
        heap := (addEventLoop s.heap.length s.connected
          (hmod (s.heap ++ [some ⟨none, evtDataFor t sl ba, 0⟩])
            s.heap.length (fun n => { n with flink := none })) s.queues).1,
        queues := (addEventLoop s.heap.length s.connected
          (hmod (s.heap ++ [some ⟨none, evtDataFor t sl ba, 0⟩])
            s.heap.length (fun n => { n with flink := none })) s.queues).2 } := by
    rw [lwnl_add_event_ok t sl ba s ht, _lwnl_add_event_snd]
  rw [hmain]
  dsimp only
  have hs1e : hget (s.heap ++ [some ⟨none, evtDataFor t sl ba, 0⟩])
      s.heap.length = some ⟨none, evtDataFor t sl ba, 0⟩ := hget_append_new
  have hh0 : ∀ x, hget (hmod (s.heap ++ [some ⟨none, evtDataFor t sl ba, 0⟩])
      s.heap.length (fun n => { n with flink := none })) x =
      hget (s.heap ++ [some ⟨none, evtDataFor t sl ba, 0⟩]) x := by
    intro x
    by_cases hx : x = s.heap.length
    · subst hx
      rw [hmod_get_self hs1e, hs1e]
    · exact hmod_get_ne hx
  have hq := addEventLoop_queues s.heap.length s.connected s.queues
    (hmod (s.heap ++ [some ⟨none, evtDataFor t sl ba, 0⟩])
      s.heap.length (fun n => { n with flink := none }))
  have hdat := addEventLoop_dataAt s.heap.length s.connected s.queues
    (hmod (s.heap ++ [some ⟨none, evtDataFor t sl ba, 0⟩])
      s.heap.length (fun n => { n with flink := none }))
  have hdat2 : dataAt (addEventLoop s.heap.length s.connected
      (hmod (s.heap ++ [some ⟨none, evtDataFor t sl ba, 0⟩])
        s.heap.length (fun n => { n with flink := none })) s.queues).1
      s.heap.length = some (evtDataFor t sl ba) := by
    rw [hdat]
    unfold dataAt
    rw [hh0, hs1e]
    rfl
  have hdat3 : ∀ x, x ≠ s.heap.length →
      dataAt (addEventLoop s.heap.length s.connected
        (hmod (s.heap ++ [some ⟨none, evtDataFor t sl ba, 0⟩])
          s.heap.length (fun n => { n with flink := none })) s.queues).1 x =
      dataAt s.heap x := by
    intro x hx
    rw [hdat]
    unfold dataAt
    rw [hh0, hget_append_one_ne hx]
  refine ⟨⟨?_, ?_, ?_⟩, hdat2, hdat3, rfl, hq⟩
  rotate_left
  · rw [hq]
    by_cases hb : s.queues.any (fun q => q.filep.isSome) = true
    · rw [if_pos hb]
      exact forall₂_slotRep_emit hF
    · rw [if_neg hb]
      have hfree : ∀ q ∈ s.queues, q.filep = none := by
        intro q hqm
        rcases hfp : q.filep with _ | v
        · rfl
        · exact absurd (List.any_eq_true.mpr ⟨q, hqm, by rw [hfp]; rfl⟩) hb
      rw [zip_emitCursor_of_free hF hfree, map_emitSlotUpd_of_free hfree]
      exact hF
  · rw [hq, countP_map_emitSlotUpd]
    exact hconn
  by_cases hb : s.queues.any (fun q => q.filep.isSome) = true
  · rw [if_pos hb]
    exact heapRep_emit s.connected hR hF hconn ⟨none, evtDataFor t sl ba, 0⟩
      rfl rfl hb
  · rw [if_neg hb]
    have hfree : ∀ q ∈ s.queues, q.filep = none := by
      intro q hqm
      rcases hfp : q.filep with _ | v
      · rfl
      · exact absurd (List.any_eq_true.mpr ⟨q, hqm, by rw [hfp]; rfl⟩) hb
    have hvac : ∀ (x : Nat), ∀ q ∈ s.queues, q.filep ≠ none →
        q.front ≠ none → q.rear ≠ some x :=
      fun _ q hqm hfp _ => absurd (hfree q hqm) hfp
    have hall : ∀ x, hget (addEventLoop s.heap.length s.connected
        (hmod (s.heap ++ [some ⟨none, evtDataFor t sl ba, 0⟩])
          s.heap.length (fun n => { n with flink := none })) s.queues).1 x =
        hget (hmod (s.heap ++ [some ⟨none, evtDataFor t sl ba, 0⟩])
          s.heap.length (fun n => { n with flink := none })) x := by
      intro x
      by_cases hx : x = s.heap.length
      · subst hx
        rw [addEventLoop_get_e s.heap.length s.connected s.queues _
          ⟨none, evtDataFor t sl ba, 0⟩ (by rw [hh0]; exact hs1e)
          (hvac s.heap.length), if_neg hb, hh0, hs1e]
      · exact addEventLoop_get_other s.heap.length s.connected s.queues _ x hx
          (hvac x)
    rw [zip_emitCursor_of_free hF hfree]
    exact heapRep_congr hall (heapRep_congr hh0 (heapRep_append hR _ rfl))

/-- A failed node allocation leaves the state untouched. -/
theorem inv_addEvent_noalloc (t : LwnlStatus) (sl : List (List Nat))
    (ba : Bool) (s : LwnlState) :
    (lwnl_add_event t sl false ba s).2 = s := by
  simp [lwnl_add_event]

/-- Emitting `LWNL_UNKNOWN` only appends a leaked zero-refcount node. -/
theorem inv_addEvent_unknown (sl : List (List Nat)) (ba : Bool)
    {s : LwnlState} {L : List Nat} {ks : List (Option Nat)}
    (hI : InvLK s L ks) :
    InvLK (lwnl_add_event .LWNL_UNKNOWN sl true ba s).2 L ks ∧
    (∀ x, x ≠ s.heap.length →
      dataAt (lwnl_add_event .LWNL_UNKNOWN sl true ba s).2.heap x =
        dataAt s.heap x) ∧
    (lwnl_add_event .LWNL_UNKNOWN sl true ba s).2.queues = s.queues ∧
    (lwnl_add_event .LWNL_UNKNOWN sl true ba s).2.connected = s.connected := by
  obtain ⟨hR, hF, hconn⟩ := hI
  have hmain : (lwnl_add_event .LWNL_UNKNOWN sl true ba s).2 =
      { s with heap :=
          s.heap ++ [some ⟨none, ⟨.LWNL_UNKNOWN, none, 0⟩, 0⟩] } := by
    simp [lwnl_add_event]
  rw [hmain]
  refine ⟨⟨heapRep_append hR _ rfl, hF, hconn⟩, ?_, rfl, rfl⟩
  intro x hx
  unfold dataAt
  rw [hget_append_one_ne hx]

/-! ### Reading preserves the invariant -/

theorem getElem?_tail {L : List Nat} (j : Nat) : L.tail[j]? = L[j + 1]? := by
  rw [← List.drop_one, List.getElem?_drop]
  congr 1
  omega

theorem getLast?_tail {L : List Nat} (hL : 1 < L.length) :
    L.tail.getLast? = L.getLast? := by
  rw [List.getLast?_eq_getElem?, List.getLast?_eq_getElem?, getElem?_tail]
  congr 1
  rw [List.length_tail]
  omega

/-- Shifting every cursor down one position matches dropping the spine's
head. -/
theorem slotRep_shift {L : List Nat} {q : lwnl_queue} {k? : Option Nat}
    (hsr : SlotRep L q k?) (h1 : ∀ k, k? = some k → 1 ≤ k) :
    SlotRep L.tail q (Option.map (fun i => i - 1) k?) := by
  obtain ⟨fp, ch, fr, re⟩ := q
  cases fp with
  | none =>
    have hk : k? = none := hsr.2.2.2
    subst hk
    exact hsr
  | some v =>
    cases fr with
    | none =>
      cases k? with
      | none => exact hsr
      | some k => exact absurd hsr (by simp [SlotRep])
    | some f =>
      cases k? with
      | none => exact absurd hsr (by simp [SlotRep])
      | some k =>
        have hk1 : 1 ≤ k := h1 k rfl
        have he : L[k]? = some f := hsr.1
        have hre : re = L.getLast? := hsr.2
        have hklt : k < L.length := getElem?_some_lt he
        refine ⟨?_, ?_⟩
        · rw [getElem?_tail]
          have : k - 1 + 1 = k := by omega
          rw [this]
          exact he
        · rw [getLast?_tail (by omega)]
          exact hre

theorem forall₂_slotRep_shift {L : List Nat} :
    ∀ {qs : List lwnl_queue} {ks : List (Option Nat)},
    List.Forall₂ (SlotRep L) qs ks → (∀ k, some k ∈ ks → 1 ≤ k) →
    List.Forall₂ (SlotRep L.tail) qs
      (ks.map (Option.map (fun i => i - 1))) := by
  intro qs
  induction qs with
  | nil =>
    intro ks hF _
    cases hF
    exact List.Forall₂.nil
  | cons q rest ih =>
    intro ks hF h1
    cases hF with
    | cons hsr hF' =>
      rename_i k? ks'
      rw [List.map_cons]
      exact List.Forall₂.cons
        (slotRep_shift hsr (fun k hk => h1 k (by rw [hk]; exact List.mem_cons_self _ _)))
        (ih hF' (fun k hk => h1 k (List.mem_cons_of_mem _ hk)))

theorem find?_first {f : Nat} :
    ∀ (qs1 : List lwnl_queue) (q : lwnl_queue) (qs2 : List lwnl_queue),
    (∀ q' ∈ qs1, q'.filep ≠ some f) → q.filep = some f →
    (qs1 ++ q :: qs2).find? (fun q' => q'.filep == some f) = some q := by
  intro qs1
  induction qs1 with
  | nil =>
    intro q qs2 _ hq
    rw [List.nil_append, List.find?_cons_of_pos _ (by simp [hq])]
  | cons a rest ih =>
    intro q qs2 hb hq
    rw [List.cons_append,
      List.find?_cons_of_neg _ (by simp [hb a (List.mem_cons_self _ _)]),
      ih q qs2 (fun q' hq' => hb q' (List.mem_cons_of_mem _ hq')) hq]

/-- The event record completed (fully handed to the consumer) by one
`lwnl_get_event` call, mirroring its branch structure: a record is produced
exactly when the call advances past the front node. -/
def completedData (f : Nat) (len : Nat) (s : LwnlState) : List lwnl_cb_data :=
  match s.queues.find? (fun q' => q'.filep == some f) with
  | none => []
  | some q =>
    match q.front with
    | none => []
    | some e =>
      match hget s.heap e with
      | none => []
      | some evt =>
        if q.check_header = 0 then
          if len < 4 + 4 then []
          else if 0 < evt.data.data_len then [] else [evt.data]
        else if len < evt.data.data_len then [] else [evt.data]

/-- Case analysis of one `lwnl_get_event` call on the slot owning `f`,
relative to the invariant: either nothing is consumed (no pending node,
too-small buffer, or a header handed out with a payload still pending), or
the front node is released — staying alive when other chains still hold
it, or freed when this was the last chain, shifting every cursor down. -/
theorem inv_getEvent_cases (c len : Nat) {s : LwnlState} {L : List Nat}
    {qs1 : List lwnl_queue} {q : lwnl_queue} {qs2 : List lwnl_queue}
    {ks1 ks2 : List (Option Nat)} {k? : Option Nat}
    (hsplit : s.queues = qs1 ++ q :: qs2)
    (hb4 : ∀ q' ∈ qs1, q'.filep ≠ some c)
    (hfp : q.filep = some c)
    (hR : HeapRep s.heap L (ks1 ++ k? :: ks2))
    (hsr : SlotRep L q k?) :
    (∃ q' : lwnl_queue,
      (lwnl_get_event c len s).2.2 = { s with queues := qs1 ++ q' :: qs2 } ∧
      q'.filep = q.filep ∧ q'.front = q.front ∧ q'.rear = q.rear ∧
      SlotRep L q' k? ∧
      completedData c len s = []) ∨
    (∃ k e evt q',
      k? = some k ∧ L[k]? = some e ∧ hget s.heap e = some evt ∧
      completedData c len s = [evt.data] ∧
      (lwnl_get_event c len s).2.2 =
        { s with heap := _lwnl_remove_event s.heap e,
                 queues := qs1 ++ q' :: qs2 } ∧
      q'.filep = q.filep ∧ q'.front = evt.flink ∧ q'.rear = q.rear ∧
      HeapRep (_lwnl_remove_event s.heap e) L
        (ks1 ++ advCursor L k :: ks2) ∧
      SlotRep L q' (advCursor L k) ∧
      (∀ x, dataAt (_lwnl_remove_event s.heap e) x = dataAt s.heap x) ∧
      hget (_lwnl_remove_event s.heap e) e ≠ none) ∨
    (∃ e evt q',
      k? = some 0 ∧ L[0]? = some e ∧ hget s.heap e = some evt ∧
      completedData c len s = [evt.data] ∧
      (lwnl_get_event c len s).2.2 =
        { s with heap := _lwnl_remove_event s.heap e,
                 queues := qs1 ++ q' :: qs2 } ∧
      q'.filep = q.filep ∧ q'.front = evt.flink ∧ q'.rear = q.rear ∧
      HeapRep (_lwnl_remove_event s.heap e) L.tail
        (ks1.map (Option.map (fun i => i - 1)) ++
          Option.map (fun i => i - 1) (advCursor L 0) ::
          ks2.map (Option.map (fun i => i - 1))) ∧
      SlotRep L.tail q' (Option.map (fun i => i - 1) (advCursor L 0)) ∧
      (∀ k', some k' ∈ ks1 ++ ks2 → 1 ≤ k') ∧
      (∀ x, x ≠ e → hget (_lwnl_remove_event s.heap e) x = hget s.heap x) ∧
      hget (_lwnl_remove_event s.heap e) e = none) := by
  have hstate : ∀ (r : Int) (out : List Nat) (h' : Heap) (q' : lwnl_queue),
      getEventSlot len s.heap q = (r, out, h', q') →
      (lwnl_get_event c len s).2.2 =
        { s with heap := h', queues := qs1 ++ q' :: qs2 } := by
    intro r out h' q' hslot
    unfold lwnl_get_event
    rw [hsplit, getEventLoop_found c len s.heap qs1 q qs2 hb4 hfp, hslot]
  have hfind : s.queues.find? (fun q' => q'.filep == some c) = some q := by
    rw [hsplit]
    exact find?_first qs1 q qs2 hb4 hfp
  have hcompl : completedData c len s =
      (match q.front with
       | none => []
       | some e =>
         match hget s.heap e with
         | none => []
         | some evt =>
           if q.check_header = 0 then
             if len < 4 + 4 then []
             else if 0 < evt.data.data_len then [] else [evt.data]
           else if len < evt.data.data_len then [] else [evt.data]) := by
    unfold completedData
    rw [hfind]
  rcases hfr : q.front with _ | e
  · left
    refine ⟨q, ?_, rfl, hfr, rfl, hsr, ?_⟩
    · rw [hstate 0 [] s.heap q (getEventSlot_front_none hfr)]
    · rw [hcompl, hfr]
  rcases k? with _ | k
  · exact absurd hsr (by
      obtain ⟨fp, ch, fr, re⟩ := q
      simp at hfp hfr
      subst hfp hfr
      simp [SlotRep])
  have hsr2 : L[k]? = some e ∧ q.rear = L.getLast? := by
    obtain ⟨fp, ch, fr, re⟩ := q
    simp at hfp hfr
    subst hfp hfr
    exact hsr
  obtain ⟨he, hrear⟩ := hsr2
  have heL : e ∈ L := List.getElem?_mem he
  rcases hevt : hget s.heap e with _ | evt
  · exact absurd hevt (hR.live e heL)
  have hRp : HeapRep s.heap L (some k :: (ks1 ++ ks2)) :=
    heapRep_perm List.perm_middle hR
  have hrefs : evt.refs = (countLe (some k :: (ks1 ++ ks2)) k : Int) := by
    rw [← refsAt_of_get hevt, hRp.refsEq k e he]
  have hflk : evt.flink = L[k + 1]? := by
    rw [← flinkAt_of_get hevt]
    exact hRp.link k e he
  have hcpos : 0 < countLe (some k :: (ks1 ++ ks2)) k :=
    countLe_pos_of_mem (List.mem_cons_self _ _) (Nat.le_refl _)
  -- SlotRep for an advanced slot (spine unchanged)
  have hsradv : ∀ ch', SlotRep L
      { q with check_header := ch', front := evt.flink } (advCursor L k) := by
    intro ch'
    rcases hfl : evt.flink with _ | x
    · have hnone : advCursor L k = none := by
        rw [hfl] at hflk
        unfold advCursor
        rw [if_neg]
        intro hc
        have h1 : L[k + 1]? = none := hflk.symm
        rw [List.getElem?_eq_getElem hc] at h1
        simp at h1
      rw [hnone]
      obtain ⟨fp, ch, fr, re⟩ := q
      simp at hfp
      subst hfp
      simp [SlotRep]
    · have hlt : k + 1 < L.length := by
        rw [hfl] at hflk
        exact getElem?_some_lt hflk.symm
      rw [advCursor_of_lt hlt]
      obtain ⟨fp, ch, fr, re⟩ := q
      simp at hfp
      subst hfp
      show SlotRep L ⟨some c, ch', some x, re⟩ (some (k + 1))
      unfold SlotRep
      dsimp only
      exact ⟨by rw [← hflk, hfl], hrear⟩
  by_cases hch : q.check_header = 0
  · by_cases hlen : len < 4 + 4
    · left
      refine ⟨q, ?_, rfl, hfr, rfl, hsr, ?_⟩
      · rw [hstate (-1) [] s.heap q (getEventSlot_header_small hfr hevt hch hlen)]
      · rw [hcompl, hfr]
        dsimp only
        rw [hevt]
        dsimp only
        rw [if_pos hch, if_pos hlen]
    · by_cases hdl : 0 < evt.data.data_len
      · left
        refine ⟨{ q with check_header := 1 }, ?_, rfl, hfr, rfl, ?_, ?_⟩
        · rw [hstate 8 _ s.heap _ (getEventSlot_header_payload hfr hevt hch hlen hdl)]
        · obtain ⟨fp, ch, fr, re⟩ := q
          simp at hfp hfr
          subst hfp hfr
          exact hsr
        · rw [hcompl, hfr]
          dsimp only
          rw [hevt]
          dsimp only
          rw [if_pos hch, if_neg hlen, if_pos hdl]
      · -- header with zero payload length: advance immediately
        have hdl0 : evt.data.data_len = 0 := by omega
        have hcomp2 : completedData c len s = [evt.data] := by
          rw [hcompl, hfr]
          dsimp only
          rw [hevt]
          dsimp only
          rw [if_pos hch, if_neg hlen, if_neg hdl]
        have hst := hstate 8 _ _ _ (getEventSlot_header_zero hfr hevt hch hlen hdl0)
        by_cases hc2 : 2 ≤ countLe (some k :: (ks1 ++ ks2)) k
        · obtain ⟨hRk, hne, hunch, _⟩ := heapRep_advance_keep hRp he hc2
          right; left
          have hdata : ∀ x, dataAt (_lwnl_remove_event s.heap e) x =
              dataAt s.heap x := by
            intro x
            by_cases hx : x = e
            · subst hx
              have hpos : evt.refs - 1 > 0 := by
                rw [hrefs]
                have : (2 : Int) ≤ (countLe (some k :: (ks1 ++ ks2)) k : Int) := by
                  exact_mod_cast hc2
                omega
              unfold dataAt
              rw [remove_get_self hevt, if_pos hpos, hevt]
              rfl
            · unfold dataAt
              rw [remove_get_ne hx]
          exact ⟨k, e, evt, { q with front := evt.flink }, rfl, he, hevt,
            hcomp2, hst, rfl, rfl, rfl,
            heapRep_perm List.perm_middle.symm hRk,
            hsradv q.check_header,
            hdata, hne⟩
        · have hc1 : countLe (some k :: (ks1 ++ ks2)) k = 1 := by omega
          obtain ⟨hk0, hothers, hRt, hgete, hunch, _⟩ :=
            heapRep_advance_free hRp he hc1
          subst hk0
          right; right
          have hRt' : HeapRep (_lwnl_remove_event s.heap e) L.tail
              (ks1.map (Option.map (fun i => i - 1)) ++
                Option.map (fun i => i - 1) (advCursor L 0) ::
                ks2.map (Option.map (fun i => i - 1))) := by
            refine heapRep_perm ?_ hRt
            rw [List.map_append]
            exact List.perm_middle.symm
          have hsrt : SlotRep L.tail { q with front := evt.flink }
              (Option.map (fun i => i - 1) (advCursor L 0)) :=
            slotRep_shift (hsradv q.check_header) (by
              intro k' hk'
              rcases advCursor_eq_some hk' with ⟨h1, _⟩
              omega)
          exact ⟨e, evt, { q with front := evt.flink }, rfl, he, hevt,
            hcomp2, hst, rfl, rfl, rfl, hRt', hsrt, hothers, hunch, hgete⟩
  · by_cases hlen : len < evt.data.data_len
    · left
      refine ⟨q, ?_, rfl, hfr, rfl, hsr, ?_⟩
      · rw [hstate (-1) [] s.heap q (getEventSlot_payload_small hfr hevt hch hlen)]
      · rw [hcompl, hfr]
        dsimp only
        rw [hevt]
        dsimp only
        rw [if_neg hch, if_pos hlen]
    · have hcomp2 : completedData c len s = [evt.data] := by
        rw [hcompl, hfr]
        dsimp only
        rw [hevt]
        dsimp only
        rw [if_neg hch, if_neg hlen]
      have hst := hstate _ _ _ _ (getEventSlot_payload_ok hfr hevt hch hlen)
      by_cases hc2 : 2 ≤ countLe (some k :: (ks1 ++ ks2)) k
      · obtain ⟨hRk, hne, hunch, _⟩ := heapRep_advance_keep hRp he hc2
        right; left
        have hdata : ∀ x, dataAt (_lwnl_remove_event s.heap e) x =
            dataAt s.heap x := by
          intro x
          by_cases hx : x = e
          · subst hx
            have hpos : evt.refs - 1 > 0 := by
              rw [hrefs]
              have : (2 : Int) ≤ (countLe (some k :: (ks1 ++ ks2)) k : Int) := by
                exact_mod_cast hc2
              omega
            unfold dataAt
            rw [remove_get_self hevt, if_pos hpos, hevt]
            rfl
          · unfold dataAt
            rw [remove_get_ne hx]
        exact ⟨k, e, evt, { q with check_header := 0, front := evt.flink },
          rfl, he, hevt, hcomp2, hst, rfl, rfl, rfl,
          heapRep_perm List.perm_middle.symm hRk, hsradv 0, hdata, hne⟩
      · have hc1 : countLe (some k :: (ks1 ++ ks2)) k = 1 := by omega
        obtain ⟨hk0, hothers, hRt, hgete, hunch, _⟩ :=
          heapRep_advance_free hRp he hc1
        subst hk0
        right; right
        have hRt' : HeapRep (_lwnl_remove_event s.heap e) L.tail
            (ks1.map (Option.map (fun i => i - 1)) ++
              Option.map (fun i => i - 1) (advCursor L 0) ::
              ks2.map (Option.map (fun i => i - 1))) := by
          refine heapRep_perm ?_ hRt
          rw [List.map_append]
          exact List.perm_middle.symm
        have hsrt : SlotRep L.tail { q with check_header := 0, front := evt.flink }
            (Option.map (fun i => i - 1) (advCursor L 0)) := by
          exact slotRep_shift (hsradv 0) (by
            intro k' hk'
            rcases advCursor_eq_some hk' with ⟨h1, _⟩
            omega)
        exact ⟨e, evt, { q with check_header := 0, front := evt.flink },
          rfl, he, hevt, hcomp2, hst, rfl, rfl, rfl, hRt', hsrt, hothers,
          hunch, hgete⟩

/-! ### Registering and deregistering listeners -/

theorem forall₂_append_split {R : lwnl_queue → Option Nat → Prop} :
    ∀ {qs1 : List lwnl_queue} {q : lwnl_queue} {qs2 : List lwnl_queue}
      {ks : List (Option Nat)},
    List.Forall₂ R (qs1 ++ q :: qs2) ks →
    ∃ ks1 k? ks2, ks = ks1 ++ k? :: ks2 ∧ ks1.length = qs1.length ∧
      List.Forall₂ R qs1 ks1 ∧ R q k? ∧ List.Forall₂ R qs2 ks2 := by
  intro qs1
  induction qs1 with
  | nil =>
    intro q qs2 ks hF
    rw [List.nil_append] at hF
    cases hF with
    | cons h1 h2 =>
      rename_i k? ks2
      exact ⟨[], k?, ks2, rfl, rfl, List.Forall₂.nil, h1, h2⟩
  | cons a rest ih =>
    intro q qs2 ks hF
    rw [List.cons_append] at hF
    cases hF with
    | cons h1 h2 =>
      rename_i k0 ks'
      obtain ⟨ks1, k?, ks2, hks, hlen, hF1, hq, hF2⟩ := ih h2
      exact ⟨k0 :: ks1, k?, ks2, by rw [hks, List.cons_append],
        by rw [List.length_cons, hlen, List.length_cons],
        List.Forall₂.cons h1 hF1, hq, hF2⟩

theorem forall₂_append_combine {R : lwnl_queue → Option Nat → Prop}
    {qs1 : List lwnl_queue} {ks1 : List (Option Nat)}
    {qs2 : List lwnl_queue} {ks2 : List (Option Nat)}
    (h1 : List.Forall₂ R qs1 ks1) (h2 : List.Forall₂ R qs2 ks2) :
    List.Forall₂ R (qs1 ++ qs2) (ks1 ++ ks2) := by
  induction h1 with
  | nil => exact h2
  | cons hr _ ih => exact List.Forall₂.cons hr ih

theorem addListenerLoop_cases (f : Nat) :
    ∀ qs : List lwnl_queue,
    (addListenerLoop f qs = none ∧ ∀ q ∈ qs, q.filep ≠ none) ∨
    (∃ qs1 q qs2, qs = qs1 ++ q :: qs2 ∧ q.filep = none ∧
      (∀ q' ∈ qs1, q'.filep ≠ none) ∧
      addListenerLoop f qs =
        some (qs1 ++ { q with filep := some f } :: qs2)) := by
  intro qs
  induction qs with
  | nil =>
    left
    exact ⟨rfl, fun q hq => absurd hq (List.not_mem_nil q)⟩
  | cons a rest ih =>
    rcases hfp : a.filep with _ | v
    · right
      refine ⟨[], a, rest, rfl, hfp,
        fun q' hq' => absurd hq' (List.not_mem_nil q'), ?_⟩
      unfold addListenerLoop
      rw [hfp]
      rfl
    · rcases ih with ⟨hnone, hocc⟩ | ⟨qs1, q, qs2, hsp, hq, hb4, hsome⟩
      · left
        refine ⟨?_, ?_⟩
        · unfold addListenerLoop
          rw [hfp]
          dsimp only
          rw [hnone]
          rfl
        · intro q hqm
          rcases List.mem_cons.mp hqm with hc | hc
          · subst hc
            rw [hfp]
            exact fun hc2 => Option.noConfusion hc2
          · exact hocc q hc
      · right
        refine ⟨a :: qs1, q, qs2, by rw [hsp, List.cons_append], hq, ?_, ?_⟩
        · intro q' hq'
          rcases List.mem_cons.mp hq' with hc | hc
          · subst hc
            rw [hfp]
            exact fun hc2 => Option.noConfusion hc2
          · exact hb4 q' hc
        · unfold addListenerLoop
          rw [hfp]
          dsimp only
          rw [hsome]
          rfl

theorem inv_addListener (f : Nat) {s : LwnlState} {L : List Nat}
    {ks : List (Option Nat)} (hI : InvLK s L ks) :
    InvLK (lwnl_add_listener f s).2 L ks := by
  obtain ⟨hR, hF, hconn⟩ := hI
  rcases addListenerLoop_cases f s.queues with ⟨hnone, _⟩ |
      ⟨qs1, q, qs2, hsp, hq, _, hsome⟩
  · unfold lwnl_add_listener
    rw [hnone]
    exact ⟨hR, hF, hconn⟩
  · unfold lwnl_add_listener
    rw [hsome]
    dsimp only
    rw [hsp] at hF
    obtain ⟨ks1, k?, ks2, hks, _, hF1, hsr, hF2⟩ := forall₂_append_split hF
    subst hks
    obtain ⟨fp, ch, fr, re⟩ := q
    have hfp : fp = none := hq
    subst hfp
    obtain ⟨hfr, hre, hch, hkn⟩ := hsr
    subst hkn
    dsimp only at hfr hre hch
    subst hfr
    subst hre
    subst hch
    refine ⟨hR, ?_, ?_⟩
    · exact forall₂_append_combine hF1
        (List.Forall₂.cons (by show True; trivial) hF2)
    · rw [hsp] at hconn
      rw [List.countP_append, List.countP_cons] at hconn ⊢
      simp at hconn ⊢
      omega

theorem heapRep_drop_none {h : Heap} {L : List Nat} {m : List (Option Nat)}
    (hR : HeapRep h L (none :: m)) : HeapRep h L m := by
  refine ⟨hR.nodup, hR.live, hR.link, ?_, ?_, hR.leaked, ?_⟩
  · intro k hk
    exact hR.ksLt k (List.mem_cons_of_mem _ hk)
  · intro j e he
    rw [hR.refsEq j e he, countLe_cons_none]
  · intro hL
    rcases List.mem_cons.mp (hR.headCov hL) with h0 | h0
    · exact Option.noConfusion h0
    · exact h0

theorem heapRep_cons_none {h : Heap} {L : List Nat} {m : List (Option Nat)}
    (hR : HeapRep h L m) : HeapRep h L (none :: m) := by
  refine ⟨hR.nodup, hR.live, hR.link, ?_, ?_, hR.leaked, ?_⟩
  · intro k hk
    rcases List.mem_cons.mp hk with hc | hc
    · exact Option.noConfusion hc
    · exact hR.ksLt k hc
  · intro j e he
    rw [hR.refsEq j e he, countLe_cons_none]
  · intro hL
    exact List.mem_cons_of_mem _ (hR.headCov hL)

theorem drainChain_none (h : Heap) (fuel : Nat) :
    drainChain h none fuel = (h, none) := by
  cases fuel <;> rfl

theorem map_shift_shift (m : List (Option Nat)) (d : Nat) :
    (m.map (Option.map (fun i => i - 1))).map (Option.map (fun i => i - d)) =
      m.map (Option.map (fun i => i - (d + 1))) := by
  rw [List.map_map]
  apply List.map_congr_left
  intro x _
  cases x with
  | none => rfl
  | some a =>
    simp only [Function.comp_apply, Option.map_some', Option.some_inj]
    omega

theorem map_shift_zero (m : List (Option Nat)) :
    m.map (Option.map (fun i => i - 0)) = m := by
  conv_rhs => rw [← List.map_id m]
  apply List.map_congr_left
  intro x _
  cases x with
  | none => rfl
  | some a =>
    show some (a - 0) = some a
    rw [Nat.sub_zero]

theorem getLast?_drop {L : List Nat} {d : Nat} (hd : d < L.length) :
    (L.drop d).getLast? = L.getLast? := by
  rw [List.getLast?_eq_getElem?, List.getLast?_eq_getElem?, List.length_drop,
    List.getElem?_drop]
  congr 1
  omega

theorem slotRep_drop {L : List Nat} {q : lwnl_queue} {k? : Option Nat}
    (hsr : SlotRep L q k?) (d : Nat) (hd : ∀ k, k? = some k → d ≤ k) :
    SlotRep (L.drop d) q (Option.map (fun i => i - d) k?) := by
  obtain ⟨fp, ch, fr, re⟩ := q
  cases fp with
  | none =>
    have hk : k? = none := hsr.2.2.2
    subst hk
    exact hsr
  | some v =>
    cases fr with
    | none =>
      cases k? with
      | none => exact hsr
      | some k => exact absurd hsr (by simp [SlotRep])
    | some f2 =>
      cases k? with
      | none => exact absurd hsr (by simp [SlotRep])
      | some k =>
        have hdk : d ≤ k := hd k rfl
        have he : L[k]? = some f2 := hsr.1
        have hre : re = L.getLast? := hsr.2
        have hklt : k < L.length := getElem?_some_lt he
        refine ⟨?_, ?_⟩
        · rw [List.getElem?_drop]
          have hdd : d + (k - d) = k := by omega
          rw [hdd]
          exact he
        · rw [getLast?_drop (by omega)]
          exact hre

theorem forall₂_slotRep_drop {L : List Nat} (d : Nat) :
    ∀ {qs : List lwnl_queue} {ks : List (Option Nat)},
    List.Forall₂ (SlotRep L) qs ks → (∀ k, some k ∈ ks → d ≤ k) →
    List.Forall₂ (SlotRep (L.drop d)) qs
      (ks.map (Option.map (fun i => i - d))) := by
  intro qs
  induction qs with
  | nil =>
    intro ks hF _
    cases hF
    exact List.Forall₂.nil
  | cons q rest ih =>
    intro ks hF h1
    cases hF with
    | cons hsr hF' =>
      rename_i k? ks'
      rw [List.map_cons]
      exact List.Forall₂.cons
        (slotRep_drop hsr d
          (fun k hk => h1 k (by rw [hk]; exact List.mem_cons_self _ _)))
        (ih hF' (fun k hk => h1 k (List.mem_cons_of_mem _ hk)))

/-- The drain loop of `lwnl_remove_listener`: starting from the chain
cursor of the drained slot, it releases every remaining node; nodes whose
last reference this was (a prefix of length `d` of the remaining spine)
are freed, the others survive with one reference fewer. -/
theorem drain_spec :
    ∀ (fuel : Nat) (h : Heap) (L : List Nat) (k? : Option Nat)
      (m : List (Option Nat)) (f? : Option Nat),
    HeapRep h L (k? :: m) →
    f? = (match k? with | none => none | some k => L[k]?) →
    (match k? with | none => 0 | some k => L.length - k) ≤ fuel →
    ∃ h' d,
      drainChain h f? fuel = (h', none) ∧
      (∀ k', some k' ∈ m → d ≤ k') ∧
      HeapRep h' (L.drop d) (m.map (Option.map (fun i => i - d))) ∧
      (∀ x, x ∉ L → hget h' x = hget h x) ∧
      (∀ x ∈ L.drop d, dataAt h' x = dataAt h x) := by
  intro fuel
  induction fuel with
  | zero =>
    intro h L k? m f? hR hf hfl
    cases k? with
    | none =>
      have hf' : f? = none := by rw [hf]
      refine ⟨h, 0, ?_, ?_, ?_, ?_, ?_⟩
      · rw [hf']
        exact drainChain_none h 0
      · intro k' _
        exact Nat.zero_le _
      · rw [map_shift_zero, List.drop_zero]
        exact heapRep_drop_none hR
      · intro x _
        rfl
      · intro x _
        rfl
    | some k =>
      exfalso
      have hk : k < L.length := hR.ksLt k (List.mem_cons_self _ _)
      simp only at hfl
      omega
  | succ fuel ih =>
    intro h L k? m f? hR hf hfl
    cases k? with
    | none =>
      have hf' : f? = none := by rw [hf]
      refine ⟨h, 0, ?_, ?_, ?_, ?_, ?_⟩
      · rw [hf']
        exact drainChain_none h (fuel + 1)
      · intro k' _
        exact Nat.zero_le _
      · rw [map_shift_zero, List.drop_zero]
        exact heapRep_drop_none hR
      · intro x _
        rfl
      · intro x _
        rfl
    | some k =>
      have hk : k < L.length := hR.ksLt k (List.mem_cons_self _ _)
      rcases he : L[k]? with _ | e
      · rw [List.getElem?_eq_getElem hk] at he
        exact absurd he (fun hc => Option.noConfusion hc)
      have hf' : f? = some e := by
        rw [hf]
        exact he
      subst hf'
      have heL : e ∈ L := List.getElem?_mem he
      rcases hn : hget h e with _ | n
      · exact absurd hn (hR.live e heL)
      have hstep : drainChain h (some e) (fuel + 1) =
          drainChain (_lwnl_remove_event h e) n.flink fuel := by
        conv_lhs => unfold drainChain
        dsimp only
        rw [hn]
      have hflk : n.flink = L[k + 1]? := by
        rw [← flinkAt_of_get hn]
        exact hR.link k e he
      have hfl' : L.length - k ≤ fuel + 1 := hfl
      by_cases hc2 : 2 ≤ countLe (some k :: m) k
      · obtain ⟨hR1, hne, hunch, _⟩ := heapRep_advance_keep hR he hc2
        have hrefs : n.refs = (countLe (some k :: m) k : Int) := by
          rw [← refsAt_of_get hn, hR.refsEq k e he]
        have hc2i : (2 : Int) ≤ (countLe (some k :: m) k : Int) := by
          exact_mod_cast hc2
        have hpos : n.refs - 1 > 0 := by omega
        have hdataE : dataAt (_lwnl_remove_event h e) e = dataAt h e := by
          unfold dataAt
          rw [remove_get_self hn, if_pos hpos, hn]
          rfl
        have hdata1 : ∀ x, dataAt (_lwnl_remove_event h e) x = dataAt h x := by
          intro x
          by_cases hx : x = e
          · subst hx
            exact hdataE
          · unfold dataAt
            rw [hunch x hx]
        have harg1 : n.flink = (match advCursor L k with
            | none => none | some k' => L[k']?) := by
          by_cases hlt : k + 1 < L.length
          · rw [advCursor_of_lt hlt]
            exact hflk
          · rw [advCursor_of_ge hlt, hflk]
            exact List.getElem?_eq_none (by omega)
        have harg2 : (match advCursor L k with
            | none => 0 | some k' => L.length - k') ≤ fuel := by
          by_cases hlt : k + 1 < L.length
          · rw [advCursor_of_lt hlt]
            show L.length - (k + 1) ≤ fuel
            omega
          · rw [advCursor_of_ge hlt]
            exact Nat.zero_le fuel
        obtain ⟨h', d, hdc, hdle, hR', hout, hdata⟩ :=
          ih (_lwnl_remove_event h e) L (advCursor L k) m n.flink hR1
            harg1 harg2
        refine ⟨h', d, ?_, hdle, hR', ?_, ?_⟩
        · rw [hstep]
          exact hdc
        · intro x hxL
          rw [hout x hxL, hunch x (fun hc => hxL (hc ▸ heL))]
        · intro x hx
          rw [hdata x hx, hdata1 x]
      · have hcpos : 0 < countLe (some k :: m) k :=
          countLe_pos_of_mem (List.mem_cons_self _ _) (Nat.le_refl _)
        have hc1 : countLe (some k :: m) k = 1 := by omega
        obtain ⟨hk0, hothers, hR1, hgete, hunch, _⟩ :=
          heapRep_advance_free hR he hc1
        subst hk0
        cases L with
        | nil => simp at he
        | cons a rest =>
          have hae : e = a := by
            have h0 : some a = some e := by
              rw [← he, List.getElem?_cons_zero]
            exact (Option.some_inj.mp h0).symm
          subst hae
          have hent : e ∉ rest := (List.nodup_cons.mp hR.nodup).1
          have harg1 : n.flink = (match Option.map (fun i => i - 1)
              (advCursor (e :: rest) 0) with
              | none => none | some k' => rest[k']?) := by
            by_cases hlt : 0 + 1 < (e :: rest).length
            · rw [advCursor_of_lt hlt]
              simp only [Option.map_some']
              rw [hflk, List.getElem?_cons_succ]
            · rw [advCursor_of_ge hlt]
              simp only [Option.map_none']
              rw [hflk, List.getElem?_cons_succ]
              refine List.getElem?_eq_none ?_
              simp only [List.length_cons] at hlt
              omega
          have harg2 : (match Option.map (fun i => i - 1)
              (advCursor (e :: rest) 0) with
              | none => 0 | some k' => rest.length - k') ≤ fuel := by
            by_cases hlt : 0 + 1 < (e :: rest).length
            · rw [advCursor_of_lt hlt]
              show rest.length - (1 - 1) ≤ fuel
              simp only [List.length_cons] at hfl'
              omega
            · rw [advCursor_of_ge hlt]
              exact Nat.zero_le fuel
          obtain ⟨h', d', hdc, hdle', hR'', hout', hdata'⟩ :=
            ih (_lwnl_remove_event h e) rest
              (Option.map (fun i => i - 1) (advCursor (e :: rest) 0))
              (m.map (Option.map (fun i => i - 1))) n.flink hR1 harg1 harg2
          refine ⟨h', d' + 1, ?_, ?_, ?_, ?_, ?_⟩
          · rw [hstep]
            exact hdc
          · intro k' hk'
            have h1k : 1 ≤ k' := hothers k' hk'
            have hmem : some (k' - 1) ∈ m.map (Option.map (fun i => i - 1)) :=
              List.mem_map_of_mem _ hk'
            have hd' : d' ≤ k' - 1 := hdle' (k' - 1) hmem
            omega
          · rw [map_shift_shift] at hR''
            exact hR''
          · intro x hxL
            have hxr : x ∉ rest := fun hc => hxL (List.mem_cons_of_mem _ hc)
            have hxe : x ≠ e := fun hc => hxL (hc ▸ List.mem_cons_self _ _)
            rw [hout' x hxr, hunch x hxe]
          · intro x hx
            have hxr : x ∈ rest := List.drop_subset _ _ hx
            have hxe : x ≠ e := fun hc => hent (hc ▸ hxr)
            rw [hdata' x hx]
            unfold dataAt
            rw [hunch x hxe]

theorem removeListenerLoop_cases (f : Nat) (h : Heap) :
    ∀ qs : List lwnl_queue,
    ((∀ q ∈ qs, q.filep ≠ some f) ∧
      removeListenerLoop f h qs = (h, qs, false)) ∨
    (∃ qs1 q qs2, qs = qs1 ++ q :: qs2 ∧ q.filep = some f ∧
      (∀ q' ∈ qs1, q'.filep ≠ some f) ∧
      removeListenerLoop f h qs =
        ((drainChain h q.front h.length).1,
          qs1 ++ emptySlot :: qs2, true)) := by
  intro qs
  induction qs with
  | nil =>
    left
    exact ⟨fun q hq => absurd hq (List.not_mem_nil q), rfl⟩
  | cons a rest ih =>
    by_cases hfp : a.filep = some f
    · right
      refine ⟨[], a, rest, rfl, hfp,
        fun q' hq' => absurd hq' (List.not_mem_nil q'), ?_⟩
      unfold removeListenerLoop
      rw [if_pos hfp]
      rfl
    · rcases ih with ⟨hall, heq⟩ | ⟨qs1, q, qs2, hsp, hq, hb4, heq⟩
      · left
        refine ⟨?_, ?_⟩
        · intro q hqm
          rcases List.mem_cons.mp hqm with hc | hc
          · subst hc
            exact hfp
          · exact hall q hc
        · unfold removeListenerLoop
          rw [if_neg hfp]
          show ((removeListenerLoop f h rest).1,
            a :: (removeListenerLoop f h rest).2.1,
            (removeListenerLoop f h rest).2.2) = (h, a :: rest, false)
          rw [heq]
      · right
        refine ⟨a :: qs1, q, qs2, by rw [hsp]; rfl, hq, ?_, ?_⟩
        · intro q' hq'
          rcases List.mem_cons.mp hq' with hc | hc
          · subst hc
            exact hfp
          · exact hb4 q' hc
        · unfold removeListenerLoop
          rw [if_neg hfp]
          show ((removeListenerLoop f h rest).1,
            a :: (removeListenerLoop f h rest).2.1,
            (removeListenerLoop f h rest).2.2) = _
          rw [heq]
          rfl

theorem inv_removeListener (f : Nat) {s : LwnlState} {L : List Nat}
    {ks : List (Option Nat)} (hI : InvLK s L ks) :
    ReachInv (lwnl_remove_listener f s).2 := by
  obtain ⟨hR, hF, hconn⟩ := hI
  have hmain : (lwnl_remove_listener f s).2 =
      { s with heap := (removeListenerLoop f s.heap s.queues).1,
               queues := (removeListenerLoop f s.heap s.queues).2.1,
               connected := s.connected -
                 (if (removeListenerLoop f s.heap s.queues).2.2
                  then 1 else 0) } := rfl
  rcases removeListenerLoop_cases f s.heap s.queues with ⟨hall, heq⟩ |
      ⟨qs1, q, qs2, hsp, hq, hb4, heq⟩
  · refine ⟨L, ks, ?_, ?_, ?_⟩
    · rw [hmain, heq]
      exact hR
    · rw [hmain, heq]
      exact hF
    · rw [hmain, heq]
      dsimp only
      rw [if_neg (by exact fun hc => Bool.noConfusion hc)]
      rw [hconn]
      ring
  · rw [hsp] at hF
    obtain ⟨ks1, k?, ks2, hks, _, hF1, hsr, hF2⟩ := forall₂_append_split hF
    subst hks
    have hconn2 : s.connected =
        ((qs1.countP (fun q => q.filep.isSome) +
          (qs2.countP (fun q => q.filep.isSome) + 1) : Nat) : Int) := by
      rw [hconn, hsp, List.countP_append, List.countP_cons]
      congr 2
      rw [hq]
      rfl
    rcases hfr : q.front with _ | e0
    · have hkn : k? = none := by
        rcases hkc : k? with _ | k
        · rfl
        · exfalso
          obtain ⟨fp, ch, fr, re⟩ := q
          have hfp : fp = some f := hq
          subst hfp
          have hfr2 : fr = none := hfr
          subst hfr2
          subst hkc
          exact hsr
      subst hkn
      have hd0 : drainChain s.heap q.front s.heap.length =
          (s.heap, none) := by
        rw [hfr]
        exact drainChain_none _ _
      refine ⟨L, ks1 ++ none :: ks2, ?_, ?_, ?_⟩
      · rw [hmain, heq]
        dsimp only
        rw [hd0]
        exact hR
      · rw [hmain, heq]
        dsimp only
        exact forall₂_append_combine hF1
          (List.Forall₂.cons (by exact ⟨rfl, rfl, rfl, rfl⟩) hF2)
      · rw [hmain, heq]
        dsimp only
        rw [if_pos rfl, hconn2, List.countP_append, List.countP_cons]
        simp [emptySlot]
        omega
    · have hke : ∃ k, k? = some k := by
        rcases hkc : k? with _ | k
        · exfalso
          obtain ⟨fp, ch, fr, re⟩ := q
          have hfp : fp = some f := hq
          subst hfp
          have hfr2 : fr = some e0 := hfr
          subst hfr2
          subst hkc
          exact hsr
        · exact ⟨k, rfl⟩
      obtain ⟨k, hkc⟩ := hke
      subst hkc
      have he0 : L[k]? = some e0 := by
        obtain ⟨fp, ch, fr, re⟩ := q
        have hfp : fp = some f := hq
        subst hfp
        have hfr2 : fr = some e0 := hfr
        subst hfr2
        exact hsr.1
      have hRp : HeapRep s.heap L (some k :: (ks1 ++ ks2)) :=
        heapRep_perm List.perm_middle hR
      have hlen : L.length ≤ s.heap.length := heapRep_length_le hRp
      have hkL : k < L.length := hRp.ksLt k (List.mem_cons_self _ _)
      obtain ⟨h', d, hdc, hdle, hR', hout, hdata⟩ :=
        drain_spec s.heap.length s.heap L (some k) (ks1 ++ ks2) (some e0)
          hRp (by exact he0.symm) (by show L.length - k ≤ s.heap.length; omega)
      have hdle1 : ∀ k', some k' ∈ ks1 → d ≤ k' :=
        fun k' hk' => hdle k' (List.mem_append_left _ hk')
      have hdle2 : ∀ k', some k' ∈ ks2 → d ≤ k' :=
        fun k' hk' => hdle k' (List.mem_append_right _ hk')
      refine ⟨L.drop d,
        ks1.map (Option.map (fun i => i - d)) ++ none ::
          ks2.map (Option.map (fun i => i - d)), ?_, ?_, ?_⟩
      · rw [hmain, heq]
        dsimp only
        rw [hfr, hdc]
        refine heapRep_perm ?_ (heapRep_cons_none hR')
        rw [List.map_append]
        exact List.perm_middle.symm
      · rw [hmain, heq]
        dsimp only
        refine forall₂_append_combine
          (forall₂_slotRep_drop d hF1 hdle1)
          (List.Forall₂.cons (by exact ⟨rfl, rfl, rfl, rfl⟩)
            (forall₂_slotRep_drop d hF2 hdle2))
      · rw [hmain, heq]
        dsimp only
        rw [if_pos rfl, hconn2, List.countP_append, List.countP_cons]
        simp [emptySlot]
        omega

/-! ### Every reachable state satisfies the invariant -/

theorem first_match_cases (f : Nat) :
    ∀ qs : List lwnl_queue,
    (∀ q ∈ qs, q.filep ≠ some f) ∨
    (∃ qs1 q qs2, qs = qs1 ++ q :: qs2 ∧ q.filep = some f ∧
      ∀ q' ∈ qs1, q'.filep ≠ some f) := by
  intro qs
  induction qs with
  | nil =>
    left
    exact fun q hq => absurd hq (List.not_mem_nil q)
  | cons a rest ih =>
    by_cases hfp : a.filep = some f
    · right
      exact ⟨[], a, rest, rfl, hfp,
        fun q' hq' => absurd hq' (List.not_mem_nil q')⟩
    · rcases ih with hall | ⟨qs1, q, qs2, hsp, hq, hb4⟩
      · left
        intro q hqm
        rcases List.mem_cons.mp hqm with hc | hc
        · subst hc
          exact hfp
        · exact hall q hc
      · right
        refine ⟨a :: qs1, q, qs2, by rw [hsp]; rfl, hq, ?_⟩
        intro q' hq'
        rcases List.mem_cons.mp hq' with hc | hc
        · subst hc
          exact hfp
        · exact hb4 q' hc

theorem getEvent_unregistered (c len : Nat) (s : LwnlState)
    (hall : ∀ q ∈ s.queues, q.filep ≠ some c) :
    (lwnl_get_event c len s).2.2 = s := by
  unfold lwnl_get_event
  rw [getEventLoop_not_found c len s.heap s.queues hall]

theorem countP_filep_middle (qs1 qs2 : List lwnl_queue)
    (q q' : lwnl_queue) (hfp : q'.filep = q.filep) :
    (qs1 ++ q' :: qs2).countP (fun x => x.filep.isSome) =
      (qs1 ++ q :: qs2).countP (fun x => x.filep.isSome) := by
  rw [List.countP_append, List.countP_append, List.countP_cons,
    List.countP_cons, hfp]

theorem inv_getEvent (c len : Nat) {s : LwnlState} {L : List Nat}
    {ks : List (Option Nat)} (hI : InvLK s L ks) :
    ReachInv (lwnl_get_event c len s).2.2 := by
  obtain ⟨hR, hF, hconn⟩ := hI
  rcases first_match_cases c s.queues with hall |
      ⟨qs1, q, qs2, hsp, hq, hb4⟩
  · rw [getEvent_unregistered c len s hall]
    exact ⟨L, ks, hR, hF, hconn⟩
  · rw [hsp] at hF
    obtain ⟨ks1, k?, ks2, hks, _, hF1, hsr, hF2⟩ := forall₂_append_split hF
    subst hks
    rcases inv_getEvent_cases c len hsp hb4 hq hR hsr with
      ⟨q', hst, hfp', _, _, hsr', _⟩ |
      ⟨k, e, evt, q', hkc, he, hevt, _, hst, hfp', _, _, hR', hsr', _, _⟩ |
      ⟨e, evt, q', hkc, he, hevt, _, hst, hfp', _, _, hR', hsr', hothers, _, _⟩
    · refine ⟨L, ks1 ++ k? :: ks2, ?_, ?_, ?_⟩
      · rw [hst]
        exact hR
      · rw [hst]
        exact forall₂_append_combine hF1 (List.Forall₂.cons hsr' hF2)
      · rw [hst]
        dsimp only
        rw [countP_filep_middle qs1 qs2 q q' hfp', ← hsp]
        exact hconn
    · refine ⟨L, ks1 ++ advCursor L k :: ks2, ?_, ?_, ?_⟩
      · rw [hst]
        exact hR'
      · rw [hst]
        exact forall₂_append_combine hF1 (List.Forall₂.cons hsr' hF2)
      · rw [hst]
        dsimp only
        rw [countP_filep_middle qs1 qs2 q q' hfp', ← hsp]
        exact hconn
    · have ho1 : ∀ k', some k' ∈ ks1 → 1 ≤ k' :=
        fun k' hk' => hothers k' (List.mem_append_left _ hk')
      have ho2 : ∀ k', some k' ∈ ks2 → 1 ≤ k' :=
        fun k' hk' => hothers k' (List.mem_append_right _ hk')
      refine ⟨L.tail,
        ks1.map (Option.map (fun i => i - 1)) ++
          Option.map (fun i => i - 1) (advCursor L 0) ::
          ks2.map (Option.map (fun i => i - 1)), ?_, ?_, ?_⟩
      · rw [hst]
        exact hR'
      · rw [hst]
        exact forall₂_append_combine (forall₂_slotRep_shift hF1 ho1)
          (List.Forall₂.cons hsr' (forall₂_slotRep_shift hF2 ho2))
      · rw [hst]
        dsimp only
        rw [countP_filep_middle qs1 qs2 q q' hfp', ← hsp]
        exact hconn

theorem inv_init :
    InvLK initState [] (List.replicate LWNL_NPOLLWAITERS none) := by
  refine ⟨⟨?_, ?_, ?_, ?_, ?_, ?_, ?_⟩, ?_, ?_⟩
  · exact List.nodup_nil
  · intro e he
    exact absurd he (List.not_mem_nil e)
  · intro j e1 he
    exact Option.noConfusion he
  · intro k hk
    exact absurd (List.eq_of_mem_replicate hk) (fun hc => Option.noConfusion hc)
  · intro j e he
    exact Option.noConfusion he
  · intro x n hx
    exact absurd hx (fun hc => Option.noConfusion hc)
  · intro hL
    exact absurd rfl hL
  · show List.Forall₂ (SlotRep []) (List.replicate 5 emptySlot)
      (List.replicate 5 none)
    refine List.Forall₂.cons ⟨rfl, rfl, rfl, rfl⟩
      (List.Forall₂.cons ⟨rfl, rfl, rfl, rfl⟩
        (List.Forall₂.cons ⟨rfl, rfl, rfl, rfl⟩
          (List.Forall₂.cons ⟨rfl, rfl, rfl, rfl⟩
            (List.Forall₂.cons ⟨rfl, rfl, rfl, rfl⟩ List.Forall₂.nil))))
  · rfl

theorem reachInv_step {s : LwnlState} (hs : ReachInv s) (op : LwnlOp) :
    ReachInv (step s op) := by
  obtain ⟨L, ks, hI⟩ := hs
  cases op with
  | emit t sl ea ba =>
    cases ea with
    | false =>
      show ReachInv (lwnl_add_event t sl false ba s).2
      rw [inv_addEvent_noalloc]
      exact ⟨L, ks, hI⟩
    | true =>
      by_cases ht : t = LwnlStatus.LWNL_UNKNOWN
      · subst ht
        exact ⟨L, ks, (inv_addEvent_unknown sl ba hI).1⟩
      · exact ⟨_, _, (inv_addEvent_ok t sl ba hI ht).1⟩
  | readEvt f len => exact inv_getEvent f len hI
  | addLis f => exact ⟨L, ks, inv_addListener f hI⟩
  | removeLis f => exact inv_removeListener f hI

theorem reachInv_foldl (ops : List LwnlOp) :
    ∀ s, ReachInv s → ReachInv (ops.foldl step s) := by
  induction ops with
  | nil =>
    intro s hs
    exact hs
  | cons op rest ih =>
    intro s hs
    exact ih (step s op) (reachInv_step hs op)

/-- Every state reachable from initialization satisfies the global
spine/cursor invariant. -/
theorem reachInv_run (ops : List LwnlOp) : ReachInv (run ops) :=
  reachInv_foldl ops initState
    ⟨[], List.replicate LWNL_NPOLLWAITERS none, inv_init⟩

/-! ### The observable front chain of a consumer slot -/

/-- Walk a slot's `front`/`flink` chain, collecting node addresses
(with fuel; the heap size bounds every chain under the invariant). -/
def chaseChain (h : Heap) : Option Nat → Nat → List Nat
  | _, 0 => []
  | none, _ + 1 => []
  | some e, fuel + 1 =>
    match hget h e with
    | none => []
    | some n => e :: chaseChain h n.flink fuel

/-- The chain of heap nodes a consumer identity still has to read. -/
def slotChain (s : LwnlState) (f : Nat) : List Nat :=
  match s.queues.find? (fun q => q.filep == some f) with
  | none => []
  | some q => chaseChain s.heap q.front s.heap.length

theorem chase_eq_drop {h : Heap} {L : List Nat} {KS : List (Option Nat)}
    (hR : HeapRep h L KS) :
    ∀ (fuel k : Nat), L.length - k ≤ fuel →
    chaseChain h L[k]? fuel = L.drop k := by
  intro fuel
  induction fuel with
  | zero =>
    intro k hk
    have hl : L.length ≤ k := by omega
    rw [List.getElem?_eq_none hl, List.drop_eq_nil_of_le hl]
    rfl
  | succ fuel ih =>
    intro k hk
    by_cases hkL : k < L.length
    · rcases he : L[k]? with _ | e
      · rw [List.getElem?_eq_getElem hkL] at he
        exact absurd he (fun hc => Option.noConfusion hc)
      · have heL : e ∈ L := List.getElem?_mem he
        rcases hn : hget h e with _ | n
        · exact absurd hn (hR.live e heL)
        have hflk : n.flink = L[k + 1]? := by
          rw [← flinkAt_of_get hn]
          exact hR.link k e he
        have hstep : chaseChain h (some e) (fuel + 1) =
            e :: chaseChain h n.flink fuel := by
          conv_lhs => unfold chaseChain
          rw [hn]
        rw [hstep, hflk, ih (k + 1) (by omega),
          List.drop_eq_getElem_cons hkL]
        have hee : L[k] = e := by
          rw [List.getElem?_eq_getElem hkL] at he
          exact Option.some_inj.mp he
        rw [hee]
    · have hl : L.length ≤ k := by omega
      rw [List.getElem?_eq_none hl, List.drop_eq_nil_of_le hl]
      rfl

theorem mem_drop_iff_le {L : List Nat} (hnd : L.Nodup) {j k e : Nat}
    (he : L[j]? = some e) : e ∈ L.drop k ↔ k ≤ j := by
  constructor
  · intro hm
    obtain ⟨i, hi⟩ := List.mem_iff_getElem?.mp hm
    rw [List.getElem?_drop] at hi
    have hij : k + i = j := nodup_getElem_inj hnd hi he
    omega
  · intro hkj
    have hjL : j < L.length := getElem?_some_lt he
    refine List.mem_iff_getElem?.mpr ⟨j - k, ?_⟩
    rw [List.getElem?_drop]
    have hh : k + (j - k) = j := by omega
    rw [hh]
    exact he

theorem forall₂_mem_left {R : lwnl_queue → Option Nat → Prop} :
    ∀ {qs : List lwnl_queue} {ks : List (Option Nat)} {q : lwnl_queue},
    List.Forall₂ R qs ks → q ∈ qs → ∃ k?, k? ∈ ks ∧ R q k? := by
  intro qs
  induction qs with
  | nil =>
    intro ks q _ hq
    exact absurd hq (List.not_mem_nil q)
  | cons a rest ih =>
    intro ks q hF hq
    cases hF with
    | cons h1 h2 =>
      rename_i k? ks'
      rcases List.mem_cons.mp hq with hc | hc
      · subst hc
        exact ⟨k?, List.mem_cons_self _ _, h1⟩
      · obtain ⟨k2, hk2, hr⟩ := ih h2 hc
        exact ⟨k2, List.mem_cons_of_mem _ hk2, hr⟩

theorem chaseChain_none (h : Heap) (fuel : Nat) :
    chaseChain h none fuel = [] := by
  cases fuel <;> rfl

/-- Per-slot: a node at spine position `j` is on the slot's chain exactly
when the slot's cursor is at or before `j`; summing over all slots, the
number of chains containing the node is `countLe ks j`. -/
theorem countP_chase {h : Heap} {L : List Nat} {KS : List (Option Nat)}
    (hR : HeapRep h L KS) {j e : Nat} (he : L[j]? = some e) :
    ∀ {qs : List lwnl_queue} {ks : List (Option Nat)},
    List.Forall₂ (SlotRep L) qs ks →
    qs.countP (fun q => decide (e ∈ chaseChain h q.front h.length)) =
      countLe ks j := by
  intro qs ks hF
  induction hF with
  | nil => rfl
  | cons hsr hF' ih =>
    rename_i q k? qs' ks'
    rw [List.countP_cons, ih]
    obtain ⟨fp, ch, fr, re⟩ := q
    cases fp with
    | none =>
      obtain ⟨hfr, _, _, hkn⟩ := hsr
      subst hkn
      dsimp only at hfr
      subst hfr
      simp [chaseChain_none, countLe_cons_none]
    | some v =>
      cases fr with
      | none =>
        cases k? with
        | none =>
          simp [chaseChain_none, countLe_cons_none]
        | some k => exact absurd hsr (by simp [SlotRep])
      | some f2 =>
        cases k? with
        | none => exact absurd hsr (by simp [SlotRep])
        | some k =>
          have he2 : L[k]? = some f2 := hsr.1
          have hkL : k < L.length := getElem?_some_lt he2
          have hchase : chaseChain h (some f2) h.length = L.drop k := by
            rw [← he2]
            exact chase_eq_drop hR h.length k
              (by have := heapRep_length_le hR; omega)
          rw [countLe_cons_some]
          show (countLe ks' j + if decide (e ∈ chaseChain h (some f2) h.length) = true then 1 else 0) = _
          rw [hchase]
          by_cases hkj : k ≤ j
          · rw [if_pos (by rw [decide_eq_true_eq]; exact (mem_drop_iff_le hR.nodup he).mpr hkj), if_pos hkj]
          · rw [if_neg (by rw [decide_eq_true_eq]; exact fun hm => hkj ((mem_drop_iff_le hR.nodup he).mp hm)), if_neg hkj]

/-- C1: in every reachable state, a node referenced by some consumer's
front chain is live, its refcount is positive, and it equals the number of
consumer slots whose chain contains the node (so the refcount reaches zero
only once no chain references it any more); and releasing it destroys the
node exactly when this last reference is given up. -/
theorem refcount_correct (ops : List LwnlOp) (f e : Nat)
    (he : e ∈ slotChain (run ops) f) :
    hget (run ops).heap e ≠ none ∧
    0 < refsAt (run ops).heap e ∧
    refsAt (run ops).heap e =
      ((run ops).queues.countP
        (fun q => decide (e ∈ chaseChain (run ops).heap q.front
          (run ops).heap.length)) : Int) ∧
    (∀ n, hget (run ops).heap e = some n →
      (hget (_lwnl_remove_event (run ops).heap e) e = none ↔ n.refs ≤ 1)) := by
  obtain ⟨L, ks, hR, hF, hconn⟩ := reachInv_run ops
  unfold slotChain at he
  rcases hfind : (run ops).queues.find? (fun q => q.filep == some f)
      with _ | q
  · rw [hfind] at he
    exact absurd he (List.not_mem_nil e)
  rw [hfind] at he
  dsimp only at he
  have hqm : q ∈ (run ops).queues := List.mem_of_find?_eq_some hfind
  have hqf : q.filep = some f := by
    have := List.find?_some hfind
    exact beq_iff_eq.mp (by exact this)
  obtain ⟨k?, hkm, hsr⟩ := forall₂_mem_left hF hqm
  obtain ⟨fp, ch, fr, re⟩ := q
  have hfp : fp = some f := hqf
  subst hfp
  dsimp only at he
  cases fr with
  | none =>
    rw [chaseChain_none] at he
    exact absurd he (List.not_mem_nil e)
  | some f2 =>
    cases k? with
    | none => exact absurd hsr (by simp [SlotRep])
    | some k =>
      have he2 : L[k]? = some f2 := hsr.1
      have hchase : chaseChain (run ops).heap (some f2)
          (run ops).heap.length = L.drop k := by
        rw [← he2]
        exact chase_eq_drop hR _ k
          (by have := heapRep_length_le hR; omega)
      rw [hchase] at he
      have heL : e ∈ L := List.drop_subset _ _ he
      obtain ⟨j, hej⟩ := List.mem_iff_getElem?.mp heL
      have hkj : k ≤ j := (mem_drop_iff_le hR.nodup hej).mp he
      have hlive : hget (run ops).heap e ≠ none := hR.live e heL
      have hrefs : refsAt (run ops).heap e = (countLe ks j : Int) :=
        hR.refsEq j e hej
      have hpos : 0 < countLe ks j := countLe_pos_of_mem hkm hkj
      refine ⟨hlive, ?_, ?_, ?_⟩
      · rw [hrefs]
        exact_mod_cast hpos
      · rw [hrefs, countP_chase hR hej hF]
      · intro n hn
        rw [remove_get_self hn]
        by_cases hr : n.refs - 1 > 0
        · rw [if_pos hr]
          constructor
          · intro hc
            exact absurd hc (fun hc2 => Option.noConfusion hc2)
          · intro hle
            omega
        · rw [if_neg hr]
          constructor
          · intro _
            omega
          · intro _
            rfl

/-- Instantiation of `refcount_correct`: after registering identity `7`
and emitting one event, node `0` is the sole chain entry of that consumer,
is live with refcount `1`, and releasing it frees it. -/
theorem refcount_correct_witness :
    0 ∈ slotChain (run [LwnlOp.addLis 7,
      LwnlOp.emit LwnlStatus.LWNL_STA_CONNECTED [] true true]) 7 ∧
    (hget (run [LwnlOp.addLis 7,
        LwnlOp.emit LwnlStatus.LWNL_STA_CONNECTED [] true true]).heap 0 ≠
        none ∧
      0 < refsAt (run [LwnlOp.addLis 7,
        LwnlOp.emit LwnlStatus.LWNL_STA_CONNECTED [] true true]).heap 0 ∧
      refsAt (run [LwnlOp.addLis 7,
          LwnlOp.emit LwnlStatus.LWNL_STA_CONNECTED [] true true]).heap 0 =
        (((run [LwnlOp.addLis 7,
            LwnlOp.emit LwnlStatus.LWNL_STA_CONNECTED [] true true]).queues.countP
          (fun q => decide (0 ∈ chaseChain (run [LwnlOp.addLis 7,
            LwnlOp.emit LwnlStatus.LWNL_STA_CONNECTED [] true true]).heap q.front
            (run [LwnlOp.addLis 7,
              LwnlOp.emit LwnlStatus.LWNL_STA_CONNECTED [] true true]).heap.length))
          : Nat) : Int) ∧
      (∀ n, hget (run [LwnlOp.addLis 7,
          LwnlOp.emit LwnlStatus.LWNL_STA_CONNECTED [] true true]).heap 0 =
          some n →
        (hget (_lwnl_remove_event (run [LwnlOp.addLis 7,
            LwnlOp.emit LwnlStatus.LWNL_STA_CONNECTED [] true true]).heap 0) 0 =
            none ↔ n.refs ≤ 1))) :=
  ⟨by decide, refcount_correct
    [LwnlOp.addLis 7, LwnlOp.emit LwnlStatus.LWNL_STA_CONNECTED [] true true]
    7 0 (by decide)⟩

/-! ### Event accounting: emitted, delivered and pending records -/

/-- Run a sequence of operations from an arbitrary state. -/
def runFrom (s : LwnlState) (ops : List LwnlOp) : LwnlState :=
  ops.foldl step s

/-- The event records enqueued by the emits of an operation sequence (an
emit enqueues exactly when the node allocation succeeds and the kind is
recognized). -/
def emittedData : List LwnlOp → List lwnl_cb_data
  | [] => []
  | LwnlOp.emit t sl ea ba :: rest =>
    (if ea = true ∧ t ≠ LwnlStatus.LWNL_UNKNOWN then [evtDataFor t sl ba]
     else []) ++ emittedData rest
  | _ :: rest => emittedData rest

/-- The event records consumer `f` completes (reads past) while the
operation sequence runs from `s`. -/
def deliveredData (f : Nat) : List LwnlOp → LwnlState → List lwnl_cb_data
  | [], _ => []
  | op :: rest, s =>
    (match op with
     | LwnlOp.readEvt f' len => if f' = f then completedData f len s else []
     | _ => []) ++ deliveredData f rest (step s op)

/-- The event records still queued for consumer `f`. -/
def pendingData (f : Nat) (s : LwnlState) : List lwnl_cb_data :=
  (slotChain s f).filterMap (dataAt s.heap)

theorem find?_middle_congr {f : Nat} {p1 p2 : List lwnl_queue}
    {q q' : lwnl_queue} (hq : q.filep ≠ some f) (hq' : q'.filep ≠ some f) :
    (p1 ++ q' :: p2).find? (fun x => x.filep == some f) =
      (p1 ++ q :: p2).find? (fun x => x.filep == some f) := by
  induction p1 with
  | nil =>
    rw [List.nil_append, List.nil_append,
      List.find?_cons_of_neg _ (by simp [hq']),
      List.find?_cons_of_neg _ (by simp [hq])]
  | cons a rest ih =>
    rw [List.cons_append, List.cons_append]
    by_cases ha : (a.filep == some f) = true
    · have h1 : ∀ l, (a :: l).find? (fun x => x.filep == some f) = some a :=
        fun l => List.find?_cons_of_pos l ha
      rw [h1, h1]
    · have h1 : ∀ l, (a :: l).find? (fun x => x.filep == some f) =
          l.find? (fun x => x.filep == some f) :=
        fun l => List.find?_cons_of_neg l (by simpa using ha)
      rw [h1, h1, ih]

/-- The spine suffix designated by a cursor. -/
def chainOf (L : List Nat) : Option Nat → List Nat
  | none => []
  | some k => L.drop k

theorem slotChain_of_find {f : Nat} {s : LwnlState} {L : List Nat}
    {KS : List (Option Nat)} {q : lwnl_queue} {k? : Option Nat}
    (hR : HeapRep s.heap L KS)
    (hfind : s.queues.find? (fun x => x.filep == some f) = some q)
    (hsr : SlotRep L q k?) :
    slotChain s f = chainOf L k? := by
  unfold slotChain
  rw [hfind]
  obtain ⟨fp, ch, fr, re⟩ := q
  have hfp : fp = some f := by
    have h1 := List.find?_some hfind
    exact beq_iff_eq.mp (by exact h1)
  subst hfp
  dsimp only
  cases fr with
  | none =>
    cases k? with
    | none => exact chaseChain_none _ _
    | some k => exact absurd hsr (by simp [SlotRep])
  | some f2 =>
    cases k? with
    | none => exact absurd hsr (by simp [SlotRep])
    | some k =>
      have he2 : L[k]? = some f2 := hsr.1
      show chaseChain s.heap (some f2) s.heap.length = L.drop k
      rw [← he2]
      exact chase_eq_drop hR _ k (by have := heapRep_length_le hR; omega)

theorem pendingData_of_find {f : Nat} {s : LwnlState} {L : List Nat}
    {KS : List (Option Nat)} {q : lwnl_queue} {k? : Option Nat}
    (hR : HeapRep s.heap L KS)
    (hfind : s.queues.find? (fun x => x.filep == some f) = some q)
    (hsr : SlotRep L q k?) :
    pendingData f s = (chainOf L k?).filterMap (dataAt s.heap) := by
  unfold pendingData
  rw [slotChain_of_find hR hfind hsr]

theorem find?_split {f : Nat} :
    ∀ {qs : List lwnl_queue} {q : lwnl_queue},
    qs.find? (fun x => x.filep == some f) = some q →
    ∃ qs1 qs2, qs = qs1 ++ q :: qs2 ∧ ∀ q' ∈ qs1, q'.filep ≠ some f := by
  intro qs
  induction qs with
  | nil =>
    intro q hq
    exact Option.noConfusion hq
  | cons a rest ih =>
    intro q hq
    by_cases ha : (a.filep == some f) = true
    · have h1 : (a :: rest).find? (fun x => x.filep == some f) = some a :=
        List.find?_cons_of_pos rest ha
      rw [h1] at hq
      have haq : a = q := Option.some_inj.mp hq
      subst haq
      exact ⟨[], rest, rfl, fun q' hq' => absurd hq' (List.not_mem_nil q')⟩
    · have h1 : (a :: rest).find? (fun x => x.filep == some f) =
          rest.find? (fun x => x.filep == some f) :=
        List.find?_cons_of_neg rest (by simpa using ha)
      rw [h1] at hq
      obtain ⟨qs1, qs2, hsp, hb4⟩ := ih hq
      refine ⟨a :: qs1, qs2, by rw [hsp]; rfl, ?_⟩
      intro q' hq'
      rcases List.mem_cons.mp hq' with hc | hc
      · subst hc
        simpa using ha
      · exact hb4 q' hc

theorem forall₂_split_at {R : lwnl_queue → Option Nat → Prop} :
    ∀ {qs1 : List lwnl_queue} {q : lwnl_queue} {qs2 : List lwnl_queue}
      {ks1 : List (Option Nat)} {k? : Option Nat} {ks2 : List (Option Nat)},
    List.Forall₂ R (qs1 ++ q :: qs2) (ks1 ++ k? :: ks2) →
    ks1.length = qs1.length →
    List.Forall₂ R qs1 ks1 ∧ R q k? ∧ List.Forall₂ R qs2 ks2 := by
  intro qs1
  induction qs1 with
  | nil =>
    intro q qs2 ks1 k? ks2 hF hlen
    have hk1 : ks1 = [] := List.length_eq_zero.mp hlen
    subst hk1
    cases hF with
    | cons h1 h2 => exact ⟨List.Forall₂.nil, h1, h2⟩
  | cons a rest ih =>
    intro q qs2 ks1 k? ks2 hF hlen
    cases ks1 with
    | nil => exact absurd hlen (by simp)
    | cons k0 ks1' =>
      rw [List.cons_append, List.cons_append] at hF
      cases hF with
      | cons h1 h2 =>
        obtain ⟨hA, hB, hC⟩ := ih h2 (by
          rw [List.length_cons, List.length_cons] at hlen
          omega)
        exact ⟨List.Forall₂.cons h1 hA, hB, hC⟩

theorem eq_cons_of_getElem?_zero {L : List Nat} {e : Nat}
    (h : L[0]? = some e) : L = e :: L.tail := by
  cases L with
  | nil => simp at h
  | cons a rest =>
    have ha : a = e := by
      rw [List.getElem?_cons_zero] at h
      exact Option.some_inj.mp h
    rw [ha]
    rfl

theorem pendingData_congr {f : Nat} {s s' : LwnlState}
    (hq : s'.queues = s.queues) (hh : s'.heap = s.heap) :
    pendingData f s' = pendingData f s := by
  unfold pendingData slotChain
  rw [hq, hh]

theorem acct_addLis {f g : Nat} {s : LwnlState}
    {qf : lwnl_queue}
    (hfind : s.queues.find? (fun x => x.filep == some f) = some qf)
    (hgf : g ≠ f) :
    (step s (LwnlOp.addLis g)).queues.find?
      (fun x => x.filep == some f) = some qf ∧
    pendingData f (step s (LwnlOp.addLis g)) = pendingData f s := by
  rcases addListenerLoop_cases g s.queues with ⟨hnone, _⟩ |
      ⟨p1, qa, p2, hsp2, hqa, _, hsome⟩
  · have hst : step s (LwnlOp.addLis g) = s := by
      show (lwnl_add_listener g s).2 = s
      unfold lwnl_add_listener
      rw [hnone]
    rw [hst]
    exact ⟨hfind, rfl⟩
  · have hst : step s (LwnlOp.addLis g) =
        { s with queues := p1 ++ { qa with filep := some g } :: p2,
                 connected := s.connected + 1 } := by
      show (lwnl_add_listener g s).2 = _
      unfold lwnl_add_listener
      rw [hsome]
    have hfind' : (step s (LwnlOp.addLis g)).queues.find?
        (fun x => x.filep == some f) = some qf := by
      rw [hst]
      dsimp only
      rw [find?_middle_congr
        (show qa.filep ≠ some f by
          rw [hqa]; exact fun hc => Option.noConfusion hc)
        (by intro hc; exact hgf (Option.some_inj.mp hc)),
        ← hsp2, hfind]
    have hh : (step s (LwnlOp.addLis g)).heap = s.heap := by
      rw [hst]
    refine ⟨hfind', ?_⟩
    unfold pendingData slotChain
    rw [hfind', hfind, hh]

theorem acct_removeLis {f g : Nat} {s : LwnlState} {L : List Nat}
    {ks : List (Option Nat)} {qf : lwnl_queue}
    (hI : InvLK s L ks)
    (hfind : s.queues.find? (fun x => x.filep == some f) = some qf)
    (hgf : g ≠ f) :
    (step s (LwnlOp.removeLis g)).queues.find?
      (fun x => x.filep == some f) = some qf ∧
    pendingData f (step s (LwnlOp.removeLis g)) = pendingData f s := by
  obtain ⟨hR, hF, hconn⟩ := hI
  have hqff : qf.filep = some f := by
    have h1 := List.find?_some hfind
    exact beq_iff_eq.mp (by exact h1)
  have hmain : (lwnl_remove_listener g s).2 =
      { s with heap := (removeListenerLoop g s.heap s.queues).1,
               queues := (removeListenerLoop g s.heap s.queues).2.1,
               connected := s.connected -
                 (if (removeListenerLoop g s.heap s.queues).2.2
                  then 1 else 0) } := rfl
  rcases removeListenerLoop_cases g s.heap s.queues with ⟨hall, heq⟩ |
      ⟨p1, qg, p2, hsp2, hqg, hb4g, heq⟩
  · have hq' : (step s (LwnlOp.removeLis g)).queues = s.queues := by
      show ((lwnl_remove_listener g s).2).queues = _
      rw [hmain, heq]
    have hh' : (step s (LwnlOp.removeLis g)).heap = s.heap := by
      show ((lwnl_remove_listener g s).2).heap = _
      rw [hmain, heq]
    refine ⟨by rw [hq', hfind], pendingData_congr hq' hh'⟩
  · -- a slot is drained and cleared; f's chain is untouched
    rw [hsp2] at hF
    obtain ⟨m1, kg?, m2, hks2, hlenm, hG1, hsrg, hG2⟩ :=
      forall₂_append_split hF
    subst hks2
    have hq' : (step s (LwnlOp.removeLis g)).queues =
        p1 ++ emptySlot :: p2 := by
      show ((lwnl_remove_listener g s).2).queues = _
      rw [hmain, heq]
    have hh' : (step s (LwnlOp.removeLis g)).heap =
        (drainChain s.heap qg.front s.heap.length).1 := by
      show ((lwnl_remove_listener g s).2).heap = _
      rw [hmain, heq]
    have hfind' : (step s (LwnlOp.removeLis g)).queues.find?
        (fun x => x.filep == some f) = some qf := by
      rw [hq']
      rw [find?_middle_congr
        (show qg.filep ≠ some f by
          rw [hqg]; exact fun hc => hgf (Option.some_inj.mp hc))
        (show emptySlot.filep ≠ some f from
          fun hc => Option.noConfusion hc),
        ← hsp2, hfind]
    -- locate f's slot and its cursor among the untouched slots
    have hqfm : qf ∈ s.queues := List.mem_of_find?_eq_some hfind
    rw [hsp2] at hqfm
    have hqfm2 : qf ∈ p1 ∨ qf ∈ p2 := by
      rcases List.mem_append.mp hqfm with hm | hm
      · exact Or.inl hm
      · rcases List.mem_cons.mp hm with hm | hm
        · exfalso
          rw [hm, hqg] at hqff
          exact hgf (Option.some_inj.mp hqff)
        · exact Or.inr hm
    obtain ⟨kf?, hkfm, hsrf⟩ : ∃ kk, kk ∈ m1 ++ m2 ∧ SlotRep L qf kk := by
      rcases hqfm2 with hm | hm
      · obtain ⟨kk, hkm, hs⟩ := forall₂_mem_left hG1 hm
        exact ⟨kk, List.mem_append_left _ hkm, hs⟩
      · obtain ⟨kk, hkm, hs⟩ := forall₂_mem_left hG2 hm
        exact ⟨kk, List.mem_append_right _ hkm, hs⟩
    refine ⟨hfind', ?_⟩
    rcases hfr : qg.front with _ | e0
    · -- empty chain drained: heap untouched
      have hh'' : (step s (LwnlOp.removeLis g)).heap = s.heap := by
        rw [hh', hfr, drainChain_none]
      rw [pendingData_of_find hR hfind hsrf]
      have hR2 : HeapRep (step s (LwnlOp.removeLis g)).heap L
          (m1 ++ kg? :: m2) := by
        rw [hh'']
        exact hR
      rw [pendingData_of_find hR2 hfind' hsrf, hh'']
    · -- nonempty chain: `drain_spec`
      have hkg : ∃ kg, kg? = some kg := by
        rcases hkc : kg? with _ | kg
        · exfalso
          obtain ⟨fp, ch, fr, re⟩ := qg
          have hfp2 : fp = some g := hqg
          subst hfp2
          have hfr2 : fr = some e0 := hfr
          subst hfr2
          subst hkc
          exact hsrg
        · exact ⟨kg, rfl⟩
      obtain ⟨kg, hkc⟩ := hkg
      subst hkc
      have he0 : L[kg]? = some e0 := by
        obtain ⟨fp, ch, fr, re⟩ := qg
        have hfp2 : fp = some g := hqg
        subst hfp2
        have hfr2 : fr = some e0 := hfr
        subst hfr2
        exact hsrg.1
      have hRp : HeapRep s.heap L (some kg :: (m1 ++ m2)) :=
        heapRep_perm List.perm_middle hR
      obtain ⟨h', d, hdc, hdle, hR', hout, hdata⟩ :=
        drain_spec s.heap.length s.heap L (some kg) (m1 ++ m2) (some e0)
          hRp (by exact he0.symm)
          (by
            show L.length - kg ≤ s.heap.length
            have := heapRep_length_le hRp
            omega)
      have hh'' : (step s (LwnlOp.removeLis g)).heap = h' := by
        rw [hh', hfr, hdc]
      have hR2 : HeapRep (step s (LwnlOp.removeLis g)).heap (L.drop d)
          ((m1 ++ m2).map (Option.map (fun i => i - d))) := by
        rw [hh'']
        exact hR'
      have hsrf' : SlotRep (L.drop d) qf
          (Option.map (fun i => i - d) kf?) :=
        slotRep_drop hsrf d (fun k hk => hdle k (hk ▸ hkfm))
      rw [pendingData_of_find hR hfind hsrf,
        pendingData_of_find hR2 hfind' hsrf', hh'']
      cases kf? with
      | none => rfl
      | some kf =>
        have hdkf : d ≤ kf := hdle kf hkfm
        show ((L.drop d).drop (kf - d)).filterMap (dataAt h') =
          (L.drop kf).filterMap (dataAt s.heap)
        rw [List.drop_drop]
        have hkk : d + (kf - d) = kf := by omega
        rw [hkk]
        refine List.filterMap_congr ?_
        intro x hx
        refine hdata x ?_
        have : L.drop kf = (L.drop d).drop (kf - d) := by
          rw [List.drop_drop, hkk]
        rw [this] at hx
        exact List.drop_subset _ _ hx

theorem acct_read_other {f g len : Nat} {s : LwnlState} {L : List Nat}
    {ks : List (Option Nat)} {qf : lwnl_queue}
    (hI : InvLK s L ks)
    (hfind : s.queues.find? (fun x => x.filep == some f) = some qf)
    (hgf : g ≠ f) :
    (step s (LwnlOp.readEvt g len)).queues.find?
      (fun x => x.filep == some f) = some qf ∧
    pendingData f (step s (LwnlOp.readEvt g len)) = pendingData f s := by
  obtain ⟨hR, hF, hconn⟩ := hI
  have hqff : qf.filep = some f := by
    have h1 := List.find?_some hfind
    exact beq_iff_eq.mp (by exact h1)
  rcases first_match_cases g s.queues with hall | ⟨p1, qg, p2, hsp2, hqg, hb4g⟩
  · have hst : step s (LwnlOp.readEvt g len) = s :=
      getEvent_unregistered g len s hall
    rw [hst]
    exact ⟨hfind, rfl⟩
  · rw [hsp2] at hF
    obtain ⟨m1, kg?, m2, hks2, hlenm, hG1, hsrg, hG2⟩ :=
      forall₂_append_split hF
    subst hks2
    have hqfm : qf ∈ s.queues := List.mem_of_find?_eq_some hfind
    rw [hsp2] at hqfm
    have hqfm2 : qf ∈ p1 ∨ qf ∈ p2 := by
      rcases List.mem_append.mp hqfm with hm | hm
      · exact Or.inl hm
      · rcases List.mem_cons.mp hm with hm | hm
        · exfalso
          rw [hm, hqg] at hqff
          exact hgf (Option.some_inj.mp hqff)
        · exact Or.inr hm
    obtain ⟨kf?, hkfm, hsrf⟩ : ∃ kk, kk ∈ m1 ++ m2 ∧ SlotRep L qf kk := by
      rcases hqfm2 with hm | hm
      · obtain ⟨kk, hkm, hs⟩ := forall₂_mem_left hG1 hm
        exact ⟨kk, List.mem_append_left _ hkm, hs⟩
      · obtain ⟨kk, hkm, hs⟩ := forall₂_mem_left hG2 hm
        exact ⟨kk, List.mem_append_right _ hkm, hs⟩
    rcases inv_getEvent_cases g len hsp2 hb4g hqg hR hsrg with
      ⟨qg', hst, hfp', _, _, _, _⟩ |
      ⟨k, e, evt, qg', _, he, hevt, _, hst, hfp', _, _, hR', _, hdata, _⟩ |
      ⟨e, evt, qg', _, he, hevt, _, hst, hfp', _, _, hR', _, hothers,
        hunch, _⟩
    · -- no node released: heap unchanged
      have hq' : (step s (LwnlOp.readEvt g len)).queues =
          p1 ++ qg' :: p2 := by
        show ((lwnl_get_event g len s).2.2).queues = _
        rw [hst]
      have hh' : (step s (LwnlOp.readEvt g len)).heap = s.heap := by
        show ((lwnl_get_event g len s).2.2).heap = _
        rw [hst]
      have hfind' : (step s (LwnlOp.readEvt g len)).queues.find?
          (fun x => x.filep == some f) = some qf := by
        rw [hq']
        rw [find?_middle_congr
          (show qg.filep ≠ some f by
            rw [hqg]; exact fun hc => hgf (Option.some_inj.mp hc))
          (show qg'.filep ≠ some f by
            rw [hfp', hqg]; exact fun hc => hgf (Option.some_inj.mp hc)),
          ← hsp2, hfind]
      refine ⟨hfind', ?_⟩
      unfold pendingData slotChain
      rw [hfind', hfind, hh']
    · -- the released node stays live: all payload data unchanged
      have hq' : (step s (LwnlOp.readEvt g len)).queues =
          p1 ++ qg' :: p2 := by
        show ((lwnl_get_event g len s).2.2).queues = _
        rw [hst]
      have hh' : (step s (LwnlOp.readEvt g len)).heap =
          _lwnl_remove_event s.heap e := by
        show ((lwnl_get_event g len s).2.2).heap = _
        rw [hst]
      have hfind' : (step s (LwnlOp.readEvt g len)).queues.find?
          (fun x => x.filep == some f) = some qf := by
        rw [hq']
        rw [find?_middle_congr
          (show qg.filep ≠ some f by
            rw [hqg]; exact fun hc => hgf (Option.some_inj.mp hc))
          (show qg'.filep ≠ some f by
            rw [hfp', hqg]; exact fun hc => hgf (Option.some_inj.mp hc)),
          ← hsp2, hfind]
      refine ⟨hfind', ?_⟩
      have hR2 : HeapRep (step s (LwnlOp.readEvt g len)).heap L
          (m1 ++ advCursor L k :: m2) := by
        rw [hh']
        exact hR'
      rw [pendingData_of_find hR hfind hsrf,
        pendingData_of_find hR2 hfind' hsrf, hh']
      cases kf? with
      | none => rfl
      | some kf =>
        exact List.filterMap_congr (fun x _ => hdata x)
    · -- the drained slot frees the spine head; f's cursor is ≥ 1
      have hq' : (step s (LwnlOp.readEvt g len)).queues =
          p1 ++ qg' :: p2 := by
        show ((lwnl_get_event g len s).2.2).queues = _
        rw [hst]
      have hh' : (step s (LwnlOp.readEvt g len)).heap =
          _lwnl_remove_event s.heap e := by
        show ((lwnl_get_event g len s).2.2).heap = _
        rw [hst]
      have hfind' : (step s (LwnlOp.readEvt g len)).queues.find?
          (fun x => x.filep == some f) = some qf := by
        rw [hq']
        rw [find?_middle_congr
          (show qg.filep ≠ some f by
            rw [hqg]; exact fun hc => hgf (Option.some_inj.mp hc))
          (show qg'.filep ≠ some f by
            rw [hfp', hqg]; exact fun hc => hgf (Option.some_inj.mp hc)),
          ← hsp2, hfind]
      refine ⟨hfind', ?_⟩
      have hR2 : HeapRep (step s (LwnlOp.readEvt g len)).heap L.tail
          (m1.map (Option.map (fun i => i - 1)) ++
            Option.map (fun i => i - 1) (advCursor L 0) ::
            m2.map (Option.map (fun i => i - 1))) := by
        rw [hh']
        exact hR'
      have hsrf' : SlotRep L.tail qf (Option.map (fun i => i - 1) kf?) :=
        slotRep_shift hsrf (fun k hk => hothers k (hk ▸ hkfm))
      rw [pendingData_of_find hR hfind hsrf,
        pendingData_of_find hR2 hfind' hsrf', hh']
      have hLc : L = e :: L.tail := eq_cons_of_getElem?_zero he
      have hent : e ∉ L.tail := by
        have hnd := hR.nodup
        rw [hLc] at hnd
        exact (List.nodup_cons.mp hnd).1
      cases kf? with
      | none => rfl
      | some kf =>
        have h1kf : 1 ≤ kf := hothers kf hkfm
        show (L.tail.drop (kf - 1)).filterMap
            (dataAt (_lwnl_remove_event s.heap e)) =
          (L.drop kf).filterMap (dataAt s.heap)
        have hdd : L.drop kf = L.tail.drop (kf - 1) := by
          rw [← List.drop_one, List.drop_drop]
          congr 1
          omega
        rw [← hdd]
        refine List.filterMap_congr ?_
        intro x hx
        have hxt : x ∈ L.tail := by
          rw [hdd] at hx
          exact List.drop_subset _ _ hx
        have hxe : x ≠ e := fun hc => hent (hc ▸ hxt)
        unfold dataAt
        rw [hunch x hxe]

theorem acct_read_self {f len : Nat} {s : LwnlState} {L : List Nat}
    {ks : List (Option Nat)} {qf : lwnl_queue}
    (hI : InvLK s L ks)
    (hfind : s.queues.find? (fun x => x.filep == some f) = some qf) :
    (∃ qf', (step s (LwnlOp.readEvt f len)).queues.find?
      (fun x => x.filep == some f) = some qf') ∧
    completedData f len s ++ pendingData f (step s (LwnlOp.readEvt f len)) =
      pendingData f s := by
  obtain ⟨hR, hF, hconn⟩ := hI
  have hqff : qf.filep = some f := by
    have h1 := List.find?_some hfind
    exact beq_iff_eq.mp (by exact h1)
  obtain ⟨qs1, qs2, hsp, hb4⟩ := find?_split hfind
  rw [hsp] at hF
  obtain ⟨ks1, kf?, ks2, hks, hlen1, hF1, hsrf, hF2⟩ :=
    forall₂_append_split hF
  subst hks
  rcases inv_getEvent_cases f len hsp hb4 hqff hR hsrf with
    ⟨q', hst, hfp', _, _, hsr', hcompl⟩ |
    ⟨k, e, evt, q', hkc, he, hevt, hcompl, hst, hfp', _, _, hR', hsr',
      hdata, _⟩ |
    ⟨e, evt, q', hkc, he, hevt, hcompl, hst, hfp', _, _, hR', hsr',
      hothers, hunch, _⟩
  · have hq' : (step s (LwnlOp.readEvt f len)).queues =
        qs1 ++ q' :: qs2 := by
      show ((lwnl_get_event f len s).2.2).queues = _
      rw [hst]
    have hh' : (step s (LwnlOp.readEvt f len)).heap = s.heap := by
      show ((lwnl_get_event f len s).2.2).heap = _
      rw [hst]
    have hfind' : (step s (LwnlOp.readEvt f len)).queues.find?
        (fun x => x.filep == some f) = some q' := by
      rw [hq']
      exact find?_first qs1 q' qs2 hb4 (by rw [hfp', hqff])
    refine ⟨⟨q', hfind'⟩, ?_⟩
    rw [hcompl, List.nil_append]
    have hR2 : HeapRep (step s (LwnlOp.readEvt f len)).heap L
        (ks1 ++ kf? :: ks2) := by
      rw [hh']
      exact hR
    rw [pendingData_of_find hR2 hfind' hsr',
      pendingData_of_find hR hfind hsrf, hh']
  · subst hkc
    have hq' : (step s (LwnlOp.readEvt f len)).queues =
        qs1 ++ q' :: qs2 := by
      show ((lwnl_get_event f len s).2.2).queues = _
      rw [hst]
    have hh' : (step s (LwnlOp.readEvt f len)).heap =
        _lwnl_remove_event s.heap e := by
      show ((lwnl_get_event f len s).2.2).heap = _
      rw [hst]
    have hfind' : (step s (LwnlOp.readEvt f len)).queues.find?
        (fun x => x.filep == some f) = some q' := by
      rw [hq']
      exact find?_first qs1 q' qs2 hb4 (by rw [hfp', hqff])
    refine ⟨⟨q', hfind'⟩, ?_⟩
    have hR2 : HeapRep (step s (LwnlOp.readEvt f len)).heap L
        (ks1 ++ advCursor L k :: ks2) := by
      rw [hh']
      exact hR'
    rw [hcompl, pendingData_of_find hR2 hfind' hsr',
      pendingData_of_find hR hfind hsrf, hh']
    have hkL : k < L.length := getElem?_some_lt he
    have hLk : L.drop k = e :: L.drop (k + 1) := by
      rw [List.drop_eq_getElem_cons hkL]
      have hee : L[k] = e := by
        rw [List.getElem?_eq_getElem hkL] at he
        exact Option.some_inj.mp he
      rw [hee]
    show [evt.data] ++ (chainOf L (advCursor L k)).filterMap
        (dataAt (_lwnl_remove_event s.heap e)) =
      (L.drop k).filterMap (dataAt s.heap)
    rw [hLk, List.filterMap_cons]
    have hde : dataAt s.heap e = some evt.data := by
      unfold dataAt
      rw [hevt]
      rfl
    rw [hde]
    by_cases hlt : k + 1 < L.length
    · rw [advCursor_of_lt hlt]
      show evt.data :: (L.drop (k + 1)).filterMap
          (dataAt (_lwnl_remove_event s.heap e)) = _
      rw [List.filterMap_congr (fun x _ => hdata x)]
    · rw [advCursor_of_ge hlt]
      have hnil : L.drop (k + 1) = [] :=
        List.drop_eq_nil_of_le (by omega)
      rw [hnil]
      rfl
  · subst hkc
    have hq' : (step s (LwnlOp.readEvt f len)).queues =
        qs1 ++ q' :: qs2 := by
      show ((lwnl_get_event f len s).2.2).queues = _
      rw [hst]
    have hh' : (step s (LwnlOp.readEvt f len)).heap =
        _lwnl_remove_event s.heap e := by
      show ((lwnl_get_event f len s).2.2).heap = _
      rw [hst]
    have hfind' : (step s (LwnlOp.readEvt f len)).queues.find?
        (fun x => x.filep == some f) = some q' := by
      rw [hq']
      exact find?_first qs1 q' qs2 hb4 (by rw [hfp', hqff])
    refine ⟨⟨q', hfind'⟩, ?_⟩
    have hR2 : HeapRep (step s (LwnlOp.readEvt f len)).heap L.tail
        (ks1.map (Option.map (fun i => i - 1)) ++
          Option.map (fun i => i - 1) (advCursor L 0) ::
          ks2.map (Option.map (fun i => i - 1))) := by
      rw [hh']
      exact hR'
    rw [hcompl, pendingData_of_find hR2 hfind' hsr',
      pendingData_of_find hR hfind hsrf, hh']
    have hLc : L = e :: L.tail := eq_cons_of_getElem?_zero he
    have hent : e ∉ L.tail := by
      have hnd := hR.nodup
      rw [hLc] at hnd
      exact (List.nodup_cons.mp hnd).1
    have hde : dataAt s.heap e = some evt.data := by
      unfold dataAt
      rw [hevt]
      rfl
    have hdrop0 : L.drop 0 = e :: L.tail := by
      rw [List.drop_zero]
      exact hLc
    by_cases hlt : 0 + 1 < L.length
    · have hadv : Option.map (fun i => i - 1) (advCursor L 0) = some 0 := by
        rw [advCursor_of_lt hlt]
        rfl
      rw [hadv]
      show [evt.data] ++ (L.tail.drop 0).filterMap
          (dataAt (_lwnl_remove_event s.heap e)) =
        (L.drop 0).filterMap (dataAt s.heap)
      rw [hdrop0, List.drop_zero, List.filterMap_cons, hde]
      have hcongr : L.tail.filterMap
          (dataAt (_lwnl_remove_event s.heap e)) =
          L.tail.filterMap (dataAt s.heap) := by
        refine List.filterMap_congr ?_
        intro x hx
        unfold dataAt
        rw [hunch x (fun hc => hent (hc ▸ hx))]
      rw [hcongr]
      rfl
    · have hadv : Option.map (fun i => i - 1) (advCursor L 0) = none := by
        rw [advCursor_of_ge hlt]
        rfl
      rw [hadv]
      have htnil : L.tail = [] := by
        have hlen2 : L.length ≤ 1 := by omega
        rw [hLc] at hlen2
        rw [List.length_cons] at hlen2
        have : L.tail.length = 0 := by omega
        exact List.length_eq_zero.mp this
      show [evt.data] ++ [] = (L.drop 0).filterMap (dataAt s.heap)
      rw [hdrop0, htnil, List.filterMap_cons, hde]
      rfl

theorem acct_emit {f : Nat} (t : LwnlStatus) (sl : List (List Nat))
    (ea ba : Bool) {s : LwnlState} {L : List Nat}
    {ks : List (Option Nat)} {qf : lwnl_queue}
    (hI : InvLK s L ks)
    (hfind : s.queues.find? (fun x => x.filep == some f) = some qf) :
    (∃ qf', (step s (LwnlOp.emit t sl ea ba)).queues.find?
      (fun x => x.filep == some f) = some qf') ∧
    pendingData f (step s (LwnlOp.emit t sl ea ba)) =
      pendingData f s ++
        (if ea = true ∧ t ≠ LwnlStatus.LWNL_UNKNOWN
         then [evtDataFor t sl ba] else []) := by
  have hqff : qf.filep = some f := by
    have h1 := List.find?_some hfind
    exact beq_iff_eq.mp (by exact h1)
  cases ea with
  | false =>
    have hst : step s (LwnlOp.emit t sl false ba) = s := by
      show (lwnl_add_event t sl false ba s).2 = s
      exact inv_addEvent_noalloc t sl ba s
    rw [hst, if_neg (by simp)]
    exact ⟨⟨qf, hfind⟩, by rw [List.append_nil]⟩
  | true =>
    by_cases ht : t = LwnlStatus.LWNL_UNKNOWN
    · subst ht
      obtain ⟨hI', hdat, hqs, _⟩ := inv_addEvent_unknown sl ba hI
      obtain ⟨hR', hF', _⟩ := hI'
      have hq' : (step s (LwnlOp.emit .LWNL_UNKNOWN sl true ba)).queues =
          s.queues := hqs
      have hfind' : (step s (LwnlOp.emit .LWNL_UNKNOWN sl true ba)).queues.find?
          (fun x => x.filep == some f) = some qf := by
        rw [hq', hfind]
      obtain ⟨kf?, hkfm, hsrf⟩ :=
        forall₂_mem_left hI.2.1 (List.mem_of_find?_eq_some hfind)
      refine ⟨⟨qf, hfind'⟩, ?_⟩
      rw [if_neg (by simp), List.append_nil]
      show pendingData f (lwnl_add_event LwnlStatus.LWNL_UNKNOWN sl true ba s).2 =
        pendingData f s
      rw [pendingData_of_find hR' (by exact hfind') hsrf,
        pendingData_of_find hI.1 hfind hsrf]
      refine List.filterMap_congr ?_
      intro x hx
      have hxL : x ∈ L := by
        cases kf? with
        | none => exact absurd hx (List.not_mem_nil x)
        | some k => exact List.drop_subset _ _ hx
      rcases hn : hget s.heap x with _ | n
      · exact absurd hn (hI.1.live x hxL)
      exact hdat x (by have := hget_lt hn; omega)
    · -- a recognized kind with successful allocation: the node is appended
      -- to every occupied slot's chain, in particular to f's
      obtain ⟨qs1, qs2, hsp, hb4⟩ := find?_split hfind
      obtain ⟨hR, hF, hconn⟩ := hI
      rw [hsp] at hF
      obtain ⟨ks1, kf?, ks2, hks, hlen1, hF1, hsrf, hF2⟩ :=
        forall₂_append_split hF
      subst hks
      have hqfm : qf ∈ s.queues := List.mem_of_find?_eq_some hfind
      have hany : s.queues.any (fun q => q.filep.isSome) = true :=
        List.any_eq_true.mpr ⟨qf, hqfm, by rw [hqff]; rfl⟩
      obtain ⟨hI', hdat2, hdat3, _, hqs'⟩ :=
        inv_addEvent_ok t sl ba ⟨hR, by rw [hsp]; exact hF, hconn⟩ ht
      rw [if_pos hany] at hI'
      obtain ⟨hR', hF', _⟩ := hI'
      have hq' : (step s (LwnlOp.emit t sl true ba)).queues =
          qs1.map (emitSlotUpd s.heap.length) ++
            emitSlotUpd s.heap.length qf ::
            qs2.map (emitSlotUpd s.heap.length) := by
        show ((lwnl_add_event t sl true ba s).2).queues = _
        rw [hqs', hsp, List.map_append, List.map_cons]
      have hmid : (emitSlotUpd s.heap.length qf).filep = some f := by
        rw [emitSlotUpd_filep]
        exact hqff
      have hfind' : (step s (LwnlOp.emit t sl true ba)).queues.find?
          (fun x => x.filep == some f) =
          some (emitSlotUpd s.heap.length qf) := by
        rw [hq']
        refine find?_first _ _ _ ?_ hmid
        intro q' hq'm
        obtain ⟨a, ha, haq⟩ := List.mem_map.mp hq'm
        rw [← haq, emitSlotUpd_filep]
        exact hb4 a ha
      have hzip : List.zipWith (emitCursor L) (qs1 ++ qf :: qs2)
          (ks1 ++ kf? :: ks2) =
          List.zipWith (emitCursor L) qs1 ks1 ++
            emitCursor L qf kf? ::
            List.zipWith (emitCursor L) qs2 ks2 := by
        rw [List.zipWith_append _ _ _ _ _ hlen1.symm]
        rfl
      have hFn : List.Forall₂ (SlotRep (L ++ [s.heap.length]))
          (qs1.map (emitSlotUpd s.heap.length) ++
            emitSlotUpd s.heap.length qf ::
            qs2.map (emitSlotUpd s.heap.length))
          (List.zipWith (emitCursor L) qs1 ks1 ++
            emitCursor L qf kf? ::
            List.zipWith (emitCursor L) qs2 ks2) := by
      -- transport the new state's Forall₂ along the two decompositions
        have h0 := hF'
        rw [hqs', hsp, List.map_append, List.map_cons, hzip] at h0
        exact h0
      have hsrmid : SlotRep (L ++ [s.heap.length])
          (emitSlotUpd s.heap.length qf) (emitCursor L qf kf?) := by
        refine (forall₂_split_at hFn ?_).2.1
        rw [List.length_map, List.length_zipWith, hlen1]
        exact Nat.min_self _
      have hR2 : HeapRep (step s (LwnlOp.emit t sl true ba)).heap
          (L ++ [s.heap.length])
          (List.zipWith (emitCursor L) (qs1 ++ qf :: qs2)
            (ks1 ++ kf? :: ks2)) := by
        show HeapRep ((lwnl_add_event t sl true ba s).2).heap _ _
        rw [← hsp]
        exact hR'
      refine ⟨⟨emitSlotUpd s.heap.length qf, hfind'⟩, ?_⟩
      rw [pendingData_of_find hR2 hfind' hsrmid,
        pendingData_of_find hR hfind hsrf,
        if_pos ⟨rfl, ht⟩]
      have hdats : ∀ x ∈ L, dataAt (step s (LwnlOp.emit t sl true ba)).heap x
          = dataAt s.heap x := by
        intro x hxL
        rcases hn : hget s.heap x with _ | n
        · exact absurd hn (hR.live x hxL)
        exact hdat3 x (by have := hget_lt hn; omega)
      have hdatn : dataAt (step s (LwnlOp.emit t sl true ba)).heap
          s.heap.length = some (evtDataFor t sl ba) := hdat2
      obtain ⟨fp, ch, fr, re⟩ := qf
      have hfp2 : fp = some f := hqff
      subst hfp2
      cases kf? with
      | none =>
        show ((L ++ [s.heap.length]).drop L.length).filterMap _ =
          [].filterMap (dataAt s.heap) ++ [evtDataFor t sl ba]
        rw [List.drop_append_of_le_length (Nat.le_refl _), List.drop_length,
          List.nil_append, List.filterMap_cons, hdatn]
        rfl
      | some k =>
        have hkL : k < L.length :=
          hR.ksLt k (List.mem_append_right _ (List.mem_cons_self _ _))
        show ((L ++ [s.heap.length]).drop k).filterMap _ =
          (L.drop k).filterMap (dataAt s.heap) ++ [evtDataFor t sl ba]
        rw [List.drop_append_of_le_length (by omega), List.filterMap_append,
          List.filterMap_cons, hdatn]
        rw [List.filterMap_congr
          (fun x hx => hdats x (List.drop_subset _ _ hx))]
        rfl

/-- Head contribution of one operation to the emitted-record list. -/
def emittedOp : LwnlOp → List lwnl_cb_data
  | LwnlOp.emit t sl ea ba =>
    if ea = true ∧ t ≠ LwnlStatus.LWNL_UNKNOWN then [evtDataFor t sl ba]
    else []
  | _ => []

/-- Head contribution of one operation to consumer `f`'s delivered list. -/
def deliveredOp (f : Nat) (op : LwnlOp) (s : LwnlState) :
    List lwnl_cb_data :=
  match op with
  | LwnlOp.readEvt f' len => if f' = f then completedData f len s else []
  | _ => []

theorem emittedData_cons (op : LwnlOp) (rest : List LwnlOp) :
    emittedData (op :: rest) = emittedOp op ++ emittedData rest := by
  cases op <;> rfl

theorem deliveredData_cons (f : Nat) (op : LwnlOp) (rest : List LwnlOp)
    (s : LwnlState) :
    deliveredData f (op :: rest) s =
      deliveredOp f op s ++ deliveredData f rest (step s op) := by
  cases op <;> rfl

/-- The conservation induction: while consumer `f` stays registered, the
records it completes plus the records still pending equal the records
pending at the start plus everything emitted meanwhile. -/
theorem accounting (f : Nat) :
    ∀ (ops : List LwnlOp) (s : LwnlState),
    ReachInv s →
    (∃ qf, s.queues.find? (fun x => x.filep == some f) = some qf) →
    (∀ op ∈ ops, op ≠ LwnlOp.addLis f ∧ op ≠ LwnlOp.removeLis f) →
    deliveredData f ops s ++ pendingData f (runFrom s ops) =
      pendingData f s ++ emittedData ops := by
  intro ops
  induction ops with
  | nil =>
    intro s _ _ _
    show [] ++ pendingData f s = pendingData f s ++ []
    rw [List.nil_append, List.append_nil]
  | cons op rest ih =>
    intro s hReach hreg hops
    obtain ⟨L, ks, hI⟩ := hReach
    obtain ⟨qf, hfind⟩ := hreg
    have hopsrest : ∀ op' ∈ rest,
        op' ≠ LwnlOp.addLis f ∧ op' ≠ LwnlOp.removeLis f :=
      fun op' h => hops op' (List.mem_cons_of_mem _ h)
    have hop := hops op (List.mem_cons_self _ _)
    have hkey : (∃ qf', (step s op).queues.find?
          (fun x => x.filep == some f) = some qf') ∧
        deliveredOp f op s ++ pendingData f (step s op) =
          pendingData f s ++ emittedOp op := by
      cases op with
      | emit t sl ea ba =>
        obtain ⟨hex, heq⟩ := acct_emit t sl ea ba hI hfind
        refine ⟨hex, ?_⟩
        show [] ++ _ = _
        rw [List.nil_append]
        exact heq
      | readEvt g len =>
        by_cases hgf : g = f
        · subst hgf
          obtain ⟨hex, heq⟩ := acct_read_self hI hfind
          refine ⟨hex, ?_⟩
          show (if g = g then completedData g len s else []) ++ _ = _ ++ []
          rw [if_pos rfl, List.append_nil]
          exact heq
        · obtain ⟨hfind', heq⟩ := acct_read_other hI hfind hgf
          refine ⟨⟨qf, hfind'⟩, ?_⟩
          show (if g = f then completedData f len s else []) ++ _ = _ ++ []
          rw [if_neg hgf, List.nil_append, List.append_nil]
          exact heq
      | addLis g =>
        have hgf : g ≠ f := by
          intro hc
          subst hc
          exact hop.1 rfl
        obtain ⟨hfind', heq⟩ := acct_addLis hfind hgf
        refine ⟨⟨qf, hfind'⟩, ?_⟩
        show [] ++ _ = _ ++ []
        rw [List.nil_append, List.append_nil]
        exact heq
      | removeLis g =>
        have hgf : g ≠ f := by
          intro hc
          subst hc
          exact hop.2 rfl
        obtain ⟨hfind', heq⟩ := acct_removeLis hI hfind hgf
        refine ⟨⟨qf, hfind'⟩, ?_⟩
        show [] ++ _ = _ ++ []
        rw [List.nil_append, List.append_nil]
        exact heq
    obtain ⟨hreg', heq1⟩ := hkey
    have hih := ih (step s op) (reachInv_step ⟨L, ks, hI⟩ op) hreg' hopsrest
    rw [deliveredData_cons, emittedData_cons]
    show (deliveredOp f op s ++ deliveredData f rest (step s op)) ++
        pendingData f (runFrom (step s op) rest) = _
    rw [List.append_assoc, hih, ← List.append_assoc, heq1,
      List.append_assoc]

/-- C2: a consumer that registers into the fresh module and stays
registered loses no event and sees no reordering or duplication: the
records it has completed (in order of its reads) followed by the records
still queued for it are exactly the records emitted while it was
registered, in emission order. -/
theorem no_event_loss (f : Nat) (ops : List LwnlOp)
    (hops : ∀ op ∈ ops, op ≠ LwnlOp.addLis f ∧ op ≠ LwnlOp.removeLis f) :
    deliveredData f ops (step initState (LwnlOp.addLis f)) ++
      pendingData f (runFrom (step initState (LwnlOp.addLis f)) ops) =
      emittedData ops := by
  have hI0 : InvLK (step initState (LwnlOp.addLis f)) []
      (List.replicate LWNL_NPOLLWAITERS none) := inv_addListener f inv_init
  have hq0 : (step initState (LwnlOp.addLis f)).queues =
      ⟨some f, 0, none, none⟩ :: List.replicate 4 emptySlot := rfl
  have hfind0 : (step initState (LwnlOp.addLis f)).queues.find?
      (fun x => x.filep == some f) = some ⟨some f, 0, none, none⟩ := by
    rw [hq0]
    exact List.find?_cons_of_pos _
      (by show (some f == some f) = true; exact beq_self_eq_true _)
  have hpend0 : pendingData f (step initState (LwnlOp.addLis f)) = [] := by
    unfold pendingData slotChain
    rw [hfind0]
    dsimp only
    rw [chaseChain_none]
    rfl
  have h := accounting f ops (step initState (LwnlOp.addLis f))
    ⟨[], List.replicate LWNL_NPOLLWAITERS none, hI0⟩
    ⟨⟨some f, 0, none, none⟩, hfind0⟩ hops
  rw [hpend0, List.nil_append] at h
  exact h

/-- Instantiation of `no_event_loss`: consumer `3`, one emitted event, one
header read — the read's output record plus the empty remainder equal the
emitted record. -/
theorem no_event_loss_witness :
    (∀ op ∈ [LwnlOp.emit LwnlStatus.LWNL_STA_CONNECTED [] true true,
        LwnlOp.readEvt 3 8],
      op ≠ LwnlOp.addLis 3 ∧ op ≠ LwnlOp.removeLis 3) ∧
    deliveredData 3 [LwnlOp.emit LwnlStatus.LWNL_STA_CONNECTED [] true true,
        LwnlOp.readEvt 3 8] (step initState (LwnlOp.addLis 3)) ++
      pendingData 3 (runFrom (step initState (LwnlOp.addLis 3))
        [LwnlOp.emit LwnlStatus.LWNL_STA_CONNECTED [] true true,
          LwnlOp.readEvt 3 8]) =
      emittedData [LwnlOp.emit LwnlStatus.LWNL_STA_CONNECTED [] true true,
        LwnlOp.readEvt 3 8] :=
  ⟨by decide, no_event_loss 3
    [LwnlOp.emit LwnlStatus.LWNL_STA_CONNECTED [] true true,
      LwnlOp.readEvt 3 8] (by decide)⟩

theorem drainChain_length :
    ∀ (fuel : Nat) (h : Heap) (front : Option Nat),
    ((drainChain h front fuel).1).length = h.length := by
  intro fuel
  induction fuel with
  | zero =>
    intro h front
    rfl
  | succ fuel ih =>
    intro h front
    cases front with
    | none => rfl
    | some e =>
      rcases hn : hget h e with _ | n
      · have hstep : drainChain h (some e) (fuel + 1) = (h, some e) := by
          conv_lhs => unfold drainChain
          dsimp only
          rw [hn]
        rw [hstep]
      · have hstep : drainChain h (some e) (fuel + 1) =
            drainChain (_lwnl_remove_event h e) n.flink fuel := by
          conv_lhs => unfold drainChain
          dsimp only
          rw [hn]
        rw [hstep, ih, remove_length]

/-- One allowed operation either leaves consumer `f`'s chain unchanged,
appends the freshly emitted node (at address `s.heap.length`) to its tail,
or pops its head (a read by `f` itself); the identity stays registered and
the heap never shrinks. -/
theorem chain_step {f : Nat} {s : LwnlState} {L : List Nat}
    {ks : List (Option Nat)} {qf : lwnl_queue}
    (hI : InvLK s L ks)
    (hfind : s.queues.find? (fun x => x.filep == some f) = some qf)
    (op : LwnlOp) (hop1 : op ≠ LwnlOp.addLis f)
    (hop2 : op ≠ LwnlOp.removeLis f) :
    (∃ qf', (step s op).queues.find?
      (fun x => x.filep == some f) = some qf') ∧
    s.heap.length ≤ (step s op).heap.length ∧
    (slotChain (step s op) f = slotChain s f ∨
     slotChain (step s op) f = slotChain s f ++ [s.heap.length] ∨
     ∃ e, slotChain s f = e :: slotChain (step s op) f) ∧
    ((∀ t sl ea ba, op ≠ LwnlOp.emit t sl ea ba) →
      slotChain (step s op) f = slotChain s f ∨
      ∃ e, slotChain s f = e :: slotChain (step s op) f) := by
  have hqff : qf.filep = some f := by
    have h1 := List.find?_some hfind
    exact beq_iff_eq.mp (by exact h1)
  cases op with
  | addLis g =>
    have hgf : g ≠ f := by
      intro hc
      subst hc
      exact hop1 rfl
    rcases addListenerLoop_cases g s.queues with ⟨hnone, _⟩ |
        ⟨p1, qa, p2, hsp2, hqa, _, hsome⟩
    · have hst : step s (LwnlOp.addLis g) = s := by
        show (lwnl_add_listener g s).2 = s
        unfold lwnl_add_listener
        rw [hnone]
      rw [hst]
      exact ⟨⟨qf, hfind⟩, Nat.le_refl _, Or.inl rfl, fun _ => Or.inl rfl⟩
    · have hst : step s (LwnlOp.addLis g) =
          { s with queues := p1 ++ { qa with filep := some g } :: p2,
                   connected := s.connected + 1 } := by
        show (lwnl_add_listener g s).2 = _
        unfold lwnl_add_listener
        rw [hsome]
      have hfind' : (step s (LwnlOp.addLis g)).queues.find?
          (fun x => x.filep == some f) = some qf := by
        rw [hst]
        dsimp only
        rw [find?_middle_congr
          (show qa.filep ≠ some f by
            rw [hqa]; exact fun hc => Option.noConfusion hc)
          (by intro hc; exact hgf (Option.some_inj.mp hc)),
          ← hsp2, hfind]
      have hh : (step s (LwnlOp.addLis g)).heap = s.heap := by
        rw [hst]
      have hch : slotChain (step s (LwnlOp.addLis g)) f = slotChain s f := by
        unfold slotChain
        rw [hfind', hfind, hh]
      exact ⟨⟨qf, hfind'⟩, by rw [hh], Or.inl hch, fun _ => Or.inl hch⟩
  | removeLis g =>
    have hgf : g ≠ f := by
      intro hc
      subst hc
      exact hop2 rfl
    obtain ⟨hR, hF, hconn⟩ := hI
    have hmain : (lwnl_remove_listener g s).2 =
        { s with heap := (removeListenerLoop g s.heap s.queues).1,
                 queues := (removeListenerLoop g s.heap s.queues).2.1,
                 connected := s.connected -
                   (if (removeListenerLoop g s.heap s.queues).2.2
                    then 1 else 0) } := rfl
    rcases removeListenerLoop_cases g s.heap s.queues with ⟨hall, heq⟩ |
        ⟨p1, qg, p2, hsp2, hqg, hb4g, heq⟩
    · have hq' : (step s (LwnlOp.removeLis g)).queues = s.queues := by
        show ((lwnl_remove_listener g s).2).queues = _
        rw [hmain, heq]
      have hh' : (step s (LwnlOp.removeLis g)).heap = s.heap := by
        show ((lwnl_remove_listener g s).2).heap = _
        rw [hmain, heq]
      have hch : slotChain (step s (LwnlOp.removeLis g)) f =
          slotChain s f := by
        unfold slotChain
        rw [hq', hh']
      exact ⟨⟨qf, by rw [hq', hfind]⟩, by rw [hh'], Or.inl hch,
        fun _ => Or.inl hch⟩
    · rw [hsp2] at hF
      obtain ⟨m1, kg?, m2, hks2, hlenm, hG1, hsrg, hG2⟩ :=
        forall₂_append_split hF
      subst hks2
      have hq' : (step s (LwnlOp.removeLis g)).queues =
          p1 ++ emptySlot :: p2 := by
        show ((lwnl_remove_listener g s).2).queues = _
        rw [hmain, heq]
      have hh' : (step s (LwnlOp.removeLis g)).heap =
          (drainChain s.heap qg.front s.heap.length).1 := by
        show ((lwnl_remove_listener g s).2).heap = _
        rw [hmain, heq]
      have hhlen : s.heap.length ≤ (step s (LwnlOp.removeLis g)).heap.length := by
        rw [hh', drainChain_length]
      have hfind' : (step s (LwnlOp.removeLis g)).queues.find?
          (fun x => x.filep == some f) = some qf := by
        rw [hq']
        rw [find?_middle_congr
          (show qg.filep ≠ some f by
            rw [hqg]; exact fun hc => hgf (Option.some_inj.mp hc))
          (show emptySlot.filep ≠ some f from
            fun hc => Option.noConfusion hc),
          ← hsp2, hfind]
      have hqfm : qf ∈ s.queues := List.mem_of_find?_eq_some hfind
      rw [hsp2] at hqfm
      have hqfm2 : qf ∈ p1 ∨ qf ∈ p2 := by
        rcases List.mem_append.mp hqfm with hm | hm
        · exact Or.inl hm
        · rcases List.mem_cons.mp hm with hm | hm
          · exfalso
            rw [hm, hqg] at hqff
            exact hgf (Option.some_inj.mp hqff)
          · exact Or.inr hm
      obtain ⟨kf?, hkfm, hsrf⟩ : ∃ kk, kk ∈ m1 ++ m2 ∧ SlotRep L qf kk := by
        rcases hqfm2 with hm | hm
        · obtain ⟨kk, hkm, hs⟩ := forall₂_mem_left hG1 hm
          exact ⟨kk, List.mem_append_left _ hkm, hs⟩
        · obtain ⟨kk, hkm, hs⟩ := forall₂_mem_left hG2 hm
          exact ⟨kk, List.mem_append_right _ hkm, hs⟩
      rcases hfr : qg.front with _ | e0
      · have hh'' : (step s (LwnlOp.removeLis g)).heap = s.heap := by
          rw [hh', hfr, drainChain_none]
        have hR2 : HeapRep (step s (LwnlOp.removeLis g)).heap L
            (m1 ++ kg? :: m2) := by
          rw [hh'']
          exact hR
        have hch : slotChain (step s (LwnlOp.removeLis g)) f =
            slotChain s f := by
          rw [slotChain_of_find hR2 hfind' hsrf,
            slotChain_of_find hR hfind hsrf]
        exact ⟨⟨qf, hfind'⟩, hhlen, Or.inl hch, fun _ => Or.inl hch⟩
      · have hkg : ∃ kg, kg? = some kg := by
          rcases hkc : kg? with _ | kg
          · exfalso
            obtain ⟨fp, ch, fr, re⟩ := qg
            have hfp2 : fp = some g := hqg
            subst hfp2
            have hfr2 : fr = some e0 := hfr
            subst hfr2
            subst hkc
            exact hsrg
          · exact ⟨kg, rfl⟩
        obtain ⟨kg, hkc⟩ := hkg
        subst hkc
        have he0 : L[kg]? = some e0 := by
          obtain ⟨fp, ch, fr, re⟩ := qg
          have hfp2 : fp = some g := hqg
          subst hfp2
          have hfr2 : fr = some e0 := hfr
          subst hfr2
          exact hsrg.1
        have hRp : HeapRep s.heap L (some kg :: (m1 ++ m2)) :=
          heapRep_perm List.perm_middle hR
        obtain ⟨h', d, hdc, hdle, hR', hout, hdata⟩ :=
          drain_spec s.heap.length s.heap L (some kg) (m1 ++ m2) (some e0)
            hRp (by exact he0.symm)
            (by
              show L.length - kg ≤ s.heap.length
              have := heapRep_length_le hRp
              omega)
        have hh'' : (step s (LwnlOp.removeLis g)).heap = h' := by
          rw [hh', hfr, hdc]
        have hR2 : HeapRep (step s (LwnlOp.removeLis g)).heap (L.drop d)
            ((m1 ++ m2).map (Option.map (fun i => i - d))) := by
          rw [hh'']
          exact hR'
        have hsrf' : SlotRep (L.drop d) qf
            (Option.map (fun i => i - d) kf?) :=
          slotRep_drop hsrf d (fun k hk => hdle k (hk ▸ hkfm))
        have hch : slotChain (step s (LwnlOp.removeLis g)) f =
            slotChain s f := by
          rw [slotChain_of_find hR2 hfind' hsrf',
            slotChain_of_find hR hfind hsrf]
          cases kf? with
          | none => rfl
          | some kf =>
            have hdkf : d ≤ kf := hdle kf hkfm
            show (L.drop d).drop (kf - d) = L.drop kf
            rw [List.drop_drop]
            congr 1
            omega
        exact ⟨⟨qf, hfind'⟩, hhlen, Or.inl hch, fun _ => Or.inl hch⟩
  | readEvt g len =>
    obtain ⟨hR, hF, hconn⟩ := hI
    by_cases hgf : g = f
    · subst hgf
      obtain ⟨qs1, qs2, hsp, hb4⟩ := find?_split hfind
      rw [hsp] at hF
      obtain ⟨ks1, kf?, ks2, hks, hlen1, hF1, hsrf, hF2⟩ :=
        forall₂_append_split hF
      subst hks
      rcases inv_getEvent_cases g len hsp hb4 hqff hR hsrf with
        ⟨q', hst, hfp', _, _, hsr', _⟩ |
        ⟨k, e, evt, q', hkc, he, hevt, _, hst, hfp', _, _, hR', hsr', _, _⟩ |
        ⟨e, evt, q', hkc, he, hevt, _, hst, hfp', _, _, hR', hsr', _, _, _⟩
      · have hq' : (step s (LwnlOp.readEvt g len)).queues =
            qs1 ++ q' :: qs2 := by
          show ((lwnl_get_event g len s).2.2).queues = _
          rw [hst]
        have hh' : (step s (LwnlOp.readEvt g len)).heap = s.heap := by
          show ((lwnl_get_event g len s).2.2).heap = _
          rw [hst]
        have hfind' : (step s (LwnlOp.readEvt g len)).queues.find?
            (fun x => x.filep == some g) = some q' := by
          rw [hq']
          exact find?_first qs1 q' qs2 hb4 (by rw [hfp', hqff])
        have hR2 : HeapRep (step s (LwnlOp.readEvt g len)).heap L
            (ks1 ++ kf? :: ks2) := by
          rw [hh']
          exact hR
        have hch : slotChain (step s (LwnlOp.readEvt g len)) g =
            slotChain s g := by
          rw [slotChain_of_find hR2 hfind' hsr',
            slotChain_of_find hR hfind hsrf]
        exact ⟨⟨q', hfind'⟩, by rw [hh'], Or.inl hch, fun _ => Or.inl hch⟩
      · subst hkc
        have hq' : (step s (LwnlOp.readEvt g len)).queues =
            qs1 ++ q' :: qs2 := by
          show ((lwnl_get_event g len s).2.2).queues = _
          rw [hst]
        have hh' : (step s (LwnlOp.readEvt g len)).heap =
            _lwnl_remove_event s.heap e := by
          show ((lwnl_get_event g len s).2.2).heap = _
          rw [hst]
        have hfind' : (step s (LwnlOp.readEvt g len)).queues.find?
            (fun x => x.filep == some g) = some q' := by
          rw [hq']
          exact find?_first qs1 q' qs2 hb4 (by rw [hfp', hqff])
        have hR2 : HeapRep (step s (LwnlOp.readEvt g len)).heap L
            (ks1 ++ advCursor L k :: ks2) := by
          rw [hh']
          exact hR'
        have hkL : k < L.length := getElem?_some_lt he
        have hLk : L.drop k = e :: L.drop (k + 1) := by
          rw [List.drop_eq_getElem_cons hkL]
          have hee : L[k] = e := by
            rw [List.getElem?_eq_getElem hkL] at he
            exact Option.some_inj.mp he
          rw [hee]
        have hch : slotChain s g =
            e :: slotChain (step s (LwnlOp.readEvt g len)) g := by
          rw [slotChain_of_find hR2 hfind' hsr',
            slotChain_of_find hR hfind hsrf]
          show L.drop k = e :: chainOf L (advCursor L k)
          by_cases hlt : k + 1 < L.length
          · rw [advCursor_of_lt hlt]
            exact hLk
          · rw [advCursor_of_ge hlt]
            rw [hLk, List.drop_eq_nil_of_le (by omega)]
            rfl
        refine ⟨⟨q', hfind'⟩, ?_, Or.inr (Or.inr ⟨e, hch⟩),
          fun _ => Or.inr ⟨e, hch⟩⟩
        rw [hh', remove_length]
      · subst hkc
        have hq' : (step s (LwnlOp.readEvt g len)).queues =
            qs1 ++ q' :: qs2 := by
          show ((lwnl_get_event g len s).2.2).queues = _
          rw [hst]
        have hh' : (step s (LwnlOp.readEvt g len)).heap =
            _lwnl_remove_event s.heap e := by
          show ((lwnl_get_event g len s).2.2).heap = _
          rw [hst]
        have hfind' : (step s (LwnlOp.readEvt g len)).queues.find?
            (fun x => x.filep == some g) = some q' := by
          rw [hq']
          exact find?_first qs1 q' qs2 hb4 (by rw [hfp', hqff])
        have hR2 : HeapRep (step s (LwnlOp.readEvt g len)).heap L.tail
            (ks1.map (Option.map (fun i => i - 1)) ++
              Option.map (fun i => i - 1) (advCursor L 0) ::
              ks2.map (Option.map (fun i => i - 1))) := by
          rw [hh']
          exact hR'
        have hLc : L = e :: L.tail := eq_cons_of_getElem?_zero he
        have hch : slotChain s g =
            e :: slotChain (step s (LwnlOp.readEvt g len)) g := by
          rw [slotChain_of_find hR2 hfind' hsr',
            slotChain_of_find hR hfind hsrf]
          show L.drop 0 = e :: chainOf L.tail
            (Option.map (fun i => i - 1) (advCursor L 0))
          rw [List.drop_zero]
          by_cases hlt : 0 + 1 < L.length
          · have hadv : Option.map (fun i => i - 1) (advCursor L 0) =
                some 0 := by
              rw [advCursor_of_lt hlt]
              rfl
            rw [hadv]
            show L = e :: L.tail.drop 0
            rw [List.drop_zero]
            exact hLc
          · have hadv : Option.map (fun i => i - 1) (advCursor L 0) =
                none := by
              rw [advCursor_of_ge hlt]
              rfl
            rw [hadv]
            show L = e :: ([] : List Nat)
            have htnil : L.tail = [] := by
              rw [hLc] at hlt
              rw [List.length_cons] at hlt
              have : L.tail.length = 0 := by omega
              exact List.length_eq_zero.mp this
            rw [hLc, htnil]
        refine ⟨⟨q', hfind'⟩, ?_, Or.inr (Or.inr ⟨e, hch⟩),
          fun _ => Or.inr ⟨e, hch⟩⟩
        rw [hh', remove_length]
    · rcases first_match_cases g s.queues with hall |
          ⟨p1, qg, p2, hsp2, hqg, hb4g⟩
      · have hst : step s (LwnlOp.readEvt g len) = s :=
          getEvent_unregistered g len s hall
        rw [hst]
        exact ⟨⟨qf, hfind⟩, Nat.le_refl _, Or.inl rfl, fun _ => Or.inl rfl⟩
      · rw [hsp2] at hF
        obtain ⟨m1, kg?, m2, hks2, hlenm, hG1, hsrg, hG2⟩ :=
          forall₂_append_split hF
        subst hks2
        have hqfm : qf ∈ s.queues := List.mem_of_find?_eq_some hfind
        rw [hsp2] at hqfm
        have hqfm2 : qf ∈ p1 ∨ qf ∈ p2 := by
          rcases List.mem_append.mp hqfm with hm | hm
          · exact Or.inl hm
          · rcases List.mem_cons.mp hm with hm | hm
            · exfalso
              rw [hm, hqg] at hqff
              exact hgf (Option.some_inj.mp hqff)
            · exact Or.inr hm
        obtain ⟨kf?, hkfm, hsrf⟩ : ∃ kk, kk ∈ m1 ++ m2 ∧
            SlotRep L qf kk := by
          rcases hqfm2 with hm | hm
          · obtain ⟨kk, hkm, hs⟩ := forall₂_mem_left hG1 hm
            exact ⟨kk, List.mem_append_left _ hkm, hs⟩
          · obtain ⟨kk, hkm, hs⟩ := forall₂_mem_left hG2 hm
            exact ⟨kk, List.mem_append_right _ hkm, hs⟩
        rcases inv_getEvent_cases g len hsp2 hb4g hqg hR hsrg with
          ⟨qg', hst, hfp', _, _, _, _⟩ |
          ⟨k, e, evt, qg', _, he, hevt, _, hst, hfp', _, _, hR', _, _, _⟩ |
          ⟨e, evt, qg', _, he, hevt, _, hst, hfp', _, _, hR', _, hothers,
            hunch, _⟩
        · have hq' : (step s (LwnlOp.readEvt g len)).queues =
              p1 ++ qg' :: p2 := by
            show ((lwnl_get_event g len s).2.2).queues = _
            rw [hst]
          have hh' : (step s (LwnlOp.readEvt g len)).heap = s.heap := by
            show ((lwnl_get_event g len s).2.2).heap = _
            rw [hst]
          have hfind' : (step s (LwnlOp.readEvt g len)).queues.find?
              (fun x => x.filep == some f) = some qf := by
            rw [hq']
            rw [find?_middle_congr
              (show qg.filep ≠ some f by
                rw [hqg]; exact fun hc => hgf (Option.some_inj.mp hc))
              (show qg'.filep ≠ some f by
                rw [hfp', hqg]
                exact fun hc => hgf (Option.some_inj.mp hc)),
              ← hsp2, hfind]
          have hch : slotChain (step s (LwnlOp.readEvt g len)) f =
              slotChain s f := by
            unfold slotChain
            rw [hfind', hfind, hh']
          exact ⟨⟨qf, hfind'⟩, by rw [hh'], Or.inl hch, fun _ => Or.inl hch⟩
        · have hq' : (step s (LwnlOp.readEvt g len)).queues =
              p1 ++ qg' :: p2 := by
            show ((lwnl_get_event g len s).2.2).queues = _
            rw [hst]
          have hh' : (step s (LwnlOp.readEvt g len)).heap =
              _lwnl_remove_event s.heap e := by
            show ((lwnl_get_event g len s).2.2).heap = _
            rw [hst]
          have hfind' : (step s (LwnlOp.readEvt g len)).queues.find?
              (fun x => x.filep == some f) = some qf := by
            rw [hq']
            rw [find?_middle_congr
              (show qg.filep ≠ some f by
                rw [hqg]; exact fun hc => hgf (Option.some_inj.mp hc))
              (show qg'.filep ≠ some f by
                rw [hfp', hqg]
                exact fun hc => hgf (Option.some_inj.mp hc)),
              ← hsp2, hfind]
          have hR2 : HeapRep (step s (LwnlOp.readEvt g len)).heap L
              (m1 ++ advCursor L k :: m2) := by
            rw [hh']
            exact hR'
          have hch : slotChain (step s (LwnlOp.readEvt g len)) f =
              slotChain s f := by
            rw [slotChain_of_find hR2 hfind' hsrf,
              slotChain_of_find hR hfind hsrf]
          refine ⟨⟨qf, hfind'⟩, ?_, Or.inl hch, fun _ => Or.inl hch⟩
          rw [hh', remove_length]
        · have hq' : (step s (LwnlOp.readEvt g len)).queues =
              p1 ++ qg' :: p2 := by
            show ((lwnl_get_event g len s).2.2).queues = _
            rw [hst]
          have hh' : (step s (LwnlOp.readEvt g len)).heap =
              _lwnl_remove_event s.heap e := by
            show ((lwnl_get_event g len s).2.2).heap = _
            rw [hst]
          have hfind' : (step s (LwnlOp.readEvt g len)).queues.find?
              (fun x => x.filep == some f) = some qf := by
            rw [hq']
            rw [find?_middle_congr
              (show qg.filep ≠ some f by
                rw [hqg]; exact fun hc => hgf (Option.some_inj.mp hc))
              (show qg'.filep ≠ some f by
                rw [hfp', hqg]
                exact fun hc => hgf (Option.some_inj.mp hc)),
              ← hsp2, hfind]
          have hR2 : HeapRep (step s (LwnlOp.readEvt g len)).heap L.tail
              (m1.map (Option.map (fun i => i - 1)) ++
                Option.map (fun i => i - 1) (advCursor L 0) ::
                m2.map (Option.map (fun i => i - 1))) := by
            rw [hh']
            exact hR'
          have hsrf' : SlotRep L.tail qf
              (Option.map (fun i => i - 1) kf?) :=
            slotRep_shift hsrf (fun k hk => hothers k (hk ▸ hkfm))
          have hch : slotChain (step s (LwnlOp.readEvt g len)) f =
              slotChain s f := by
            rw [slotChain_of_find hR2 hfind' hsrf',
              slotChain_of_find hR hfind hsrf]
            cases kf? with
            | none => rfl
            | some kf =>
              have h1kf : 1 ≤ kf := hothers kf hkfm
              show L.tail.drop (kf - 1) = L.drop kf
              rw [← List.drop_one, List.drop_drop]
              congr 1
              omega
          refine ⟨⟨qf, hfind'⟩, ?_, Or.inl hch, fun _ => Or.inl hch⟩
          rw [hh', remove_length]
  | emit t sl ea ba =>
    cases ea with
    | false =>
      have hst : step s (LwnlOp.emit t sl false ba) = s := by
        show (lwnl_add_event t sl false ba s).2 = s
        exact inv_addEvent_noalloc t sl ba s
      rw [hst]
      exact ⟨⟨qf, hfind⟩, Nat.le_refl _, Or.inl rfl, fun _ => Or.inl rfl⟩
    | true =>
      by_cases ht : t = LwnlStatus.LWNL_UNKNOWN
      · subst ht
        obtain ⟨hI', _, hqs, _⟩ := inv_addEvent_unknown sl ba hI
        obtain ⟨hR', hF', _⟩ := hI'
        have hfind' : (step s (LwnlOp.emit .LWNL_UNKNOWN sl true ba)).queues.find?
            (fun x => x.filep == some f) = some qf := by
          show ((lwnl_add_event .LWNL_UNKNOWN sl true ba s).2).queues.find? _ = _
          rw [hqs, hfind]
        obtain ⟨kf?, hkfm, hsrf⟩ :=
          forall₂_mem_left hI.2.1 (List.mem_of_find?_eq_some hfind)
        have hhlen : (step s (LwnlOp.emit .LWNL_UNKNOWN sl true ba)).heap =
            s.heap ++ [some ⟨none, ⟨.LWNL_UNKNOWN, none, 0⟩, 0⟩] := by
          show ((lwnl_add_event .LWNL_UNKNOWN sl true ba s).2).heap = _
          simp [lwnl_add_event]
        have hch : slotChain (step s (LwnlOp.emit .LWNL_UNKNOWN sl true ba)) f =
            slotChain s f := by
          show slotChain (lwnl_add_event .LWNL_UNKNOWN sl true ba s).2 f =
            slotChain s f
          rw [slotChain_of_find hR' (by exact hfind') hsrf,
            slotChain_of_find hI.1 hfind hsrf]
        refine ⟨⟨qf, hfind'⟩, ?_, Or.inl hch, fun _ => Or.inl hch⟩
        rw [hhlen, List.length_append]
        omega
      · obtain ⟨qs1, qs2, hsp, hb4⟩ := find?_split hfind
        obtain ⟨hR, hF, hconn⟩ := hI
        rw [hsp] at hF
        obtain ⟨ks1, kf?, ks2, hks, hlen1, hF1, hsrf, hF2⟩ :=
          forall₂_append_split hF
        subst hks
        have hqfm : qf ∈ s.queues := List.mem_of_find?_eq_some hfind
        have hany : s.queues.any (fun q => q.filep.isSome) = true :=
          List.any_eq_true.mpr ⟨qf, hqfm, by rw [hqff]; rfl⟩
        obtain ⟨hI', hdat2, hdat3, _, hqs'⟩ :=
          inv_addEvent_ok t sl ba ⟨hR, by rw [hsp]; exact hF, hconn⟩ ht
        rw [if_pos hany] at hI'
        obtain ⟨hR', hF', _⟩ := hI'
        have hq' : (step s (LwnlOp.emit t sl true ba)).queues =
            qs1.map (emitSlotUpd s.heap.length) ++
              emitSlotUpd s.heap.length qf ::
              qs2.map (emitSlotUpd s.heap.length) := by
          show ((lwnl_add_event t sl true ba s).2).queues = _
          rw [hqs', hsp, List.map_append, List.map_cons]
        have hmid : (emitSlotUpd s.heap.length qf).filep = some f := by
          rw [emitSlotUpd_filep]
          exact hqff
        have hfind' : (step s (LwnlOp.emit t sl true ba)).queues.find?
            (fun x => x.filep == some f) =
            some (emitSlotUpd s.heap.length qf) := by
          rw [hq']
          refine find?_first _ _ _ ?_ hmid
          intro q' hq'm
          obtain ⟨a, ha, haq⟩ := List.mem_map.mp hq'm
          rw [← haq, emitSlotUpd_filep]
          exact hb4 a ha
        have hzip : List.zipWith (emitCursor L) (qs1 ++ qf :: qs2)
            (ks1 ++ kf? :: ks2) =
            List.zipWith (emitCursor L) qs1 ks1 ++
              emitCursor L qf kf? ::
              List.zipWith (emitCursor L) qs2 ks2 := by
          rw [List.zipWith_append _ _ _ _ _ hlen1.symm]
          rfl
        have hsrmid : SlotRep (L ++ [s.heap.length])
            (emitSlotUpd s.heap.length qf) (emitCursor L qf kf?) := by
          have h0 := hF'
          rw [hqs', hsp, List.map_append, List.map_cons, hzip] at h0
          refine (forall₂_split_at h0 ?_).2.1
          rw [List.length_map, List.length_zipWith, hlen1]
          exact Nat.min_self _
        have hR2 : HeapRep (step s (LwnlOp.emit t sl true ba)).heap
            (L ++ [s.heap.length])
            (List.zipWith (emitCursor L) (qs1 ++ qf :: qs2)
              (ks1 ++ kf? :: ks2)) := by
          show HeapRep ((lwnl_add_event t sl true ba s).2).heap _ _
          rw [← hsp]
          exact hR'
        have hhlen : (step s (LwnlOp.emit t sl true ba)).heap.length =
            s.heap.length + 1 := by
          show ((lwnl_add_event t sl true ba s).2).heap.length = _
          rw [lwnl_add_event_ok t sl ba s ht]
          show ((addEventLoop s.heap.length s.connected _ _).1).length = _
          rw [addEventLoop_length, hmod_length, List.length_append]
          rfl
        have hch : slotChain (step s (LwnlOp.emit t sl true ba)) f =
            slotChain s f ++ [s.heap.length] := by
          rw [slotChain_of_find hR2 hfind' hsrmid,
            slotChain_of_find hR hfind hsrf]
          obtain ⟨fp, ch, fr, re⟩ := qf
          have hfp2 : fp = some f := hqff
          subst hfp2
          cases kf? with
          | none =>
            show (L ++ [s.heap.length]).drop L.length = [] ++ [s.heap.length]
            rw [List.drop_append_of_le_length (Nat.le_refl _),
              List.drop_length, List.nil_append]
          | some k =>
            have hkL : k < L.length :=
              hR.ksLt k (List.mem_append_right _ (List.mem_cons_self _ _))
            show (L ++ [s.heap.length]).drop k = L.drop k ++ [s.heap.length]
            rw [List.drop_append_of_le_length (by omega)]
        refine ⟨⟨emitSlotUpd s.heap.length qf, hfind'⟩, by omega,
          Or.inr (Or.inl hch), ?_⟩
        intro hne
        exact absurd rfl (hne t sl true ba)

theorem checkQueueLoop_first {f : Nat} :
    ∀ (qs1 : List lwnl_queue) (q : lwnl_queue) (qs2 : List lwnl_queue),
    (∀ q' ∈ qs1, q'.filep ≠ some f) → q.filep = some f →
    checkQueueLoop f (qs1 ++ q :: qs2) =
      (if q.front ≠ none then 1 else 0) := by
  intro qs1
  induction qs1 with
  | nil =>
    intro q qs2 _ hq
    rw [List.nil_append]
    unfold checkQueueLoop
    rw [if_pos hq]
  | cons a rest ih =>
    intro q qs2 hb hq
    rw [List.cons_append]
    unfold checkQueueLoop
    rw [if_neg (hb a (List.mem_cons_self _ _)),
      ih q qs2 (fun q' h => hb q' (List.mem_cons_of_mem _ h)) hq]

theorem checkQueue_zero {f : Nat} {s : LwnlState} {q : lwnl_queue}
    (hfind : s.queues.find? (fun x => x.filep == some f) = some q)
    (hfr : q.front = none) :
    lwnl_check_queue f s = 0 := by
  obtain ⟨qs1, qs2, hsp, hb4⟩ := find?_split hfind
  have hqf : q.filep = some f := by
    have h1 := List.find?_some hfind
    exact beq_iff_eq.mp (by exact h1)
  unfold lwnl_check_queue
  rw [hsp, checkQueueLoop_first qs1 q qs2 hb4 hqf,
    if_neg (show ¬(q.front ≠ none) by rw [hfr]; exact fun h => h rfl)]

theorem chain_nil_front_none {f : Nat} {s : LwnlState} {L : List Nat}
    {KS : List (Option Nat)} {q : lwnl_queue} {k? : Option Nat}
    (hR : HeapRep s.heap L KS)
    (hfind : s.queues.find? (fun x => x.filep == some f) = some q)
    (hsr : SlotRep L q k?)
    (hnil : slotChain s f = []) : q.front = none := by
  rw [slotChain_of_find hR hfind hsr] at hnil
  obtain ⟨fp, ch, fr, re⟩ := q
  have hqf : fp = some f := by
    have h1 := List.find?_some hfind
    exact beq_iff_eq.mp (by exact h1)
  subst hqf
  cases fr with
  | none => rfl
  | some f2 =>
    exfalso
    cases k? with
    | none => exact absurd hsr (by simp [SlotRep])
    | some k =>
      have he2 : L[k]? = some f2 := hsr.1
      have hkL : k < L.length := getElem?_some_lt he2
      have : (L.drop k).length = 0 := by
        rw [show chainOf L (some k) = L.drop k from rfl] at hnil
        rw [hnil]
        rfl
      rw [List.length_drop] at this
      omega

/-- Tail-subscription induction: once registered with an all-fresh (or
empty) chain, a consumer's chain only ever holds nodes allocated at or
after registration, and stays empty while nothing is emitted. -/
theorem tail_aux (f n₀ : Nat) :
    ∀ (ops : List LwnlOp) (s : LwnlState),
    ReachInv s →
    (∃ qf, s.queues.find? (fun x => x.filep == some f) = some qf) →
    (∀ op ∈ ops, op ≠ LwnlOp.addLis f ∧ op ≠ LwnlOp.removeLis f) →
    (∀ x ∈ slotChain s f, n₀ ≤ x) →
    n₀ ≤ s.heap.length →
    (∃ qf', (runFrom s ops).queues.find?
      (fun x => x.filep == some f) = some qf') ∧
    (∀ x ∈ slotChain (runFrom s ops) f, n₀ ≤ x) ∧
    n₀ ≤ (runFrom s ops).heap.length ∧
    ((∀ op ∈ ops, ∀ t sl ea ba, op ≠ LwnlOp.emit t sl ea ba) →
      slotChain s f = [] → slotChain (runFrom s ops) f = []) := by
  intro ops
  induction ops with
  | nil =>
    intro s _ hreg _ hbound hlen
    exact ⟨hreg, hbound, hlen, fun _ h => h⟩
  | cons op rest ih =>
    intro s hReach hreg hops hbound hlen
    obtain ⟨L, ks, hI⟩ := hReach
    obtain ⟨qf, hfind⟩ := hreg
    have hop := hops op (List.mem_cons_self _ _)
    obtain ⟨hreg', hmono, hchain, hnoemit⟩ :=
      chain_step hI hfind op hop.1 hop.2
    have hbound' : ∀ x ∈ slotChain (step s op) f, n₀ ≤ x := by
      rcases hchain with hc | hc | ⟨e, hc⟩
      · rw [hc]
        exact hbound
      · rw [hc]
        intro x hx
        rcases List.mem_append.mp hx with hx | hx
        · exact hbound x hx
        · have hxl : x = s.heap.length := List.mem_singleton.mp hx
          omega
      · intro x hx
        exact hbound x (by rw [hc]; exact List.mem_cons_of_mem _ hx)
    have hres := ih (step s op) (reachInv_step ⟨L, ks, hI⟩ op) hreg'
      (fun op' h => hops op' (List.mem_cons_of_mem _ h)) hbound'
      (by omega)
    refine ⟨hres.1, hres.2.1, hres.2.2.1, ?_⟩
    intro hne hnil
    have hnil' : slotChain (step s op) f = [] := by
      rcases hnoemit (fun t sl ea ba =>
          hne op (List.mem_cons_self _ _) t sl ea ba) with hc | ⟨e, hc⟩
      · rw [hc, hnil]
      · rw [hnil] at hc
        exact List.noConfusion hc
    exact hres.2.2.2 (fun op' h => hne op' (List.mem_cons_of_mem _ h)) hnil'

/-- C9: a consumer that registers after some operation history (in
particular after any event `E` was emitted) starts with an empty chain:
every node then existing — hence `E`'s node — has an address below the
registration-time heap size, while the consumer's chain only ever contains
nodes allocated afterwards, so no read ever returns `E`; and `has_pending`
(`lwnl_check_queue`) stays 0 until a later emission. -/
theorem tail_subscription (pre post : List LwnlOp) (f : Nat)
    (hunreg : ∀ q ∈ (run pre).queues, q.filep ≠ some f)
    (hfree : ∃ q ∈ (run pre).queues, q.filep = none)
    (hpost : ∀ op ∈ post, op ≠ LwnlOp.addLis f ∧ op ≠ LwnlOp.removeLis f) :
    (∀ x n, hget (run pre).heap x = some n → x < (run pre).heap.length) ∧
    slotChain (step (run pre) (LwnlOp.addLis f)) f = [] ∧
    lwnl_check_queue f (step (run pre) (LwnlOp.addLis f)) = 0 ∧
    (∀ p q, post = p ++ q →
      ∀ x ∈ slotChain (runFrom (step (run pre) (LwnlOp.addLis f)) p) f,
        (run pre).heap.length ≤ x) ∧
    (∀ p q, post = p ++ q →
      (∀ op ∈ p, ∀ t sl ea ba, op ≠ LwnlOp.emit t sl ea ba) →
      lwnl_check_queue f
        (runFrom (step (run pre) (LwnlOp.addLis f)) p) = 0) := by
  have hReach₀ : ReachInv (run pre) := reachInv_run pre
  obtain ⟨L, ks, hI₀⟩ := reachInv_run pre
  obtain ⟨hR₀, hF₀, hconn₀⟩ := hI₀
  rcases addListenerLoop_cases f (run pre).queues with ⟨_, hocc⟩ |
      ⟨qs1, qa, qs2, hsp, hqa, hb4occ, hsome⟩
  · obtain ⟨q, hqm, hqn⟩ := hfree
    exact absurd hqn (hocc q hqm)
  have hst : step (run pre) (LwnlOp.addLis f) =
      { run pre with
        queues := qs1 ++ { qa with filep := some f } :: qs2,
        connected := (run pre).connected + 1 } := by
    show (lwnl_add_listener f (run pre)).2 = _
    unfold lwnl_add_listener
    rw [hsome]
  have hh₁ : (step (run pre) (LwnlOp.addLis f)).heap = (run pre).heap := by
    rw [hst]
  rw [hsp] at hF₀
  obtain ⟨ks1, k?, ks2, hks, hlen1, hF1, hsr, hF2⟩ :=
    forall₂_append_split hF₀
  subst hks
  obtain ⟨fp, ch, fr, re⟩ := qa
  have hfp : fp = none := hqa
  subst hfp
  obtain ⟨hfr, hre, hch, hkn⟩ := hsr
  dsimp only at hfr hre hch
  subst hkn
  subst hfr
  subst hre
  subst hch
  have hb4f : ∀ q' ∈ qs1, q'.filep ≠ some f := by
    intro q' hq'
    exact hunreg q' (by rw [hsp]; exact List.mem_append_left _ hq')
  have hfind₁ : (step (run pre) (LwnlOp.addLis f)).queues.find?
      (fun x => x.filep == some f) =
      some ⟨some f, 0, none, none⟩ := by
    rw [hst]
    dsimp only
    exact find?_first qs1 _ qs2 hb4f rfl
  have hsr₁ : SlotRep L (⟨some f, 0, none, none⟩ : lwnl_queue) none := by
    exact trivial
  have hR₁ : HeapRep (step (run pre) (LwnlOp.addLis f)).heap L
      (ks1 ++ none :: ks2) := by
    rw [hh₁]
    exact hR₀
  have hnil₁ : slotChain (step (run pre) (LwnlOp.addLis f)) f = [] := by
    rw [slotChain_of_find hR₁ hfind₁ hsr₁]
    rfl
  have hcq₁ : lwnl_check_queue f (step (run pre) (LwnlOp.addLis f)) = 0 :=
    checkQueue_zero hfind₁ rfl
  have hReach₁ : ReachInv (step (run pre) (LwnlOp.addLis f)) :=
    reachInv_step hReach₀ _
  refine ⟨fun x n hx => hget_lt hx, hnil₁, hcq₁, ?_, ?_⟩
  · intro p q hpq
    have hp : ∀ op ∈ p, op ≠ LwnlOp.addLis f ∧ op ≠ LwnlOp.removeLis f :=
      fun op h => hpost op (by rw [hpq]; exact List.mem_append_left _ h)
    have htl := tail_aux f (run pre).heap.length p
      (step (run pre) (LwnlOp.addLis f)) hReach₁ ⟨_, hfind₁⟩ hp
      (by rw [hnil₁]; intro x hx; exact absurd hx (List.not_mem_nil x))
      (by rw [hh₁])
    exact htl.2.1
  · intro p q hpq hne
    have hp : ∀ op ∈ p, op ≠ LwnlOp.addLis f ∧ op ≠ LwnlOp.removeLis f :=
      fun op h => hpost op (by rw [hpq]; exact List.mem_append_left _ h)
    have htl := tail_aux f (run pre).heap.length p
      (step (run pre) (LwnlOp.addLis f)) hReach₁ ⟨_, hfind₁⟩ hp
      (by rw [hnil₁]; intro x hx; exact absurd hx (List.not_mem_nil x))
      (by rw [hh₁])
    obtain ⟨qf', hfind'⟩ := htl.1
    have hnilp : slotChain
        (runFrom (step (run pre) (LwnlOp.addLis f)) p) f = [] :=
      htl.2.2.2 hne hnil₁
    obtain ⟨L', ks', hI'⟩ : ReachInv
        (runFrom (step (run pre) (LwnlOp.addLis f)) p) :=
      reachInv_foldl p _ hReach₁
    obtain ⟨kk, hkkm, hsr'⟩ :=
      forall₂_mem_left hI'.2.1 (List.mem_of_find?_eq_some hfind')
    exact checkQueue_zero hfind'
      (chain_nil_front_none hI'.1 hfind' hsr' hnilp)

/-- Instantiation of `tail_subscription`: one event is emitted with no
listeners, then identity `9` registers — its chain is empty, nothing is
pending, and (with an empty remainder) the pre-existing node, which lives
below the registration-time heap bound, is never observed. -/
theorem tail_subscription_witness :
    (∀ q ∈ (run [LwnlOp.emit LwnlStatus.LWNL_STA_CONNECTED [] true
        true]).queues, q.filep ≠ some 9) ∧
    (∃ q ∈ (run [LwnlOp.emit LwnlStatus.LWNL_STA_CONNECTED [] true
        true]).queues, q.filep = none) ∧
    (∀ op ∈ ([] : List LwnlOp),
      op ≠ LwnlOp.addLis 9 ∧ op ≠ LwnlOp.removeLis 9) ∧
    ((∀ x n, hget (run [LwnlOp.emit LwnlStatus.LWNL_STA_CONNECTED []
          true true]).heap x = some n →
        x < (run [LwnlOp.emit LwnlStatus.LWNL_STA_CONNECTED []
          true true]).heap.length) ∧
      slotChain (step (run [LwnlOp.emit LwnlStatus.LWNL_STA_CONNECTED []
        true true]) (LwnlOp.addLis 9)) 9 = [] ∧
      lwnl_check_queue 9 (step (run [LwnlOp.emit
        LwnlStatus.LWNL_STA_CONNECTED [] true true])
        (LwnlOp.addLis 9)) = 0 ∧
      (∀ p q, ([] : List LwnlOp) = p ++ q →
        ∀ x ∈ slotChain (runFrom (step (run [LwnlOp.emit
            LwnlStatus.LWNL_STA_CONNECTED [] true true])
            (LwnlOp.addLis 9)) p) 9,
          (run [LwnlOp.emit LwnlStatus.LWNL_STA_CONNECTED []
            true true]).heap.length ≤ x) ∧
      (∀ p q, ([] : List LwnlOp) = p ++ q →
        (∀ op ∈ p, ∀ t sl ea ba, op ≠ LwnlOp.emit t sl ea ba) →
        lwnl_check_queue 9 (runFrom (step (run [LwnlOp.emit
          LwnlStatus.LWNL_STA_CONNECTED [] true true])
          (LwnlOp.addLis 9)) p) = 0)) :=
  ⟨by decide, by decide, by decide,
    tail_subscription [LwnlOp.emit LwnlStatus.LWNL_STA_CONNECTED [] true
      true] [] 9 (by decide) (by decide) (by decide)⟩
